import Mathlib

/-!
AFLSmart chunk forest (`smart-chunks.c`).

A shallow embedding of the chunk handler: the descriptor line parser
(`split_line_on_comma`), the path resolver (`hash_code`, `next_lower_chunk`),
the forest builder (`add_path`) and the structural editor
(`reduce_byte_positions`, `increase_byte_positions_except_target_children`,
`search_and_destroy_chunk`).

Conventions of the embedding.

* A C `int` is an `Int`; the result of an arithmetic operation is brought back
  into the 32-bit range by `to_int` (two's complement wrap-around).
* A value of type `struct chunk *` is a `chunk`: either `NULL` or a node with
  its scalar fields, its `next` pointer and its `children` pointer.  The field
  `addr` of a node is the address of that node, so that the pointer comparison
  `sibling == target` of the C code is a comparison of addresses.
* The field `id` (an `unsigned long`) is a `Nat`; a hash code is stored into it
  and compared with it through `to_ulong`.  The field `modifiable` (a `char`
  holding 0 or 1) is a `Bool`.
* `malloc` is a bump allocator: the allocator state is the next free address
  and allocation never fails.
* A C string is the list of its `char` values before the terminating NUL.
  A function that leaves the string or overruns the scratch buffer has
  undefined behaviour in C and returns `none` here.
* `atoi` is the function of the C library: `strtol`, saturating at `LONG_MAX`
  (64 bits), converted to `int`, so that a value above `INT_MAX` wraps.
-/

set_option autoImplicit false

namespace SmartChunks

/-! ## Machine integers -/

/-- Conversion of an integer to the 32-bit two's complement `int`. -/
def to_int (x : Int) : Int := (x + 2147483648) % 4294967296 - 2147483648

/-- Conversion of an `int` to `unsigned long` (64 bits), as done when a hash code
is stored into or compared with the field `id`. -/
def to_ulong (x : Int) : Nat := (x % 18446744073709551616).toNat

/-! ## The chunk forest -/

/-- The scalar fields of `struct chunk`, together with the address of the node. -/
structure fields where
  addr : Nat
  id : Nat
  type : Int
  start_byte : Int
  end_byte : Int
  modifiable : Bool
deriving DecidableEq, Repr

/-- A pointer to a `struct chunk` with everything reachable from it. -/
inductive chunk where
  | NULL : chunk
  | node (f : fields) (next : chunk) (children : chunk) : chunk
deriving DecidableEq, Repr

/-- Number of nodes reachable from a pointer. -/
def chunk.size : chunk → Nat
  | .NULL => 0
  | .node _ next children => 1 + next.size + children.size

/-! ## Structural editor -/

/-- The two guarded subtractions at the head of the loop body of
`reduce_byte_positions` (and of `search_and_destroy_chunk`). -/
def reduce_fields (f : fields) (start_byte : Int) (size : Nat) : fields :=
  { f with
    start_byte := if f.start_byte ≥ 0 ∧ f.start_byte > start_byte
      then to_int (f.start_byte - size) else f.start_byte
    end_byte := if f.end_byte ≥ 0 ∧ f.end_byte ≥ start_byte
      then to_int (f.end_byte - size) else f.end_byte }

/-- Embedding of `reduce_byte_positions`. -/
def reduce_byte_positions : chunk → Int → Nat → chunk
  | .NULL, _, _ => .NULL
  | .node f next children, start_byte, size =>
    .node (reduce_fields f start_byte size)
      (reduce_byte_positions next start_byte size)
      (reduce_byte_positions children start_byte size)

/-- The two guarded additions at the head of the loop body of
`increase_byte_positions_except_target_children`. -/
def increase_fields (f : fields) (start_byte : Int) (size : Nat) : fields :=
  { f with
    start_byte := if f.start_byte ≥ 0 ∧ f.start_byte > start_byte
      then to_int (f.start_byte + size) else f.start_byte
    end_byte := if f.end_byte ≥ 0 ∧ f.end_byte ≥ start_byte
      then to_int (f.end_byte + size) else f.end_byte }

/-- Embedding of `increase_byte_positions_except_target_children`; the pointer
`target` is `none` for `NULL`. -/
def increase_byte_positions_except_target_children :
    chunk → Option Nat → Int → Nat → chunk
  | .NULL, _, _, _ => .NULL
  | .node f next children, target, start_byte, size =>
    .node (increase_fields f start_byte size)
      (increase_byte_positions_except_target_children next target start_byte size)
      (if some f.addr ≠ target
        then increase_byte_positions_except_target_children children target start_byte size
        else children)

/-- Embedding of `search_and_destroy_chunk`.  When the current sibling is the
target it is unlinked and freed with its children, the rest of the sibling list
goes through `reduce_byte_positions`, and the loop continues on that rest. -/
def search_and_destroy_chunk (c : chunk) (target_chunk : Option Nat)
    (start_byte : Int) (size : Nat) : chunk :=
  match c with
  | .NULL => .NULL
  | .node f next children =>
    if some f.addr = target_chunk then
      search_and_destroy_chunk (reduce_byte_positions next start_byte size)
        target_chunk start_byte size
    else
      .node (reduce_fields f start_byte size)
        (search_and_destroy_chunk next target_chunk start_byte size)
        (search_and_destroy_chunk children target_chunk start_byte size)
termination_by c.size
decreasing_by
  all_goals simp_wf
  · have h : ∀ d : chunk, (reduce_byte_positions d start_byte size).size = d.size := by
      intro d
      induction d with
      | NULL => rfl
      | node _ nx ch ihn ihc => simp [reduce_byte_positions, chunk.size, ihn, ihc]
    simp only [chunk.size, h]
    omega
  · simp only [chunk.size]
    omega
  · simp only [chunk.size]
    omega

/-- Embedding of `copy_chunks`, with the allocator state before and after: the
copy of a node is allocated first, then the copy of its later siblings, then
the copy of its children; `memcpy` gives the copy the scalar fields of the
node. -/
def copy_chunks : Nat → chunk → Nat × chunk
  | brk, .NULL => (brk, .NULL)
  | brk, .node f next children =>
    ((copy_chunks (copy_chunks (brk + 1) next).1 children).1,
      .node { f with addr := brk } (copy_chunks (brk + 1) next).2
        (copy_chunks (copy_chunks (brk + 1) next).1 children).2)

/-! ## C strings -/

/-- The `char` values of an ASCII text. -/
def cstr (s : String) : List Int := s.toList.map (fun c => (c.toNat : Int))

/-- The C library predicate `isdigit`. -/
def isdigit (c : Int) : Bool := decide (48 ≤ c) && decide (c ≤ 57)

/-! ## Path resolver -/

/-- The loop of `hash_code`, started with the accumulator `h`: it stops at the
first NUL or at the end of the text. -/
def hash_code_from (h : Int) : List Int → Int
  | [] => h
  | c :: cs => if c = 0 then h else hash_code_from (to_int (31 * h + c)) cs

/-- Embedding of `hash_code`. -/
def hash_code (str : List Int) : Int := hash_code_from 0 str

/-- The characters at which the first loop of `next_lower_chunk` stops: tilde,
newline, NUL and comma. -/
def is_segment_end (c : Int) : Bool :=
  decide (c = 126) || decide (c = 10) || decide (c = 0) || decide (c = 44)

/-- The first loop of `next_lower_chunk`: the number of characters before the
first segment end (the end of the text is the terminating NUL). -/
def segment_length : List Int → Nat
  | [] => 0
  | c :: cs => if is_segment_end c then 0 else segment_length cs + 1

/-- The second loop of `next_lower_chunk`, on the reversed copy of the segment:
it walks back over digits; at an underscore the copy is cut there (the result is
the reversed text before the underscore); at any other character, or when the
start of the copy is passed, nothing is cut. -/
def cut_at_last_underscore : List Int → Option (List Int)
  | [] => none
  | c :: cs =>
    if c = 95 then some cs
    else if !isdigit c then none
    else cut_at_last_underscore cs

/-- The content of `tmp` when `next_lower_chunk` computes the type hash. -/
def type_text (tmp : List Int) : List Int :=
  match cut_at_last_underscore tmp.reverse with
  | some r => r.reverse
  | none => tmp

/-- The results of `next_lower_chunk`: the returned value and the three outputs. -/
structure lower_chunk where
  ret : Int
  length : Nat
  hash : Int
  type_hash : Int
deriving DecidableEq, Repr

/-- Embedding of `next_lower_chunk` for a non-NULL `path`. -/
def next_lower_chunk (path : List Int) : lower_chunk :=
  let length := segment_length path
  let tmp := path.take length
  { ret := if (path.drop length).head? = some 126 then -1 else 0
    length := length
    hash := hash_code tmp
    type_hash := hash_code (type_text tmp) }

/-! ## Descriptor line parser -/

/-- Size of the scratch buffer of `split_line_on_comma`. -/
def READ_LINE_BUFFER_SIZE : Nat := 1024

/-- The loop `while (isdigit( *end++ ));`: the digits passed over, and the text
after the character that stopped the loop.  When that character is the
terminating NUL, `end` has left the string and there is no text after it. -/
def scan_digits : List Int → List Int × Option (List Int)
  | [] => ([], none)
  | c :: cs =>
    if isdigit c then (c :: (scan_digits cs).1, (scan_digits cs).2) else ([], some cs)

/-- Value of a run of decimal digits. -/
def decimal_value (ds : List Int) : Int := ds.foldl (fun v c => 10 * v + (c - 48)) 0

/-- The C library function `atoi` on a run of decimal digits: the value that
`strtol` gives, a `long` of 64 bits that stops at `LONG_MAX`, converted to
`int`.  A value above `INT_MAX` comes back wrapped: `2147483648` gives
`-2147483648` and `4294967301` gives `5`. -/
def atoi (ds : List Int) : Int := to_int (min (decimal_value ds) 9223372036854775807)

/-- The copy of a digit run into the scratch buffer followed by `atoi`: the run
and its NUL have to fit in the buffer. -/
def atoi_copy (ds : List Int) : Option Int :=
  if ds.length < READ_LINE_BUFFER_SIZE then some (atoi ds) else none

/-- The characters at which the path of a line stops: newline, NUL and comma. -/
def is_path_end (c : Int) : Bool := decide (c = 10) || decide (c = 0) || decide (c = 44)

/-- The outputs of `split_line_on_comma`. -/
structure split_line where
  start_byte : Int
  end_byte : Int
  path : List Int
  modifiable : Bool
deriving DecidableEq, Repr

/-- Embedding of `split_line_on_comma` (allocation of the scratch buffer
succeeds). -/
def split_line_on_comma (line : List Int) : Option split_line :=
  match atoi_copy (scan_digits line).1, (scan_digits line).2 with
  | some start_byte, some l1 =>
    match atoi_copy (scan_digits l1).1, (scan_digits l1).2 with
    | some end_byte, some l2 =>
      let path := l2.takeWhile (fun c => !is_path_end c)
      let modifiable :=
        match l2.drop path.length with
        | c :: rest => decide (c = 44) && decide (rest.take 7 = cstr "Enabled")
        | [] => false
      some { start_byte := start_byte, end_byte := end_byte, path := path,
             modifiable := modifiable }
    | _, _ => none
  | _, _ => none

/-! ## Forest builder -/

/-- What a run of `add_path` leaves behind: the allocator state and the forest,
and, for the statements about the run, the addresses taken by `current_chunk`
for the successive segments of the path and whether the final store of the byte
range was reached (it then went to the last address of the trace). -/
structure path_result where
  brk : Nat
  tree : chunk
  trace : List Nat
  stored : Bool
deriving DecidableEq, Repr

/-- The fields given to a chunk that `add_path` has just allocated at `addr`. -/
def new_chunk (addr : Nat) (r : lower_chunk) (modifiable : Bool) : fields :=
  { addr := addr, id := to_ulong r.hash, type := r.type_hash, start_byte := -1,
    end_byte := -1, modifiable := modifiable }

/-- The statement
`if (!current_chunk->modifiable) current_chunk->modifiable = modifiable;`. -/
def or_modifiable (f : fields) (modifiable : Bool) : fields :=
  { f with modifiable := if !f.modifiable then modifiable else f.modifiable }

/-- The `do ... while (c)` search of a non-empty child list: whether a sibling
with id `h` is met. -/
def chunk_found (h : Nat) : chunk → Bool
  | .NULL => false
  | .node g next _ => decide (g.id = h) || chunk_found h next

/-- Run `k` on the first sibling whose id is `h`, the siblings before it being
kept as they are. -/
def on_found (h : Nat) (k : fields → chunk → chunk → Option path_result) :
    chunk → Option path_result
  | .NULL => none
  | .node g next children =>
    if g.id = h then k g next children
    else (on_found h k next).map (fun res => { res with tree := .node g res.tree children })

/-- The `while (non_last)` loop of `add_path` followed by the final store of the
byte range, run on the current chunk (its fields `f`, its `next` pointer and
its `children` pointer); the tree of the result is the updated current chunk
and the trace starts with the current chunk.  The first argument bounds the
number of iterations. -/
def add_path_loop (modifiable : Bool) (start_byte end_byte : Int) :
    Nat → Nat → fields → chunk → chunk → Int → List Int → Option path_result
  | 0, _, _, _, _, _, _ => none
  | fuel + 1, brk, f, next_sibling, children, non_last, next =>
    if non_last = 0 then
      some { brk := brk
             tree := .node { f with start_byte := start_byte, end_byte := end_byte }
               next_sibling children
             trace := [f.addr]
             stored := true }
    else
      let r := next_lower_chunk next
      if r.length = 0 then
        some { brk := brk, tree := .node f next_sibling children, trace := [f.addr],
               stored := false }
      else
        let k := fun (b : Nat) (g : fields) (nx ch : chunk) =>
          add_path_loop modifiable start_byte end_byte fuel b (or_modifiable g modifiable)
            nx ch r.ret (next.drop (r.length + 1))
        let sub :=
          match children with
          | .NULL => k (brk + 1) (new_chunk brk r modifiable) .NULL .NULL
          | .node c cn cc =>
            if chunk_found (to_ulong r.hash) (.node c cn cc)
            then on_found (to_ulong r.hash) (k brk) (.node c cn cc)
            else k (brk + 1) (new_chunk brk r modifiable) (.node c cn cc) .NULL
        sub.map (fun res => { res with tree := .node f next_sibling res.tree
                                       trace := f.addr :: res.trace })

/-- Embedding of `add_path`; `brk` is the allocator state before the call. -/
def add_path (brk : Nat) (tree : chunk) (line : List Int) : Option path_result :=
  match split_line_on_comma line with
  | none => none
  | some l =>
    let r := next_lower_chunk l.path
    if r.length = 0 then some { brk := brk, tree := tree, trace := [], stored := false }
    else
      let next := l.path.drop (r.length + 1)
      let loop := add_path_loop l.modifiable l.start_byte l.end_byte (next.length + 1)
      match tree with
      | .NULL => loop (brk + 1) (new_chunk brk r l.modifiable) .NULL .NULL r.ret next
      | .node f next_sibling children =>
        if f.id ≠ to_ulong r.hash then
          (loop (brk + 1) (or_modifiable (new_chunk brk r l.modifiable) l.modifiable)
            next_sibling .NULL r.ret next).map
            (fun res => { res with tree := .node f res.tree children })
        else
          loop brk (or_modifiable f l.modifiable) next_sibling children r.ret next

/-- The loop of `get_chunks` over the lines that `getline` delivers, started
from any forest. -/
def add_paths : Nat → chunk → List (List Int) → Option (Nat × chunk)
  | brk, tree, [] => some (brk, tree)
  | brk, tree, line :: lines =>
    match add_path brk tree line with
    | none => none
    | some res => add_paths res.brk res.tree lines

/-- Embedding of `get_chunks` for a descriptor file that can be opened, given by
its lines. -/
def get_chunks (brk : Nat) (lines : List (List Int)) : Option (Nat × chunk) :=
  add_paths brk .NULL lines

/-! ## Specification-level notions for the path resolver -/

/-- The polynomial of Java's `String.hashCode` started from `h`, in exact
integer arithmetic: every character is taken and nothing wraps around. -/
def poly_from (h : Int) : List Int → Int
  | [] => h
  | c :: cs => poly_from (31 * h + c) cs

/-- The polynomial of Java's `String.hashCode` as a sum: the character at index
`i` of a text of length `n` is multiplied by `31 ^ (n - 1 - i)`. -/
def hash_sum (cs : List Int) : Int :=
  Finset.sum (Finset.range cs.length) (fun i => cs.getD i 0 * 31 ^ (cs.length - 1 - i))

/-! ## Specification-level notions for the structural editor -/

/-- Apply `g` to the scalar fields of every node reachable from a pointer; the
links (sibling order and nesting) are kept. -/
def chunk.map (g : fields → fields) : chunk → chunk
  | .NULL => .NULL
  | .node f next children => .node (g f) (next.map g) (children.map g)

/-- Apply `g` to the scalar fields of every node except the proper descendants
of a node whose address is `target`. -/
def chunk.map_outside (g : fields → fields) (target : Option Nat) : chunk → chunk
  | .NULL => .NULL
  | .node f next children =>
    .node (g f) (next.map_outside g target)
      (if some f.addr = target then children else children.map_outside g target)

/-- The shrink rule as the specification words it: `start` moves down by `n`
when `start > p`, `end` moves down by `n` when `end >= p`. -/
def shrink_rule (p : Int) (n : Nat) (f : fields) : fields :=
  { f with
    start_byte := if f.start_byte > p then to_int (f.start_byte - n) else f.start_byte
    end_byte := if f.end_byte ≥ p then to_int (f.end_byte - n) else f.end_byte }

/-- The grow rule as the specification words it: `start` moves up by `n` when
`start > p`, `end` moves up by `n` when `end >= p`. -/
def grow_rule (p : Int) (n : Nat) (f : fields) : fields :=
  { f with
    start_byte := if f.start_byte > p then to_int (f.start_byte + n) else f.start_byte
    end_byte := if f.end_byte ≥ p then to_int (f.end_byte + n) else f.end_byte }

/-- Forget the byte range of every node (both offsets become unknown). -/
def forget_ranges (c : chunk) : chunk :=
  c.map (fun f => { f with start_byte := -1, end_byte := -1 })

/-- Deletion of the node at address `target` with its entire subtree; every
other node stays where it is. -/
def remove_subtree : chunk → Option Nat → chunk
  | .NULL, _ => .NULL
  | .node f next children, target =>
    if some f.addr = target then remove_subtree next target
    else .node f (remove_subtree next target) (remove_subtree children target)

/-- Addresses of the nodes reachable from a pointer: a node, then its
descendants, then its later siblings. -/
def chunk.addrs : chunk → List Nat
  | .NULL => []
  | .node f next children => f.addr :: (children.addrs ++ next.addrs)

/-- Addresses of the node at address `target` and of all its descendants. -/
def subtree_addrs : chunk → Nat → List Nat
  | .NULL, _ => []
  | .node f next children, target =>
    if f.addr = target then f.addr :: children.addrs
    else subtree_addrs children target ++ subtree_addrs next target

/-- Forget the address of every node: what is left is the sibling order, the
nesting, and the id, type, start, end and modifiable flag of every node. -/
def forget_addrs (c : chunk) : chunk :=
  c.map (fun f => { f with addr := 0 })

/-- A top-level sibling without children, used to build example forests. -/
def leaf_chunk (addr : Nat) (start_byte end_byte : Int) (next : chunk) : chunk :=
  .node ⟨addr, addr, 0, start_byte, end_byte, false⟩ next .NULL

/-- The forest of Scenario D: three top-level siblings `[0,9] [10,19] [20,29]`
at addresses 1, 2 and 3. -/
def scenario_D : chunk :=
  leaf_chunk 1 0 9 (leaf_chunk 2 10 19 (leaf_chunk 3 20 29 .NULL))

/-! ## Specification-level notions for the forest builder -/

/-- The byte range of every node, with the address of the node. -/
def chunk.ranges : chunk → List (Nat × Int × Int)
  | .NULL => []
  | .node f next children =>
    (f.addr, f.start_byte, f.end_byte) :: (children.ranges ++ next.ranges)

/-- The modifiable flag of every node, with the address of the node. -/
def chunk.flags : chunk → List (Nat × Bool)
  | .NULL => []
  | .node f next children => (f.addr, f.modifiable) :: (children.flags ++ next.flags)

/-- A heap in which the forest lies: the addresses of its nodes are pairwise
distinct and below the next free address. -/
def heap_ok (brk : Nat) (tree : chunk) : Prop :=
  tree.addrs.Nodup ∧ ∀ a ∈ tree.addrs, a < brk

/-- The flag announced by the text that follows the path of a line: a comma
immediately followed by `Enabled`. -/
def line_flag (term : List Int) : Bool :=
  match term with
  | c :: rest => decide (c = 44) && decide (rest.take 7 = cstr "Enabled")
  | [] => false

/-- A descriptor line: two digit runs, each followed by one character, then the
segments of the path joined by tildes, then the text `term`. -/
def descriptor_line (d1 : List Int) (s1 : Int) (d2 : List Int) (s2 : Int)
    (path term : List Int) : List Int :=
  d1 ++ s1 :: (d2 ++ s2 :: (path ++ term))

/-- The two offsets of a line are read as written: each is a run of fewer than
1024 decimal digits with a value that fits in an `int`, followed by a character
that is not a digit; and `term` is empty or starts with a newline, a NUL or a
comma. -/
structure well_formed_offsets (d1 : List Int) (s1 : Int) (d2 : List Int) (s2 : Int)
    (term : List Int) : Prop where
  digits1 : ∀ c ∈ d1, isdigit c = true
  digits2 : ∀ c ∈ d2, isdigit c = true
  length1 : d1.length < READ_LINE_BUFFER_SIZE
  length2 : d2.length < READ_LINE_BUFFER_SIZE
  value1 : decimal_value d1 ≤ 2147483647
  value2 : decimal_value d2 ≤ 2147483647
  delim1 : isdigit s1 = false
  delim2 : isdigit s2 = false
  term_end : ∀ c rest, term = c :: rest → is_path_end c = true

/-- The segments of a well-formed path: each is non-empty and contains no tilde,
newline, NUL or comma. -/
def segments_ok (segs : List (List Int)) : Prop :=
  ∀ seg ∈ segs, seg ≠ [] ∧ ∀ c ∈ seg, is_segment_end c = false

/-- A path: its segments joined by tildes. -/
def join_segments : List (List Int) → List Int
  | [] => []
  | [seg] => seg
  | seg :: segs => seg ++ 126 :: join_segments segs

/-- The chain of chunks, allocated from `addr` on, that a path makes under an
empty child list: one chunk per segment, each the only child of the one before;
the last one carries the byte range, the others have an unknown range. -/
def chain (modifiable : Bool) (start_byte end_byte : Int) : Nat → List (List Int) → chunk
  | _, [] => .NULL
  | addr, seg :: segs =>
    .node { addr := addr
            id := to_ulong (hash_code seg)
            type := hash_code (type_text seg)
            start_byte := if segs.isEmpty then start_byte else -1
            end_byte := if segs.isEmpty then end_byte else -1
            modifiable := modifiable }
      .NULL (chain modifiable start_byte end_byte (addr + 1) segs)

/-- The three places of `add_path`: the choice of the top-level chunk, the loop
entered on a current chunk, and the search of a child list for the chunk to
continue with. -/
inductive phase where
  | top : phase
  | loop : phase
  | search : phase
deriving DecidableEq, Repr

/-- The shape of a run of `add_path` for a line with flag `m` and range `(s, e)`,
without the texts of the path: `run m s e ph brk c res` says that in phase `ph`,
with allocator state `brk`, the list or chunk `c` can be turned into the result
`res`. -/
inductive run (m : Bool) (s e : Int) : phase → Nat → chunk → path_result → Prop where
  | skip (brk : Nat) (tree : chunk) :
    run m s e .top brk tree { brk := brk, tree := tree, trace := [], stored := false }
  | first (brk : Nat) (r : lower_chunk) (res : path_result) :
    run m s e .loop (brk + 1) (.node (new_chunk brk r m) .NULL .NULL) res →
    run m s e .top brk .NULL res
  | insert (brk : Nat) (f : fields) (nx ch : chunk) (r : lower_chunk) (res : path_result) :
    run m s e .loop (brk + 1) (.node (new_chunk brk r m) nx .NULL) res →
    run m s e .top brk (.node f nx ch)
      { brk := res.brk, tree := .node f res.tree ch, trace := res.trace
        stored := res.stored }
  | reuse (brk : Nat) (f : fields) (nx ch : chunk) (res : path_result) :
    run m s e .loop brk (.node (or_modifiable f m) nx ch) res →
    run m s e .top brk (.node f nx ch) res
  | store (brk : Nat) (f : fields) (nx ch : chunk) :
    run m s e .loop brk (.node f nx ch)
      { brk := brk, tree := .node { f with start_byte := s, end_byte := e } nx ch
        trace := [f.addr], stored := true }
  | abort (brk : Nat) (f : fields) (nx ch : chunk) :
    run m s e .loop brk (.node f nx ch)
      { brk := brk, tree := .node f nx ch, trace := [f.addr], stored := false }
  | create (brk : Nat) (f : fields) (nx ch : chunk) (r : lower_chunk) (res : path_result) :
    run m s e .loop (brk + 1) (.node (new_chunk brk r m) ch .NULL) res →
    run m s e .loop brk (.node f nx ch)
      { brk := res.brk, tree := .node f nx res.tree, trace := f.addr :: res.trace
        stored := res.stored }
  | descend (brk : Nat) (f : fields) (nx ch : chunk) (res : path_result) :
    run m s e .search brk ch res →
    run m s e .loop brk (.node f nx ch)
      { brk := res.brk, tree := .node f nx res.tree, trace := f.addr :: res.trace
        stored := res.stored }
  | here (brk : Nat) (g : fields) (nx ch : chunk) (res : path_result) :
    run m s e .loop brk (.node (or_modifiable g m) nx ch) res →
    run m s e .search brk (.node g nx ch) res
  | later (brk : Nat) (g : fields) (nx ch : chunk) (res : path_result) :
    run m s e .search brk nx res →
    run m s e .search brk (.node g nx ch)
      { brk := res.brk, tree := .node g res.tree ch, trace := res.trace
        stored := res.stored }

/-- Addresses of the nodes of a sibling list, in the order of the list. -/
def chunk.sibling_addrs : chunk → List Nat
  | .NULL => []
  | .node f next _ => f.addr :: next.sibling_addrs

/-- Ids of the nodes of a sibling list, in the order of the list. -/
def chunk.sibling_ids : chunk → List Nat
  | .NULL => []
  | .node f next _ => f.id :: next.sibling_ids

/-- The child list of the first node of a list. -/
def chunk.children : chunk → chunk
  | .NULL => .NULL
  | .node _ _ children => children

/-- The sibling list made of the nodes `pre`, each with its children, followed by
the list `c`. -/
def attach : List (fields × chunk) → chunk → chunk
  | [], c => c
  | p :: pre, c => .node p.1 (attach pre c) p.2

/-- In every child list of the forest, no two nodes have the same id. -/
def child_ids_nodup : chunk → Prop
  | .NULL => True
  | .node _ next children =>
    children.sibling_ids.Nodup ∧ child_ids_nodup children ∧ child_ids_nodup next

/-- In every child list of the forest, the addresses are strictly decreasing: a
chunk allocated later stands before a chunk allocated earlier. -/
def child_lists_desc : chunk → Prop
  | .NULL => True
  | .node _ next children =>
    children.sibling_addrs.Pairwise (fun a b => a > b) ∧ child_lists_desc children
      ∧ child_lists_desc next

/-- In the top-level list, the first chunk has the smallest address and the
addresses after it are strictly decreasing. -/
def top_list_desc : chunk → Prop
  | .NULL => True
  | .node f next _ =>
    next.sibling_addrs.Pairwise (fun a b => a > b) ∧ ∀ a ∈ next.sibling_addrs, f.addr < a

/-- The id of the first chunk of the top-level list occurs only once in that
list. -/
def head_id_unique : chunk → Prop
  | .NULL => True
  | .node f next _ => f.id ∉ next.sibling_ids

/-- A path whose first segments are `segs` and in which a zero-length segment
follows: `tail` is empty or starts with a tilde. -/
def truncated_path : List (List Int) → List Int → List Int
  | [], tail => tail
  | seg :: segs, tail => seg ++ 126 :: truncated_path segs tail

/-- Two results of `add_path` that differ only by the final store of the byte
range: the second one did not reach it; allocator, trace and, byte ranges
apart, forest are the same. -/
def same_but_stored (rg rb : path_result) : Prop :=
  rb.brk = rg.brk ∧ rb.trace = rg.trace ∧ rb.stored = false ∧ rg.stored = true
    ∧ forget_ranges rb.tree = forget_ranges rg.tree

/-- The forest that `add_path` builds at address 100 from the first line of
Scenario B, `10 19 header~checksum`. -/
def scenario_B_first : chunk :=
  .node { addr := 100, id := to_ulong (hash_code (cstr "header"))
          type := hash_code (cstr "header"), start_byte := -1, end_byte := -1
          modifiable := false } .NULL
    (.node { addr := 101, id := to_ulong (hash_code (cstr "checksum"))
             type := hash_code (cstr "checksum"), start_byte := 10, end_byte := 19
             modifiable := false } .NULL .NULL)

/-- The forest that `add_path` builds at address 100 from the first line of
Scenario C, `0 4 a~b`. -/
def scenario_C_first : chunk :=
  .node { addr := 100, id := 97, type := 97, start_byte := -1, end_byte := -1
          modifiable := false } .NULL
    (.node { addr := 101, id := 98, type := 98, start_byte := 0, end_byte := 4
             modifiable := false } .NULL .NULL)

/-- A forest with a nested chunk: `[0,29]` at address 1 with the children `[0,9]`
(address 2, itself with the child `[0,4]` at address 5) and `[10,19]` (address
3), followed by the top-level sibling `[30,39]` at address 4. -/
def nested_forest : chunk :=
  .node ⟨1, 7, 0, 0, 29, false⟩ (leaf_chunk 4 30 39 .NULL)
    (.node ⟨2, 8, 0, 0, 9, true⟩ (leaf_chunk 3 10 19 .NULL) (leaf_chunk 5 0 4 .NULL))

/-- The top-level list `a`, `b` that `add_path` builds at address 100 from the
lines `0 1 a` and `0 1 b`. -/
def top_a_b : chunk :=
  .node ⟨100, 97, 97, 0, 1, false⟩ (.node ⟨101, 98, 98, 0, 1, false⟩ .NULL .NULL) .NULL

/-- The child list of every node reachable from a pointer: for a node, its own
child list, then the child lists inside its subtree, then those of its later
siblings.  The top-level list itself is not among them. -/
def chunk.child_lists : chunk → List chunk
  | .NULL => []
  | .node _ next children => children :: (children.child_lists ++ next.child_lists)

/-- Every known (non-negative) offset of the forest can be moved up by `n`
without leaving the range of `int`. -/
def offsets_fit (c : chunk) (n : Nat) : Prop :=
  ∀ x ∈ c.ranges, (0 ≤ x.2.1 → x.2.1 + n ≤ 2147483647) ∧ (0 ≤ x.2.2 → x.2.2 + n ≤ 2147483647)

/-! ## Specification-level notions for the chunks that a path names -/

/-- The id under which a segment is looked up: its hash code, as the field `id`
stores it. -/
def segment_id (seg : List Int) : Nat := to_ulong (hash_code seg)

/-- The first node of a sibling list whose id is `h`, with its child list. -/
def first_with_id (h : Nat) : chunk → Option (fields × chunk)
  | .NULL => none
  | .node f next children => if f.id = h then some (f, children) else first_with_id h next

/-- The chunks that a path, given by the ids of its segments, names in a forest:
the first chunk of the list whose id is the first id, then the first of its
children whose id is the second id, and so on, as far as such chunks exist. -/
def named_chunks : chunk → List Nat → List fields
  | _, [] => []
  | c, h :: hs =>
    match first_with_id h c with
    | none => []
    | some (f, children) => f :: named_chunks children hs

/-- The addresses of the chunks of a forest that `add_path` can reuse for a path:
the head of the top-level list when its id is the first id (no other top-level
chunk is looked at), then the chunks that the rest of the path names under
it. -/
def reused_chunks : chunk → List Nat → List Nat
  | .NULL, _ => []
  | .node _ _ _, [] => []
  | .node f _ children, h :: hs =>
    if f.id = h then f.addr :: (named_chunks children hs).map (fun g => g.addr) else []

/-- The addresses of the chunks of a path in a forest with allocator state `brk`:
the chunks that can be reused, then one newly allocated chunk for each further
segment. -/
def visited_chunks (brk : Nat) (tree : chunk) (ids : List Nat) : List Nat :=
  reused_chunks tree ids ++ List.range' brk (ids.length - (reused_chunks tree ids).length)

/-- What is left of a path when the loop of `add_path` is entered with `non_last`
equal to `nl`: either the non-empty segments `segs` joined by tildes, or the
segments `segs` followed by a zero-length segment. -/
def path_of (segs : List (List Int)) (nl : Int) (path : List Int) : Prop :=
  (nl = (if segs.isEmpty then 0 else -1) ∧ path = join_segments segs)
    ∨ (nl = -1 ∧ ∃ tail, (tail = [] ∨ ∃ t, tail = 126 :: t) ∧ path = truncated_path segs tail)

/-- The forest that `add_path` builds at address 100 from the lines `0 1 p~a`
and `2 3 p~b`: the chunk `p` with the children `b` (at 102) and `a` (at 101). -/
def p_b_a : chunk :=
  .node ⟨100, 112, 112, -1, -1, false⟩ .NULL
    (.node ⟨102, 98, 98, 2, 3, false⟩ (.node ⟨101, 97, 97, 0, 1, false⟩ .NULL .NULL) .NULL)

/-! ## Theorems -/

theorem size_reduce_byte_positions (c : chunk) (p : Int) (n : Nat) :
    (reduce_byte_positions c p n).size = c.size := by
  induction c with
  | NULL => rfl
  | node f next children ihn ihc => simp [reduce_byte_positions, chunk.size, ihn, ihc]

theorem reduce_fields_eq_shrink_rule (f : fields) (p : Int) (n : Nat) (hp : 0 ≤ p) :
    reduce_fields f p n = shrink_rule p n f := by
  obtain ⟨a, i, t, s, e, m⟩ := f
  unfold reduce_fields shrink_rule
  by_cases hs : s > p <;> by_cases he : e ≥ p
  · have hs0 : 0 ≤ s := by omega
    have he0 : 0 ≤ e := by omega
    simp [hs, he, hs0, he0]
  · have hs0 : 0 ≤ s := by omega
    simp [hs, he, hs0]
  · have he0 : 0 ≤ e := by omega
    simp [hs, he, he0]
  · simp [hs, he]

theorem increase_fields_eq_grow_rule (f : fields) (p : Int) (n : Nat) (hp : 0 ≤ p) :
    increase_fields f p n = grow_rule p n f := by
  obtain ⟨a, i, t, s, e, m⟩ := f
  unfold increase_fields grow_rule
  by_cases hs : s > p <;> by_cases he : e ≥ p
  · have hs0 : 0 ≤ s := by omega
    have he0 : 0 ≤ e := by omega
    simp [hs, he, hs0, he0]
  · have hs0 : 0 ≤ s := by omega
    simp [hs, he, hs0]
  · have he0 : 0 ≤ e := by omega
    simp [hs, he, he0]
  · simp [hs, he]

theorem to_int_of_range (x : Int) (h0 : -2147483648 ≤ x) (h1 : x ≤ 2147483647) :
    to_int x = x := by
  unfold to_int
  omega

theorem reduce_byte_positions_eq_map (c : chunk) (p : Int) (n : Nat) :
    reduce_byte_positions c p n = c.map (fun f => reduce_fields f p n) := by
  induction c with
  | NULL => rfl
  | node f next children ihn ihc => simp [reduce_byte_positions, chunk.map, ihn, ihc]

theorem chunk_map_map (g h : fields → fields) (c : chunk) :
    (c.map g).map h = c.map (fun f => h (g f)) := by
  induction c with
  | NULL => rfl
  | node f next children ihn ihc => simp [chunk.map, ihn, ihc]

theorem reduce_fields_addr (f : fields) (p : Int) (n : Nat) :
    (reduce_fields f p n).addr = f.addr := rfl

theorem forget_reduce_fields (f : fields) (p : Int) (n : Nat) :
    ({ reduce_fields f p n with start_byte := -1, end_byte := -1 } : fields)
      = { f with start_byte := -1, end_byte := -1 } := rfl

theorem remove_subtree_map (g : fields → fields) (hg : ∀ f, (g f).addr = f.addr)
    (c : chunk) (target : Option Nat) :
    remove_subtree (c.map g) target = (remove_subtree c target).map g := by
  induction c with
  | NULL => rfl
  | node f next children ihn ihc =>
    by_cases h : some f.addr = target
    · simp [chunk.map, remove_subtree, hg, h, ihn]
    · simp [chunk.map, remove_subtree, hg, h, ihn, ihc]

theorem forget_ranges_reduce (c : chunk) (p : Int) (n : Nat) :
    forget_ranges (reduce_byte_positions c p n) = forget_ranges c := by
  unfold forget_ranges
  rw [reduce_byte_positions_eq_map, chunk_map_map]
  rfl

theorem forget_ranges_search_and_destroy (c : chunk) (target : Option Nat)
    (p : Int) (n : Nat) :
    forget_ranges (search_and_destroy_chunk c target p n)
      = forget_ranges (remove_subtree c target) := by
  induction c, target, p, n using search_and_destroy_chunk.induct with
  | case1 target p n => simp [search_and_destroy_chunk, remove_subtree]
  | case2 p n f next children ih =>
    rw [search_and_destroy_chunk, if_pos rfl, ih]
    rw [remove_subtree, if_pos rfl, reduce_byte_positions_eq_map,
      remove_subtree_map _ (fun f => reduce_fields_addr f p n), ← reduce_byte_positions_eq_map,
      forget_ranges_reduce]
  | case3 target p n f next children h ihn ihc =>
    rw [search_and_destroy_chunk, if_neg h, remove_subtree, if_neg h]
    unfold forget_ranges at ihn ihc ⊢
    simp only [chunk.map, ihn, ihc, forget_reduce_fields]

theorem addrs_map (g : fields → fields) (hg : ∀ f, (g f).addr = f.addr) (c : chunk) :
    (c.map g).addrs = c.addrs := by
  induction c with
  | NULL => rfl
  | node f next children ihn ihc => simp [chunk.map, chunk.addrs, hg, ihn, ihc]

theorem addrs_forget_ranges (c : chunk) : (forget_ranges c).addrs = c.addrs := by
  unfold forget_ranges
  exact addrs_map (fun f => { f with start_byte := -1, end_byte := -1 }) (fun _ => rfl) c

theorem subtree_addrs_subset (c : chunk) (t : Nat) :
    ∀ a ∈ subtree_addrs c t, a ∈ c.addrs := by
  induction c with
  | NULL => simp [subtree_addrs]
  | node f next children ihn ihc =>
    intro a ha
    unfold subtree_addrs at ha
    simp only [chunk.addrs, List.mem_cons, List.mem_append]
    split_ifs at ha with h
    · rcases List.mem_cons.1 ha with ha | ha
      · exact Or.inl ha
      · exact Or.inr (Or.inl ha)
    · rcases List.mem_append.1 ha with ha | ha
      · exact Or.inr (Or.inl (ihc a ha))
      · exact Or.inr (Or.inr (ihn a ha))

theorem remove_subtree_of_not_mem (c : chunk) (t : Nat) (h : t ∉ c.addrs) :
    remove_subtree c (some t) = c := by
  induction c with
  | NULL => rfl
  | node f next children ihn ihc =>
    simp only [chunk.addrs, List.mem_cons, List.mem_append, not_or] at h
    have h1 : ¬ some f.addr = some t := by
      intro e
      exact h.1 (Option.some.inj e).symm
    rw [remove_subtree, if_neg h1, ihn h.2.2, ihc h.2.1]

theorem addrs_remove_subtree (c : chunk) (t : Nat) (hnd : c.addrs.Nodup) :
    (remove_subtree c (some t)).addrs
      = c.addrs.filter (fun a => !decide (a ∈ subtree_addrs c t)) := by
  induction c with
  | NULL => rfl
  | node f next children ihn ihc =>
    simp only [chunk.addrs, List.nodup_cons, List.mem_append, not_or, List.nodup_append] at hnd
    obtain ⟨⟨hfc, hfn⟩, hc, hn, hdisj⟩ := hnd
    by_cases h : f.addr = t
    · have h1 : some f.addr = some t := by rw [h]
      subst h
      rw [remove_subtree, if_pos h1, remove_subtree_of_not_mem _ _ hfn]
      have e1 : List.filter (fun a => !decide (a ∈ f.addr :: children.addrs)) children.addrs
          = [] := by
        rw [List.filter_eq_nil_iff]
        intro a ha
        simp [ha]
      have e2 : List.filter (fun a => !decide (a ∈ f.addr :: children.addrs)) next.addrs
          = next.addrs := by
        rw [List.filter_eq_self]
        intro a ha
        have n1 : a ≠ f.addr := fun e => hfn (e ▸ ha)
        have n2 : a ∉ children.addrs := fun hc2 => hdisj hc2 ha
        simp [n1, n2]
      have e3 : subtree_addrs (chunk.node f next children) f.addr = f.addr :: children.addrs := by
        simp [subtree_addrs]
      rw [e3]
      show next.addrs = List.filter _ (f.addr :: (children.addrs ++ next.addrs))
      rw [List.filter_cons, List.filter_append, e1, e2]
      simp
    · have h1 : ¬ some f.addr = some t := fun e => h (Option.some.inj e)
      rw [remove_subtree, if_neg h1]
      have e0 : f.addr ∉ subtree_addrs children t ++ subtree_addrs next t := by
        intro hm
        rcases List.mem_append.1 hm with hm | hm
        · exact hfc (subtree_addrs_subset _ _ _ hm)
        · exact hfn (subtree_addrs_subset _ _ _ hm)
      have e1 : List.filter (fun a => !decide (a ∈ subtree_addrs children t ++ subtree_addrs next t))
          children.addrs
          = List.filter (fun a => !decide (a ∈ subtree_addrs children t)) children.addrs := by
        apply List.filter_congr
        intro a ha
        have : a ∉ subtree_addrs next t := fun hm => hdisj ha (subtree_addrs_subset _ _ _ hm)
        simp [this]
      have e2 : List.filter (fun a => !decide (a ∈ subtree_addrs children t ++ subtree_addrs next t))
          next.addrs
          = List.filter (fun a => !decide (a ∈ subtree_addrs next t)) next.addrs := by
        apply List.filter_congr
        intro a ha
        have : a ∉ subtree_addrs children t := fun hm => hdisj (subtree_addrs_subset _ _ _ hm) ha
        simp [this]
      have e3 : subtree_addrs (chunk.node f next children) t
          = subtree_addrs children t ++ subtree_addrs next t := by
        simp [subtree_addrs, h]
      rw [e3]
      show f.addr :: ((remove_subtree children (some t)).addrs
          ++ (remove_subtree next (some t)).addrs)
        = List.filter _ (f.addr :: (children.addrs ++ next.addrs))
      rw [List.filter_cons, List.filter_append, e1, e2, ihn hn, ihc hc]
      simp [e0]

/-! ### Claims on the structural editor -/

/-- Claim C1 (defect of the code): in Scenario D, with the three top-level siblings
`[0,9] [10,19] [20,29]`, removing the middle sibling with edit point 10 and
amount 10 leaves `[0,9]` and `[10,9]`.  The sibling after the target goes through
`reduce_byte_positions` when the target is unlinked and through the two guarded
subtractions of the loop body when the loop reaches it: its end offset is
shifted twice (29, 19, 9), whereas the shrink rule applied once to the
survivors gives `[0,9]` and `[10,19]`. -/
theorem search_and_destroy_chunk_scenario_D :
    search_and_destroy_chunk scenario_D (some 2) 10 10
        = leaf_chunk 1 0 9 (leaf_chunk 3 10 9 .NULL)
      ∧ (remove_subtree scenario_D (some 2)).map (shrink_rule 10 10)
        = leaf_chunk 1 0 9 (leaf_chunk 3 10 19 .NULL)
      ∧ search_and_destroy_chunk scenario_D (some 2) 10 10
        ≠ (remove_subtree scenario_D (some 2)).map (shrink_rule 10 10) := by
  have h1 : search_and_destroy_chunk scenario_D (some 2) 10 10
      = leaf_chunk 1 0 9 (leaf_chunk 3 10 9 .NULL) := by
    simp [scenario_D, leaf_chunk, search_and_destroy_chunk, reduce_byte_positions,
      reduce_fields, to_int]
  have h2 : (remove_subtree scenario_D (some 2)).map (shrink_rule 10 10)
      = leaf_chunk 1 0 9 (leaf_chunk 3 10 19 .NULL) := by
    decide
  refine ⟨h1, h2, ?_⟩
  rw [h1, h2]
  decide

/-- Claim C2: ignoring the byte ranges, `search_and_destroy_chunk` returns the
forest from which the node at address `target` has been deleted with its entire
subtree, every other node keeping its fields, its parent and its place among
its siblings (`remove_subtree`); and in a heap, where the addresses of the nodes
are pairwise distinct, the nodes of the result are, in the same order, the nodes
of the forest that are neither the target nor one of its descendants. -/
theorem search_and_destroy_chunk_shape (c : chunk) (target : Nat) (p : Int) (n : Nat)
    (hnd : c.addrs.Nodup) :
    forget_ranges (search_and_destroy_chunk c (some target) p n)
        = forget_ranges (remove_subtree c (some target))
      ∧ (search_and_destroy_chunk c (some target) p n).addrs
        = c.addrs.filter (fun a => !decide (a ∈ subtree_addrs c target)) := by
  have h := forget_ranges_search_and_destroy c (some target) p n
  refine ⟨h, ?_⟩
  rw [← addrs_forget_ranges, h, addrs_forget_ranges]
  exact addrs_remove_subtree c target hnd

/-- Instance of `search_and_destroy_chunk_shape`: a forest with a nested target. -/
theorem search_and_destroy_chunk_shape_witness :
    (chunk.node ⟨1, 7, 0, 0, 29, false⟩
        (leaf_chunk 4 30 39 .NULL)
        (chunk.node ⟨2, 8, 0, 0, 9, true⟩ (leaf_chunk 3 10 19 .NULL)
          (leaf_chunk 5 0 4 .NULL))).addrs.Nodup
      ∧ (search_and_destroy_chunk
          (chunk.node ⟨1, 7, 0, 0, 29, false⟩
            (leaf_chunk 4 30 39 .NULL)
            (chunk.node ⟨2, 8, 0, 0, 9, true⟩ (leaf_chunk 3 10 19 .NULL)
              (leaf_chunk 5 0 4 .NULL))) (some 2) 0 10).addrs
        = [1, 3, 4] :=
  ⟨by decide,
    (search_and_destroy_chunk_shape _ 2 0 10 (by decide)).2.trans (by decide)⟩

/-- Claim C3: for a non-negative edit point `p`, `reduce_byte_positions` applies
the shrink rule (in 32-bit wrapping arithmetic) to every node of the sibling
list and of every descendant subtree and keeps the links; the rule leaves the
address, id, type and modifiable flag of a node alone, and leaves a negative
(unknown) offset as it is. -/
theorem reduce_byte_positions_spec (c : chunk) (p : Int) (n : Nat) (hp : 0 ≤ p) :
    reduce_byte_positions c p n = c.map (shrink_rule p n)
      ∧ (∀ f : fields, (shrink_rule p n f).addr = f.addr ∧ (shrink_rule p n f).id = f.id
          ∧ (shrink_rule p n f).type = f.type
          ∧ (shrink_rule p n f).modifiable = f.modifiable
          ∧ (f.start_byte < 0 → (shrink_rule p n f).start_byte = f.start_byte)
          ∧ (f.end_byte < 0 → (shrink_rule p n f).end_byte = f.end_byte)) := by
  constructor
  · rw [reduce_byte_positions_eq_map]
    congr 1
    funext f
    exact reduce_fields_eq_shrink_rule f p n hp
  · intro f
    refine ⟨rfl, rfl, rfl, rfl, ?_, ?_⟩
    · intro h
      have : ¬ f.start_byte > p := by omega
      simp [shrink_rule, this]
    · intro h
      have : ¬ f.end_byte ≥ p := by omega
      simp [shrink_rule, this]

/-- Instance of `reduce_byte_positions_spec` on the forest of Scenario D. -/
theorem reduce_byte_positions_spec_witness :
    (0 : Int) ≤ 10 ∧ reduce_byte_positions scenario_D 10 10
      = leaf_chunk 1 0 9 (leaf_chunk 2 10 9 (leaf_chunk 3 10 19 .NULL)) :=
  ⟨by decide, (reduce_byte_positions_spec scenario_D 10 10 (by decide)).1.trans (by decide)⟩

/-- Claim C4: for a non-negative edit point `p`,
`increase_byte_positions_except_target_children` leaves every proper descendant
of the node at address `target` unchanged and applies the grow rule to every
other node, the target included, keeping the links; without a target the grow
rule is applied to every node.  The rule leaves the address, id, type and
modifiable flag alone, and its additions are the exact sums as long as they stay
in the range of `int`. -/
theorem increase_byte_positions_spec (c : chunk) (target : Option Nat) (p : Int) (n : Nat)
    (hp : 0 ≤ p) :
    increase_byte_positions_except_target_children c target p n
        = c.map_outside (grow_rule p n) target
      ∧ increase_byte_positions_except_target_children c none p n = c.map (grow_rule p n)
      ∧ (∀ f : fields, (grow_rule p n f).addr = f.addr ∧ (grow_rule p n f).id = f.id
          ∧ (grow_rule p n f).type = f.type
          ∧ (grow_rule p n f).modifiable = f.modifiable
          ∧ (f.start_byte + n ≤ 2147483647 → (grow_rule p n f).start_byte
              = if f.start_byte > p then f.start_byte + n else f.start_byte)
          ∧ (f.end_byte + n ≤ 2147483647 → (grow_rule p n f).end_byte
              = if f.end_byte ≥ p then f.end_byte + n else f.end_byte)) := by
  have key : ∀ (t : Option Nat),
      increase_byte_positions_except_target_children c t p n
        = c.map_outside (grow_rule p n) t := by
    intro t
    induction c with
    | NULL => rfl
    | node f next children ihn ihc =>
      by_cases h : some f.addr = t
      · simp [increase_byte_positions_except_target_children, chunk.map_outside, h, ihn,
          increase_fields_eq_grow_rule f p n hp]
      · simp [increase_byte_positions_except_target_children, chunk.map_outside, h, ihn, ihc,
          increase_fields_eq_grow_rule f p n hp]
  have none_eq : ∀ d : chunk, d.map_outside (grow_rule p n) none = d.map (grow_rule p n) := by
    intro d
    induction d with
    | NULL => rfl
    | node f next children ihn ihc => simp [chunk.map_outside, chunk.map, ihn, ihc]
  refine ⟨key target, (key none).trans (none_eq c), ?_⟩
  intro f
  refine ⟨rfl, rfl, rfl, rfl, ?_, ?_⟩
  · intro h
    by_cases hs : f.start_byte > p
    · simp only [grow_rule, if_pos hs]
      exact to_int_of_range _ (by omega) h
    · simp [grow_rule, hs]
  · intro h
    by_cases he : f.end_byte ≥ p
    · simp only [grow_rule, if_pos he]
      exact to_int_of_range _ (by omega) h
    · simp [grow_rule, he]

/-- Instance of `increase_byte_positions_spec`: the target at address 2 is shifted,
its child at address 5 is spared, the other nodes are shifted. -/
theorem increase_byte_positions_spec_witness :
    (0 : Int) ≤ 3 ∧ increase_byte_positions_except_target_children
        (chunk.node ⟨1, 7, 0, 0, 29, false⟩
          (leaf_chunk 4 30 39 .NULL)
          (chunk.node ⟨2, 8, 0, 0, 9, true⟩ (leaf_chunk 3 10 19 .NULL)
            (leaf_chunk 5 4 6 .NULL))) (some 2) 3 10
      = chunk.node ⟨1, 7, 0, 0, 39, false⟩
          (leaf_chunk 4 40 49 .NULL)
          (chunk.node ⟨2, 8, 0, 0, 19, true⟩ (leaf_chunk 3 20 29 .NULL)
            (leaf_chunk 5 4 6 .NULL)) :=
  ⟨by decide, (increase_byte_positions_spec _ (some 2) 3 10 (by decide)).1.trans (by decide)⟩

/-! ### Descriptor line parser -/

theorem scan_digits_append (ds : List Int) (hd : ∀ c ∈ ds, isdigit c = true)
    (c : Int) (hc : isdigit c = false) (rest : List Int) :
    scan_digits (ds ++ c :: rest) = (ds, some rest) := by
  induction ds with
  | nil => simp [scan_digits, hc]
  | cons d ds ih =>
    have h1 : isdigit d = true := hd d (List.mem_cons_self _ _)
    have h2 := ih (fun x hx => hd x (List.mem_cons_of_mem _ hx))
    simp [scan_digits, h1, h2]

theorem takeWhile_path (path : List Int) (hp : ∀ c ∈ path, is_path_end c = false)
    (term : List Int) (ht : ∀ c rest, term = c :: rest → is_path_end c = true) :
    (path ++ term).takeWhile (fun c => !is_path_end c) = path := by
  induction path with
  | nil =>
    cases term with
    | nil => rfl
    | cons c rest => simp [List.takeWhile, ht c rest rfl]
  | cons d path ih =>
    have h1 : is_path_end d = false := hp d (List.mem_cons_self _ _)
    have h2 := ih (fun x hx => hp x (List.mem_cons_of_mem _ hx))
    rw [List.cons_append, List.takeWhile_cons]
    simp [h1, h2]

theorem decimal_value_nonneg (ds : List Int) (hd : ∀ c ∈ ds, isdigit c = true) :
    0 ≤ decimal_value ds := by
  have h : ∀ (l : List Int), (∀ c ∈ l, isdigit c = true) → ∀ v : Int, 0 ≤ v →
      0 ≤ List.foldl (fun v c => 10 * v + (c - 48)) v l := by
    intro l
    induction l with
    | nil => intro _ v hv; simpa using hv
    | cons c l ih =>
      intro hl v hv
      have hc := hl c (List.mem_cons_self _ _)
      simp only [isdigit, Bool.and_eq_true, decide_eq_true_eq] at hc
      rw [List.foldl_cons]
      exact ih (fun x hx => hl x (List.mem_cons_of_mem _ hx)) _ (by omega)
  exact h ds hd 0 (le_refl _)

/-- Within the range of `int`, `atoi` gives the value of the digits. -/
theorem atoi_of_fits (ds : List Int) (hd : ∀ c ∈ ds, isdigit c = true)
    (hv : decimal_value ds ≤ 2147483647) : atoi ds = decimal_value ds := by
  have h0 := decimal_value_nonneg ds hd
  unfold atoi
  rw [min_eq_left (by omega)]
  unfold to_int
  omega

theorem split_line_on_comma_well_formed (d1 d2 path term : List Int) (s1 s2 : Int)
    (hd1 : ∀ c ∈ d1, isdigit c = true) (hd2 : ∀ c ∈ d2, isdigit c = true)
    (hl1 : d1.length < READ_LINE_BUFFER_SIZE) (hl2 : d2.length < READ_LINE_BUFFER_SIZE)
    (hv1 : decimal_value d1 ≤ 2147483647) (hv2 : decimal_value d2 ≤ 2147483647)
    (hs1 : isdigit s1 = false) (hs2 : isdigit s2 = false)
    (hp : ∀ c ∈ path, is_path_end c = false)
    (ht : ∀ c rest, term = c :: rest → is_path_end c = true) :
    split_line_on_comma (d1 ++ s1 :: (d2 ++ s2 :: (path ++ term)))
      = some { start_byte := decimal_value d1, end_byte := decimal_value d2, path := path
               modifiable := line_flag term } := by
  unfold split_line_on_comma
  rw [scan_digits_append d1 hd1 s1 hs1]
  simp only [atoi_copy, hl1, if_true, atoi_of_fits d1 hd1 hv1]
  rw [scan_digits_append d2 hd2 s2 hs2]
  simp only [atoi_copy, hl2, if_true, atoi_of_fits d2 hd2 hv2]
  rw [takeWhile_path path hp term ht]
  simp only [List.drop_left]
  cases term <;> rfl

theorem decimal_value_zeros (n : Nat) : decimal_value (List.replicate n 48) = 0 := by
  have h : ∀ (m : Nat) (v : Int), v = 0 →
      List.foldl (fun v c => 10 * v + (c - 48)) v (List.replicate m (48 : Int)) = 0 := by
    intro m
    induction m with
    | zero => intro v hv; simpa using hv
    | succ m ih =>
      intro v hv
      rw [List.replicate_succ, List.foldl_cons]
      exact ih _ (by omega)
  exact h n 0 rfl

/-- Claim C5 (defect of the code): a line whose first offset is written with 1024
digits or more has no defined result, whatever the value of the digits: with
1024 zeros (value 0, followed by ` 9 a` and a newline) `strncpy` fills the 1024
bytes of the scratch buffer and the terminating NUL is stored one byte past its
end, and with 2000 zeros `strncpy` itself writes 976 bytes past the end.  With
1023 zeros the line is split as the claim says, into start 0, end 9, path `a`,
flag unset. -/
theorem split_line_on_comma_long_digit_run :
    split_line_on_comma (List.replicate 1024 48 ++ cstr " 9 a\n") = none
      ∧ split_line_on_comma (List.replicate 2000 48 ++ cstr " 9 a\n") = none
      ∧ split_line_on_comma (List.replicate 1023 48 ++ cstr " 9 a\n")
        = some { start_byte := 0, end_byte := 9, path := cstr "a", modifiable := false } := by
  have hz : ∀ n : Nat, ∀ c ∈ List.replicate n (48 : Int), isdigit c = true := by
    intro n c hc
    rw [List.eq_of_mem_replicate hc]
    rfl
  have hlong : ∀ n : Nat, 1024 ≤ n →
      split_line_on_comma (List.replicate n 48 ++ cstr " 9 a\n") = none := by
    intro n hn
    have e : cstr " 9 a\n" = 32 :: cstr "9 a\n" := by decide
    have ha : atoi_copy (List.replicate n 48) = none := by
      unfold atoi_copy
      rw [if_neg]
      intro h
      rw [List.length_replicate] at h
      unfold READ_LINE_BUFFER_SIZE at h
      omega
    unfold split_line_on_comma
    rw [e, scan_digits_append _ (hz n) 32 (by decide), ha]
  refine ⟨hlong 1024 (le_refl _), hlong 2000 (by decide), ?_⟩
  have e : cstr " 9 a\n" = 32 :: ([57] ++ 32 :: (cstr "a" ++ [10])) := by decide
  rw [e, split_line_on_comma_well_formed (List.replicate 1023 48) [57] (cstr "a") [10] 32 32
    (hz 1023) (by decide) (by rw [List.length_replicate]; decide) (by decide)
    (by rw [decimal_value_zeros]; decide) (by decide) (by decide) (by decide) (by decide)
    (by intro c rest h; cases h; decide)]
  rw [decimal_value_zeros]
  rfl

/-! ### Path resolver -/

theorem segment_length_append (seg : List Int) (hs : ∀ c ∈ seg, is_segment_end c = false)
    (rest : List Int) (hr : ∀ c tl, rest = c :: tl → is_segment_end c = true) :
    segment_length (seg ++ rest) = seg.length := by
  induction seg with
  | nil =>
    cases rest with
    | nil => rfl
    | cons c tl => simp [segment_length, hr c tl rfl]
  | cons d seg ih =>
    have h1 : is_segment_end d = false := hs d (List.mem_cons_self _ _)
    have h2 := ih (fun x hx => hs x (List.mem_cons_of_mem _ hx))
    simp [segment_length, h1, h2]

theorem cut_at_last_underscore_digits (ds : List Int) (hd : ∀ c ∈ ds, isdigit c = true)
    (r : List Int) : cut_at_last_underscore (ds ++ 95 :: r) = some r := by
  induction ds with
  | nil => simp [cut_at_last_underscore]
  | cons d ds ih =>
    have h1 : isdigit d = true := hd d (List.mem_cons_self _ _)
    have h2 := ih (fun x hx => hd x (List.mem_cons_of_mem _ hx))
    have h3 : d ≠ 95 := by
      intro e
      rw [e] at h1
      exact absurd h1 (by decide)
    simp [cut_at_last_underscore, h1, h2, h3]

theorem cut_at_last_underscore_some (l r : List Int) (h : cut_at_last_underscore l = some r) :
    ∃ ds, (∀ c ∈ ds, isdigit c = true) ∧ l = ds ++ 95 :: r := by
  induction l with
  | nil => simp [cut_at_last_underscore] at h
  | cons c cs ih =>
    unfold cut_at_last_underscore at h
    split_ifs at h with h1 h2
    · refine ⟨[], by simp, ?_⟩
      cases h
      simp [h1]
    · obtain ⟨ds, hds, e⟩ := ih h
      refine ⟨c :: ds, ?_, by simp [e]⟩
      intro x hx
      rcases List.mem_cons.1 hx with hx | hx
      · rw [hx]
        simpa using h2
      · exact hds x hx

theorem type_text_indexed (name ds : List Int) (hd : ∀ c ∈ ds, isdigit c = true) :
    type_text (name ++ 95 :: ds) = name := by
  unfold type_text
  have e : (name ++ 95 :: ds).reverse = ds.reverse ++ 95 :: name.reverse := by simp
  rw [e, cut_at_last_underscore_digits ds.reverse (fun c hc => hd c (List.mem_reverse.1 hc))]
  simp

theorem type_text_plain (name : List Int)
    (h : ¬ ∃ pre ds, (∀ c ∈ ds, isdigit c = true) ∧ name = pre ++ 95 :: ds) :
    type_text name = name := by
  unfold type_text
  cases hc : cut_at_last_underscore name.reverse with
  | none => rfl
  | some r =>
    exfalso
    obtain ⟨ds, hds, e⟩ := cut_at_last_underscore_some _ _ hc
    apply h
    refine ⟨r.reverse, ds.reverse, fun c hc2 => hds c (List.mem_reverse.1 hc2), ?_⟩
    have := congrArg List.reverse e
    simpa using this

theorem next_lower_chunk_segment (seg : List Int) (hs : ∀ c ∈ seg, is_segment_end c = false)
    (rest : List Int) (hr : ∀ c tl, rest = c :: tl → is_segment_end c = true) :
    next_lower_chunk (seg ++ rest)
      = { ret := if rest.head? = some 126 then -1 else 0
          length := seg.length
          hash := hash_code seg
          type_hash := hash_code (type_text seg) } := by
  unfold next_lower_chunk
  simp only [segment_length_append seg hs rest hr, List.take_left, List.drop_left]

/-- Claim C9, as stated, fails for the name `a_1`: the type hash of the segment
`a_1_2` is the hash of `a_1`, while the type hash of the plain segment `a_1` is
the hash of `a`. -/
theorem type_hash_of_plain_name_counterexample :
    (next_lower_chunk (cstr "a_1_2")).type_hash = hash_code (cstr "a_1")
      ∧ (next_lower_chunk (cstr "a_1")).type_hash = hash_code (cstr "a")
      ∧ (next_lower_chunk (cstr "a_1_2")).type_hash
        ≠ (next_lower_chunk (cstr "a_1")).type_hash := by
  decide

/-- Claim C9, amended: for a name without tilde, newline, NUL and comma and two
runs of decimal digits `d1` and `d2`, the type hashes that `next_lower_chunk`
computes for the segments `name_d1` and `name_d2` (each followed by anything
that ends a segment) are equal to each other and to the identity hash of the
plain segment `name`, which is `hash_code name`; they are equal to the type
hash of the plain segment `name` when `name` does not itself end in an
underscore followed by a run of digits. -/
theorem type_hash_of_indexed_segments (name d1 d2 r0 r1 r2 : List Int)
    (hn : ∀ c ∈ name, is_segment_end c = false)
    (hd1 : ∀ c ∈ d1, isdigit c = true) (hd2 : ∀ c ∈ d2, isdigit c = true)
    (hr0 : ∀ c tl, r0 = c :: tl → is_segment_end c = true)
    (hr1 : ∀ c tl, r1 = c :: tl → is_segment_end c = true)
    (hr2 : ∀ c tl, r2 = c :: tl → is_segment_end c = true) :
    (next_lower_chunk ((name ++ 95 :: d1) ++ r1)).type_hash
        = (next_lower_chunk ((name ++ 95 :: d2) ++ r2)).type_hash
      ∧ (next_lower_chunk ((name ++ 95 :: d1) ++ r1)).type_hash
        = (next_lower_chunk (name ++ r0)).hash
      ∧ (next_lower_chunk (name ++ r0)).hash = hash_code name
      ∧ ((¬ ∃ pre ds, (∀ c ∈ ds, isdigit c = true) ∧ name = pre ++ 95 :: ds) →
          (next_lower_chunk ((name ++ 95 :: d1) ++ r1)).type_hash
            = (next_lower_chunk (name ++ r0)).type_hash) := by
  have hseg : ∀ ds : List Int, (∀ c ∈ ds, isdigit c = true) →
      ∀ c ∈ name ++ 95 :: ds, is_segment_end c = false := by
    intro ds hds c hc
    rcases List.mem_append.1 hc with h | h
    · exact hn c h
    · rcases List.mem_cons.1 h with h | h
      · rw [h]; rfl
      · have hdig := hds c h
        simp only [isdigit, Bool.and_eq_true, decide_eq_true_eq] at hdig
        have e1 : c ≠ 126 := by omega
        have e2 : c ≠ 10 := by omega
        have e3 : c ≠ 0 := by omega
        have e4 : c ≠ 44 := by omega
        simp [is_segment_end, e1, e2, e3, e4]
  rw [next_lower_chunk_segment _ (hseg d1 hd1) r1 hr1,
    next_lower_chunk_segment _ (hseg d2 hd2) r2 hr2,
    next_lower_chunk_segment _ hn r0 hr0]
  simp only [type_text_indexed name d1 hd1, type_text_indexed name d2 hd2]
  refine ⟨trivial, trivial, trivial, ?_⟩
  intro h
  rw [type_text_plain name h]

/-- Instance of `type_hash_of_indexed_segments`: the segments `chunk_1` (followed
by a further segment) and `chunk_27` (last of its line), and the plain segment
`chunk`. -/
theorem type_hash_of_indexed_segments_witness :
    (next_lower_chunk (cstr "chunk_1~x")).type_hash
        = (next_lower_chunk (cstr "chunk_27")).type_hash
      ∧ (next_lower_chunk (cstr "chunk_1~x")).type_hash = (next_lower_chunk (cstr "chunk")).hash
      ∧ (next_lower_chunk (cstr "chunk")).hash = hash_code (cstr "chunk")
      ∧ (next_lower_chunk (cstr "chunk_1~x")).type_hash
        = (next_lower_chunk (cstr "chunk")).type_hash := by
  have h := type_hash_of_indexed_segments (cstr "chunk") (cstr "1") (cstr "27") []
    (cstr "~x") [] (by decide) (by decide) (by decide) (by simp)
    (by intro c tl e; cases e; decide) (by simp)
  refine ⟨h.1, h.2.1, h.2.2.1, h.2.2.2 ?_⟩
  rintro ⟨pre, ds, _, e⟩
  have hm : (95 : Int) ∈ cstr "chunk" := by
    rw [e]
    simp
  exact absurd hm (by decide)

/-! ### The hash code as a polynomial -/

theorem poly_from_eq (cs : List Int) (h : Int) :
    poly_from h cs = h * 31 ^ cs.length + poly_from 0 cs := by
  induction cs generalizing h with
  | nil => simp [poly_from]
  | cons c cs ih =>
    have e1 := ih (31 * h + c)
    have e2 := ih (31 * 0 + c)
    simp only [poly_from, List.length_cons, pow_succ] at e1 e2 ⊢
    rw [e1, e2]
    ring

theorem to_int_emod (x : Int) : to_int x % 4294967296 = x % 4294967296 := by
  unfold to_int
  omega

theorem to_int_range (x : Int) : -2147483648 ≤ to_int x ∧ to_int x ≤ 2147483647 := by
  unfold to_int
  omega

theorem hash_code_from_emod (cs : List Int) (hz : ∀ c ∈ cs, c ≠ 0) (h : Int) :
    hash_code_from h cs % 4294967296 = poly_from h cs % 4294967296 := by
  induction cs generalizing h with
  | nil => rfl
  | cons c cs ih =>
    have hc : c ≠ 0 := hz c (List.mem_cons_self _ _)
    have h2 := ih (fun x hx => hz x (List.mem_cons_of_mem _ hx)) (to_int (31 * h + c))
    simp only [hash_code_from, hc, if_false, poly_from]
    rw [h2, poly_from_eq cs (to_int (31 * h + c)), poly_from_eq cs (31 * h + c)]
    rw [Int.add_emod, Int.mul_emod, to_int_emod, ← Int.mul_emod, ← Int.add_emod]

theorem hash_code_from_append (xs ys : List Int) (hz : ∀ c ∈ xs, c ≠ 0) (h : Int) :
    hash_code_from h (xs ++ ys) = hash_code_from (hash_code_from h xs) ys := by
  induction xs generalizing h with
  | nil => rfl
  | cons c cs ih =>
    have hc : c ≠ 0 := hz c (List.mem_cons_self _ _)
    simp only [List.cons_append, hash_code_from, hc, if_false]
    exact ih (fun x hx => hz x (List.mem_cons_of_mem _ hx)) _

theorem isdigit_iff (c : Int) : isdigit c = true ↔ 48 ≤ c ∧ c ≤ 57 := by
  simp [isdigit]

theorem poly_from_digits_inj (ds es : List Int) (hd : ∀ c ∈ ds, isdigit c = true)
    (he : ∀ c ∈ es, isdigit c = true) (hlen : ds.length = es.length) (h k : Int)
    (heq : poly_from h ds = poly_from k es) : h = k ∧ ds = es := by
  induction ds generalizing es h k with
  | nil =>
    cases es with
    | nil => exact ⟨by simpa [poly_from] using heq, rfl⟩
    | cons e es => simp at hlen
  | cons d ds ih =>
    cases es with
    | nil => simp at hlen
    | cons e es =>
      have hd1 := (isdigit_iff d).1 (hd d (List.mem_cons_self _ _))
      have he1 := (isdigit_iff e).1 (he e (List.mem_cons_self _ _))
      have := ih es (fun x hx => hd x (List.mem_cons_of_mem _ hx))
        (fun x hx => he x (List.mem_cons_of_mem _ hx)) (by simpa using hlen) _ _ heq
      obtain ⟨h1, h2⟩ := this
      have hk : h = k := by omega
      have hde : d = e := by omega
      exact ⟨hk, by rw [hde, h2]⟩

theorem poly_from_digits_bound (ds : List Int) (hd : ∀ c ∈ ds, isdigit c = true) (h : Int)
    (h0 : 0 ≤ h) :
    0 ≤ poly_from h ds ∧ poly_from h ds + 2 ≤ (h + 2) * 31 ^ ds.length := by
  induction ds generalizing h with
  | nil => simp [poly_from, h0]
  | cons d ds ih =>
    have hd1 := (isdigit_iff d).1 (hd d (List.mem_cons_self _ _))
    have := ih (fun x hx => hd x (List.mem_cons_of_mem _ hx)) (31 * h + d) (by omega)
    refine ⟨this.1, ?_⟩
    simp only [poly_from, List.length_cons, pow_succ]
    have hp : (0 : Int) ≤ 31 ^ ds.length := by positivity
    have h3 : (31 * h + d + 2) * 31 ^ ds.length ≤ (h + 2) * (31 ^ ds.length * 31) := by
      have : (h + 2) * (31 ^ ds.length * 31) - (31 * h + d + 2) * 31 ^ ds.length
          = (60 - d) * 31 ^ ds.length := by ring
      have h4 : 0 ≤ (60 - d) * 31 ^ ds.length := mul_nonneg (by omega) hp
      omega
    omega

theorem poly_from_digits_emod_inj (d1 d2 : List Int) (hd1 : ∀ c ∈ d1, isdigit c = true)
    (hd2 : ∀ c ∈ d2, isdigit c = true) (hlen : d1.length = d2.length) (hL : d1.length ≤ 7)
    (h : poly_from 0 d1 % 4294967296 = poly_from 0 d2 % 4294967296) : d1 = d2 := by
  have key : poly_from 0 d1 = poly_from 0 d2 := by
    rcases Nat.lt_or_ge d1.length 7 with h6 | h7
    · have b1 := poly_from_digits_bound d1 hd1 0 (le_refl 0)
      have b2 := poly_from_digits_bound d2 hd2 0 (le_refl 0)
      have p1 : (31 : Int) ^ d1.length ≤ 31 ^ 6 :=
        pow_le_pow_right₀ (by norm_num) (by omega)
      have p2 : (31 : Int) ^ d2.length ≤ 31 ^ 6 :=
        pow_le_pow_right₀ (by norm_num) (by omega)
      norm_num at p1 p2
      omega
    · have l1 : d1.length = 7 := by omega
      have l2 : d2.length = 7 := by omega
      rcases d1 with _ | ⟨a0, _ | ⟨a1, _ | ⟨a2, _ | ⟨a3, _ | ⟨a4, _ | ⟨a5, _ | ⟨a6, _ | ⟨a7, t⟩⟩⟩⟩⟩⟩⟩⟩
        <;> simp at l1
      rcases d2 with _ | ⟨b0, _ | ⟨b1, _ | ⟨b2, _ | ⟨b3, _ | ⟨b4, _ | ⟨b5, _ | ⟨b6, _ | ⟨b7, u⟩⟩⟩⟩⟩⟩⟩⟩
        <;> simp at l2
      have ha0 := (isdigit_iff a0).1 (hd1 a0 (by simp))
      have ha1 := (isdigit_iff a1).1 (hd1 a1 (by simp))
      have ha2 := (isdigit_iff a2).1 (hd1 a2 (by simp))
      have ha3 := (isdigit_iff a3).1 (hd1 a3 (by simp))
      have ha4 := (isdigit_iff a4).1 (hd1 a4 (by simp))
      have ha5 := (isdigit_iff a5).1 (hd1 a5 (by simp))
      have ha6 := (isdigit_iff a6).1 (hd1 a6 (by simp))
      have hb0 := (isdigit_iff b0).1 (hd2 b0 (by simp))
      have hb1 := (isdigit_iff b1).1 (hd2 b1 (by simp))
      have hb2 := (isdigit_iff b2).1 (hd2 b2 (by simp))
      have hb3 := (isdigit_iff b3).1 (hd2 b3 (by simp))
      have hb4 := (isdigit_iff b4).1 (hd2 b4 (by simp))
      have hb5 := (isdigit_iff b5).1 (hd2 b5 (by simp))
      have hb6 := (isdigit_iff b6).1 (hd2 b6 (by simp))
      have hdvd : (4294967296 : Int) ∣ poly_from 0 [a0, a1, a2, a3, a4, a5, a6]
          - poly_from 0 [b0, b1, b2, b3, b4, b5, b6] :=
        Int.dvd_of_emod_eq_zero (Int.emod_eq_emod_iff_emod_sub_eq_zero.1 h)
      obtain ⟨q, hq⟩ := hdvd
      simp only [poly_from] at hq ⊢
      have hq1 : -1 ≤ q ∧ q ≤ 1 := by omega
      have hq2 : q = -1 ∨ q = 0 ∨ q = 1 := by omega
      rcases hq2 with hq2 | hq2 | hq2 <;> subst hq2 <;> omega
  exact (poly_from_digits_inj d1 d2 hd1 hd2 hlen 0 0 key).2

/-- Claim C10, as stated, fails: the hash code is a polynomial modulo `2^32` and
has collisions.  The segments `a_00721006` and `a_71000710` (two different
digit runs of the same length 8) have the same identity hash, and so have the
segments `atxrznc_9` and `atxrznc_10`. -/
theorem identity_hash_collisions :
    (next_lower_chunk (cstr "a_00721006")).hash = (next_lower_chunk (cstr "a_71000710")).hash
      ∧ hash_code (cstr "a_00721006") = hash_code (cstr "a_71000710")
      ∧ cstr "00721006" ≠ cstr "71000710"
      ∧ (next_lower_chunk (cstr "atxrznc_9")).hash = (next_lower_chunk (cstr "atxrznc_10")).hash
      ∧ hash_code (cstr "atxrznc_9") = hash_code (cstr "atxrznc_10")
      ∧ cstr "9" ≠ cstr "10" := by
  decide

/-- Claim C10, amended: for a name without tilde, newline, NUL and comma and two
different runs of decimal digits `d1` and `d2` of the same length, at most 7,
the identity hashes that `next_lower_chunk` computes for the segments `name_d1`
and `name_d2` (each followed by anything that ends a segment), which are the
hash codes of the full segment texts, are different. -/
theorem identity_hash_of_indexed_segments (name d1 d2 r1 r2 : List Int)
    (hn : ∀ c ∈ name, is_segment_end c = false)
    (hd1 : ∀ c ∈ d1, isdigit c = true) (hd2 : ∀ c ∈ d2, isdigit c = true)
    (hr1 : ∀ c tl, r1 = c :: tl → is_segment_end c = true)
    (hr2 : ∀ c tl, r2 = c :: tl → is_segment_end c = true)
    (hlen : d1.length = d2.length) (hL : d1.length ≤ 7) (hne : d1 ≠ d2) :
    (next_lower_chunk ((name ++ 95 :: d1) ++ r1)).hash
        ≠ (next_lower_chunk ((name ++ 95 :: d2) ++ r2)).hash
      ∧ (next_lower_chunk ((name ++ 95 :: d1) ++ r1)).hash = hash_code (name ++ 95 :: d1)
      ∧ (next_lower_chunk ((name ++ 95 :: d2) ++ r2)).hash = hash_code (name ++ 95 :: d2) := by
  have hnz : ∀ ds : List Int, (∀ c ∈ ds, isdigit c = true) → ∀ c ∈ ds, c ≠ 0 := by
    intro ds hds c hc e
    have := (isdigit_iff c).1 (hds c hc)
    omega
  have hseg : ∀ ds : List Int, (∀ c ∈ ds, isdigit c = true) →
      ∀ c ∈ name ++ 95 :: ds, is_segment_end c = false := by
    intro ds hds c hc
    rcases List.mem_append.1 hc with h | h
    · exact hn c h
    · rcases List.mem_cons.1 h with h | h
      · rw [h]; rfl
      · have hdig := (isdigit_iff c).1 (hds c h)
        have e1 : c ≠ 126 := by omega
        have e2 : c ≠ 10 := by omega
        have e3 : c ≠ 0 := by omega
        have e4 : c ≠ 44 := by omega
        simp [is_segment_end, e1, e2, e3, e4]
  have hpre : ∀ c ∈ name ++ [95], c ≠ 0 := by
    intro c hc e
    rcases List.mem_append.1 hc with h | h
    · have := hn c h
      rw [e] at this
      exact absurd this (by decide)
    · simp at h
      omega
  have hsplit : ∀ ds : List Int, hash_code (name ++ 95 :: ds)
      = hash_code_from (hash_code_from 0 (name ++ [95])) ds := by
    intro ds
    have e : name ++ 95 :: ds = (name ++ [95]) ++ ds := by simp
    rw [hash_code, e, hash_code_from_append _ _ hpre]
  rw [next_lower_chunk_segment _ (hseg d1 hd1) r1 hr1,
    next_lower_chunk_segment _ (hseg d2 hd2) r2 hr2]
  refine ⟨?_, rfl, rfl⟩
  show hash_code (name ++ 95 :: d1) ≠ hash_code (name ++ 95 :: d2)
  intro heq
  rw [hsplit d1, hsplit d2] at heq
  have h1 := hash_code_from_emod d1 (hnz d1 hd1) (hash_code_from 0 (name ++ [95]))
  have h2 := hash_code_from_emod d2 (hnz d2 hd2) (hash_code_from 0 (name ++ [95]))
  rw [poly_from_eq d2] at h2
  rw [heq, poly_from_eq d1, hlen] at h1
  generalize hash_code_from 0 (name ++ [95]) * 31 ^ d2.length = X at h1 h2
  have h3 : poly_from 0 d1 % 4294967296 = poly_from 0 d2 % 4294967296 := by omega
  exact hne (poly_from_digits_emod_inj d1 d2 hd1 hd2 hlen hL h3)

/-- Instance of `identity_hash_of_indexed_segments`: the segments `chunk_01` and
`chunk_10`. -/
theorem identity_hash_of_indexed_segments_witness :
    (cstr "01").length = (cstr "10").length ∧ (cstr "01").length ≤ 7 ∧ cstr "01" ≠ cstr "10"
      ∧ (next_lower_chunk (cstr "chunk_01~x")).hash ≠ (next_lower_chunk (cstr "chunk_10")).hash :=
  ⟨by decide, by decide, by decide,
    (identity_hash_of_indexed_segments (cstr "chunk") (cstr "01") (cstr "10") (cstr "~x") []
      (by decide) (by decide) (by decide) (by intro c tl e; cases e; decide) (by simp)
      (by decide) (by decide) (by decide)).1⟩

/-! ### Forest builder: the shape of a run -/

theorem or_modifiable_new_chunk (brk : Nat) (r : lower_chunk) (m : Bool) :
    or_modifiable (new_chunk brk r m) m = new_chunk brk r m := by
  cases m <;> rfl

theorem on_found_run (m : Bool) (s e : Int) (brk h : Nat)
    (k : fields → chunk → chunk → Option path_result)
    (hk : ∀ g nx ch res, k g nx ch = some res →
      run m s e .loop brk (.node (or_modifiable g m) nx ch) res)
    (c : chunk) (res : path_result) (hres : on_found h k c = some res) :
    run m s e .search brk c res := by
  induction c generalizing res with
  | NULL => simp [on_found] at hres
  | node g nx ch ihn _ =>
    unfold on_found at hres
    split_ifs at hres with hid
    · exact run.here brk g nx ch res (hk g nx ch res hres)
    · cases hsub : on_found h k nx with
      | none => simp [hsub] at hres
      | some res1 =>
        simp only [hsub, Option.map_some', Option.some.injEq] at hres
        subst hres
        exact run.later brk g nx ch res1 (ihn res1 hsub)

theorem add_path_loop_succ (m : Bool) (s e : Int) (fuel brk : Nat) (f : fields)
    (nx ch : chunk) (nl : Int) (next : List Int) :
    add_path_loop m s e (fuel + 1) brk f nx ch nl next =
      if nl = 0 then
        some { brk := brk, tree := .node { f with start_byte := s, end_byte := e } nx ch
               trace := [f.addr], stored := true }
      else if (next_lower_chunk next).length = 0 then
        some { brk := brk, tree := .node f nx ch, trace := [f.addr], stored := false }
      else
        (if chunk_found (to_ulong (next_lower_chunk next).hash) ch
          then on_found (to_ulong (next_lower_chunk next).hash)
            (fun g gx gc => add_path_loop m s e fuel brk (or_modifiable g m) gx gc
              (next_lower_chunk next).ret (next.drop ((next_lower_chunk next).length + 1))) ch
          else add_path_loop m s e fuel (brk + 1)
            (new_chunk brk (next_lower_chunk next) m) ch .NULL
            (next_lower_chunk next).ret (next.drop ((next_lower_chunk next).length + 1))).map
          (fun res => { res with tree := .node f nx res.tree, trace := f.addr :: res.trace }) := by
  cases ch with
  | NULL => simp [add_path_loop, chunk_found, or_modifiable_new_chunk]
  | node c cn cc => simp only [add_path_loop, or_modifiable_new_chunk]

theorem add_path_loop_run (m : Bool) (s e : Int) (fuel : Nat) :
    ∀ (brk : Nat) (f : fields) (nx ch : chunk) (nl : Int) (next : List Int)
      (res : path_result),
      add_path_loop m s e fuel brk f nx ch nl next = some res →
      run m s e .loop brk (.node f nx ch) res := by
  induction fuel with
  | zero =>
    intro brk f nx ch nl next res h
    simp [add_path_loop] at h
  | succ fuel ih =>
    intro brk f nx ch nl next res h
    rw [add_path_loop_succ] at h
    split_ifs at h with h0 hlen hfound
    · cases h
      exact run.store brk f nx ch
    · cases h
      exact run.abort brk f nx ch
    · simp only [Option.map_eq_some'] at h
      obtain ⟨res1, hsub, rfl⟩ := h
      refine run.descend brk f nx _ res1 ?_
      exact on_found_run m s e brk _ _ (fun g gx gc r hr => ih _ _ _ _ _ _ _ hr) _ _ hsub
    · simp only [Option.map_eq_some'] at h
      obtain ⟨res1, hsub, rfl⟩ := h
      exact run.create brk f nx _ _ res1 (ih _ _ _ _ _ _ _ hsub)

theorem add_path_run (brk : Nat) (tree : chunk) (line : List Int) (res : path_result)
    (h : add_path brk tree line = some res) :
    ∃ l, split_line_on_comma line = some l
      ∧ run l.modifiable l.start_byte l.end_byte .top brk tree res := by
  unfold add_path at h
  cases hl : split_line_on_comma line with
  | none => simp [hl] at h
  | some l =>
    refine ⟨l, rfl, ?_⟩
    simp only [hl] at h
    split_ifs at h with hlen
    · cases h
      exact run.skip brk tree
    · cases tree with
      | NULL =>
        exact run.first brk _ res (add_path_loop_run _ _ _ _ _ _ _ _ _ _ _ h)
      | node f nx ch =>
        simp only at h
        split_ifs at h with hid
        · simp only [Option.map_eq_some'] at h
          obtain ⟨res1, hsub, rfl⟩ := h
          rw [or_modifiable_new_chunk] at hsub
          exact run.insert brk f nx ch _ res1 (add_path_loop_run _ _ _ _ _ _ _ _ _ _ _ hsub)
        · exact run.reuse brk f nx ch res (add_path_loop_run _ _ _ _ _ _ _ _ _ _ _ h)

theorem run_brk_le {m : Bool} {s e : Int} {ph : phase} {brk : Nat} {old : chunk}
    {res : path_result} (h : run m s e ph brk old res) : brk ≤ res.brk := by
  induction h with
  | skip brk tree => exact le_refl _
  | first brk r res _ ih => exact Nat.le_of_succ_le ih
  | insert brk f nx ch r res _ ih => exact Nat.le_of_succ_le ih
  | reuse brk f nx ch res _ ih => exact ih
  | store brk f nx ch => exact le_refl _
  | abort brk f nx ch => exact le_refl _
  | create brk f nx ch r res _ ih => exact Nat.le_of_succ_le ih
  | descend brk f nx ch res _ ih => exact ih
  | here brk g nx ch res _ ih => exact ih
  | later brk g nx ch res _ ih => exact ih

theorem run_loop_head {m : Bool} {s e : Int} {brk : Nat} {f : fields} {nx ch : chunk}
    {res : path_result} (h : run m s e .loop brk (.node f nx ch) res) :
    f.addr ∈ res.trace := by
  cases h <;> simp

theorem run_addrs_perm {m : Bool} {s e : Int} {ph : phase} {brk : Nat} {old : chunk}
    {res : path_result} (h : run m s e ph brk old res) :
    res.tree.addrs.Perm (old.addrs ++ List.range' brk (res.brk - brk)) := by
  induction h with
  | skip brk tree => simp
  | first brk r res hrun ih =>
    have hle := run_brk_le hrun
    have e1 : res.brk - brk = (res.brk - (brk + 1)) + 1 := by omega
    rw [e1, List.range'_succ]
    simpa [chunk.addrs, new_chunk] using ih
  | insert brk f nx ch r res hrun ih =>
    have hle := run_brk_le hrun
    have e1 : res.brk - brk = (res.brk - (brk + 1)) + 1 := by omega
    simp only [chunk.addrs, new_chunk, List.nil_append] at ih ⊢
    rw [e1, List.range'_succ]
    rw [← Multiset.coe_eq_coe] at ih ⊢
    simp only [← Multiset.cons_coe, ← Multiset.coe_add, ← Multiset.singleton_add] at ih ⊢
    rw [ih]
    abel
  | reuse brk f nx ch res _ ih => simpa [chunk.addrs, or_modifiable] using ih
  | store brk f nx ch => simp [chunk.addrs]
  | abort brk f nx ch => simp
  | create brk f nx ch r res hrun ih =>
    have hle := run_brk_le hrun
    have e1 : res.brk - brk = (res.brk - (brk + 1)) + 1 := by omega
    simp only [chunk.addrs, new_chunk, List.nil_append] at ih ⊢
    rw [e1, List.range'_succ]
    rw [← Multiset.coe_eq_coe] at ih ⊢
    simp only [← Multiset.cons_coe, ← Multiset.coe_add, ← Multiset.singleton_add] at ih ⊢
    rw [ih]
    abel
  | descend brk f nx ch res _ ih =>
    simp only [chunk.addrs] at ih ⊢
    rw [← Multiset.coe_eq_coe] at ih ⊢
    simp only [← Multiset.cons_coe, ← Multiset.coe_add, ← Multiset.singleton_add] at ih ⊢
    rw [ih]
    abel
  | here brk g nx ch res _ ih => simpa [chunk.addrs, or_modifiable] using ih
  | later brk g nx ch res _ ih =>
    simp only [chunk.addrs] at ih ⊢
    rw [← Multiset.coe_eq_coe] at ih ⊢
    simp only [← Multiset.cons_coe, ← Multiset.coe_add, ← Multiset.singleton_add] at ih ⊢
    rw [ih]
    abel

theorem run_trace_subset {m : Bool} {s e : Int} {ph : phase} {brk : Nat} {old : chunk}
    {res : path_result} (h : run m s e ph brk old res) :
    ∀ a ∈ res.trace, a ∈ res.tree.addrs := by
  induction h with
  | skip brk tree => simp
  | first brk r res _ ih => exact ih
  | insert brk f nx ch r res _ ih =>
    intro a ha
    simp only [chunk.addrs, List.mem_cons, List.mem_append]
    exact Or.inr (Or.inr (ih a ha))
  | reuse brk f nx ch res _ ih => exact ih
  | store brk f nx ch => simp [chunk.addrs]
  | abort brk f nx ch => simp [chunk.addrs]
  | create brk f nx ch r res _ ih =>
    intro a ha
    simp only [chunk.addrs, List.mem_cons, List.mem_append] at ha ⊢
    rcases ha with ha | ha
    · exact Or.inl ha
    · exact Or.inr (Or.inl (ih a ha))
  | descend brk f nx ch res _ ih =>
    intro a ha
    simp only [chunk.addrs, List.mem_cons, List.mem_append] at ha ⊢
    rcases ha with ha | ha
    · exact Or.inl ha
    · exact Or.inr (Or.inl (ih a ha))
  | here brk g nx ch res _ ih => exact ih
  | later brk g nx ch res _ ih =>
    intro a ha
    simp only [chunk.addrs, List.mem_cons, List.mem_append]
    exact Or.inr (Or.inr (ih a ha))

theorem run_addrs_mem {m : Bool} {s e : Int} {ph : phase} {brk : Nat} {old : chunk}
    {res : path_result} (h : run m s e ph brk old res) (a : Nat) :
    a ∈ res.tree.addrs ↔ a ∈ old.addrs ∨ (brk ≤ a ∧ a < res.brk) := by
  have hle := run_brk_le h
  rw [(run_addrs_perm h).mem_iff, List.mem_append, List.mem_range'_1]
  constructor
  · rintro (h1 | ⟨h1, h2⟩)
    · exact Or.inl h1
    · exact Or.inr ⟨h1, by omega⟩
  · rintro (h1 | ⟨h1, h2⟩)
    · exact Or.inl h1
    · exact Or.inr ⟨h1, by omega⟩

theorem run_heap_ok {m : Bool} {s e : Int} {ph : phase} {brk : Nat} {old : chunk}
    {res : path_result} (h : run m s e ph brk old res) (hok : heap_ok brk old) :
    heap_ok res.brk res.tree := by
  have hle := run_brk_le h
  refine ⟨?_, ?_⟩
  · rw [(run_addrs_perm h).nodup_iff, List.nodup_append]
    refine ⟨hok.1, List.nodup_range' _ _, ?_⟩
    intro a h1 h2
    have := hok.2 a h1
    rw [List.mem_range'_1] at h2
    omega
  · intro a ha
    rcases (run_addrs_mem h a).1 ha with h1 | h1
    · have := hok.2 a h1
      omega
    · exact h1.2

theorem run_trace_ne_nil {m : Bool} {s e : Int} {ph : phase} {brk : Nat} {old : chunk}
    {res : path_result} (h : run m s e ph brk old res) (hph : ph ≠ .top) :
    res.trace ≠ [] := by
  induction h with
  | skip brk tree => exact absurd rfl hph
  | first brk r res _ _ => exact absurd rfl hph
  | insert brk f nx ch r res _ _ => exact absurd rfl hph
  | reuse brk f nx ch res _ _ => exact absurd rfl hph
  | store brk f nx ch => simp
  | abort brk f nx ch => simp
  | create brk f nx ch r res _ _ => simp
  | descend brk f nx ch res _ _ => simp
  | here brk g nx ch res _ ih => exact ih (by simp)
  | later brk g nx ch res _ ih => exact ih (by simp)

theorem getLast?_cons_of_ne_nil {α : Type} (a : α) (t : List α) (ht : t ≠ []) :
    (a :: t).getLast? = t.getLast? := by
  cases t with
  | nil => exact absurd rfl ht
  | cons b t => exact List.getLast?_cons_cons

/-- Frame of the byte ranges: every entry of the old forest whose address is
not the one the range was stored to is an entry of the new forest. -/
theorem run_ranges_frame {m : Bool} {s e : Int} {ph : phase} {brk : Nat} {old : chunk}
    {res : path_result} (h : run m s e ph brk old res) :
    ∀ x ∈ old.ranges, (res.stored = true → res.trace.getLast? ≠ some x.1) →
      x ∈ res.tree.ranges := by
  induction h with
  | skip brk tree => exact fun x hx _ => hx
  | first brk r res _ _ => intro x hx; simp [chunk.ranges] at hx
  | insert brk f nx ch r res _ ih =>
    intro x hx hleaf
    simp only [chunk.ranges, List.mem_cons, List.mem_append] at hx ⊢
    rcases hx with hx | hx | hx
    · exact Or.inl hx
    · exact Or.inr (Or.inl hx)
    · exact Or.inr (Or.inr (ih x (by simp [chunk.ranges, hx]) hleaf))
  | reuse brk f nx ch res _ ih =>
    intro x hx hleaf
    exact ih x (by simpa [chunk.ranges, or_modifiable] using hx) hleaf
  | store brk f nx ch =>
    intro x hx hleaf
    simp only [chunk.ranges, List.mem_cons, List.mem_append] at hx ⊢
    rcases hx with hx | hx
    · exfalso
      apply hleaf rfl
      simp [hx]
    · exact Or.inr hx
  | abort brk f nx ch => exact fun x hx _ => hx
  | create brk f nx ch r res hrun ih =>
    intro x hx hleaf
    have hne := run_trace_ne_nil hrun (by simp)
    simp only [getLast?_cons_of_ne_nil _ _ hne] at hleaf
    simp only [chunk.ranges, List.mem_cons, List.mem_append] at hx ⊢
    rcases hx with hx | hx | hx
    · exact Or.inl hx
    · exact Or.inr (Or.inl (ih x (by simp [chunk.ranges, hx]) hleaf))
    · exact Or.inr (Or.inr hx)
  | descend brk f nx ch res hrun ih =>
    intro x hx hleaf
    have hne := run_trace_ne_nil hrun (by simp)
    simp only [getLast?_cons_of_ne_nil _ _ hne] at hleaf
    simp only [chunk.ranges, List.mem_cons, List.mem_append] at hx ⊢
    rcases hx with hx | hx | hx
    · exact Or.inl hx
    · exact Or.inr (Or.inl (ih x hx hleaf))
    · exact Or.inr (Or.inr hx)
  | here brk g nx ch res _ ih =>
    intro x hx hleaf
    exact ih x (by simpa [chunk.ranges, or_modifiable] using hx) hleaf
  | later brk g nx ch res _ ih =>
    intro x hx hleaf
    simp only [chunk.ranges, List.mem_cons, List.mem_append] at hx ⊢
    rcases hx with hx | hx | hx
    · exact Or.inl hx
    · exact Or.inr (Or.inl hx)
    · exact Or.inr (Or.inr (ih x hx hleaf))

/-- The store of the byte range: when it is reached, the last address of the
trace carries the range of the line. -/
theorem run_stored_leaf {m : Bool} {s e : Int} {ph : phase} {brk : Nat} {old : chunk}
    {res : path_result} (h : run m s e ph brk old res) (hst : res.stored = true) :
    ∃ a, res.trace.getLast? = some a ∧ (a, s, e) ∈ res.tree.ranges := by
  induction h with
  | skip brk tree => simp at hst
  | first brk r res _ ih => exact ih hst
  | insert brk f nx ch r res _ ih =>
    obtain ⟨a, h1, h2⟩ := ih hst
    exact ⟨a, h1, by simp [chunk.ranges, h2]⟩
  | reuse brk f nx ch res _ ih => exact ih hst
  | store brk f nx ch => exact ⟨f.addr, rfl, by simp [chunk.ranges]⟩
  | abort brk f nx ch => simp at hst
  | create brk f nx ch r res hrun ih =>
    obtain ⟨a, h1, h2⟩ := ih hst
    have hne := run_trace_ne_nil hrun (by simp)
    exact ⟨a, by simp only [getLast?_cons_of_ne_nil _ _ hne, h1], by simp [chunk.ranges, h2]⟩
  | descend brk f nx ch res hrun ih =>
    obtain ⟨a, h1, h2⟩ := ih hst
    have hne := run_trace_ne_nil hrun (by simp)
    exact ⟨a, by simp only [getLast?_cons_of_ne_nil _ _ hne, h1], by simp [chunk.ranges, h2]⟩
  | here brk g nx ch res _ ih => exact ih hst
  | later brk g nx ch res _ ih =>
    obtain ⟨a, h1, h2⟩ := ih hst
    exact ⟨a, h1, by simp [chunk.ranges, h2]⟩

theorem flags_addr (c : chunk) : ∀ x ∈ c.flags, x.1 ∈ c.addrs := by
  induction c with
  | NULL => simp [chunk.flags]
  | node f nx ch ihn ihc =>
    intro x hx
    simp only [chunk.flags, chunk.addrs, List.mem_cons, List.mem_append] at hx ⊢
    rcases hx with hx | hx | hx
    · exact Or.inl (by rw [hx])
    · exact Or.inr (Or.inl (ihc x hx))
    · exact Or.inr (Or.inr (ihn x hx))

theorem ranges_addr (c : chunk) : ∀ x ∈ c.ranges, x.1 ∈ c.addrs := by
  induction c with
  | NULL => simp [chunk.ranges]
  | node f nx ch ihn ihc =>
    intro x hx
    simp only [chunk.ranges, chunk.addrs, List.mem_cons, List.mem_append] at hx ⊢
    rcases hx with hx | hx | hx
    · exact Or.inl (by rw [hx])
    · exact Or.inr (Or.inl (ihc x hx))
    · exact Or.inr (Or.inr (ihn x hx))

theorem heap_ok_node {brk : Nat} {f : fields} {nx ch : chunk}
    (h : heap_ok brk (.node f nx ch)) :
    f.addr < brk ∧ f.addr ∉ ch.addrs ∧ f.addr ∉ nx.addrs
      ∧ (∀ a, a ∈ ch.addrs → a ∈ nx.addrs → False)
      ∧ heap_ok brk ch ∧ heap_ok brk nx := by
  obtain ⟨hnd, hlt⟩ := h
  simp only [chunk.addrs, List.nodup_cons, List.mem_append, not_or, List.nodup_append] at hnd
  obtain ⟨⟨hfc, hfn⟩, hc, hn, hdisj⟩ := hnd
  refine ⟨hlt _ (by simp [chunk.addrs]), hfc, hfn, fun a h1 h2 => hdisj h1 h2,
    ⟨hc, fun a ha => hlt a (by simp [chunk.addrs, ha])⟩,
    ⟨hn, fun a ha => hlt a (by simp [chunk.addrs, ha])⟩⟩

theorem heap_ok_new {brk : Nat} {c : chunk} (h : heap_ok brk c) (r : lower_chunk) (m : Bool) :
    heap_ok (brk + 1) (.node (new_chunk brk r m) c .NULL) := by
  refine ⟨?_, ?_⟩
  · simp only [chunk.addrs, new_chunk, List.nil_append, List.nodup_cons]
    refine ⟨fun hm => ?_, h.1⟩
    have := h.2 brk hm
    omega
  · intro a ha
    simp only [chunk.addrs, new_chunk, List.nil_append, List.mem_cons] at ha
    rcases ha with ha | ha
    · omega
    · have := h.2 a ha
      omega

theorem heap_ok_or_modifiable {brk : Nat} {f : fields} {nx ch : chunk} (m : Bool)
    (h : heap_ok brk (.node f nx ch)) : heap_ok brk (.node (or_modifiable f m) nx ch) := h

/-- Flags of the chunks that the run did not pass through are kept. -/
theorem run_flags_unvisited {m : Bool} {s e : Int} {ph : phase} {brk : Nat} {old : chunk}
    {res : path_result} (h : run m s e ph brk old res) :
    ∀ x ∈ old.flags, x.1 ∉ res.trace → x ∈ res.tree.flags := by
  induction h with
  | skip brk tree => exact fun x hx _ => hx
  | first brk r res _ _ => intro x hx; simp [chunk.flags] at hx
  | insert brk f nx ch r res _ ih =>
    intro x hx hnot
    simp only [chunk.flags, List.mem_cons, List.mem_append] at hx ⊢
    rcases hx with hx | hx | hx
    · exact Or.inl hx
    · exact Or.inr (Or.inl hx)
    · exact Or.inr (Or.inr (ih x (by simp [chunk.flags, hx]) hnot))
  | reuse brk f nx ch res hrun ih =>
    intro x hx hnot
    simp only [chunk.flags, List.mem_cons, List.mem_append] at hx
    rcases hx with hx | hx | hx
    · have hh := run_loop_head hrun
      rw [hx] at hnot
      exact absurd hh hnot
    · exact ih x (by simp [chunk.flags, hx]) hnot
    · exact ih x (by simp [chunk.flags, hx]) hnot
  | store brk f nx ch => exact fun x hx _ => hx
  | abort brk f nx ch => exact fun x hx _ => hx
  | create brk f nx ch r res _ ih =>
    intro x hx hnot
    simp only [List.mem_cons, not_or] at hnot
    simp only [chunk.flags, List.mem_cons, List.mem_append] at hx ⊢
    rcases hx with hx | hx | hx
    · exact Or.inl hx
    · exact Or.inr (Or.inl (ih x (by simp [chunk.flags, hx]) hnot.2))
    · exact Or.inr (Or.inr hx)
  | descend brk f nx ch res _ ih =>
    intro x hx hnot
    simp only [List.mem_cons, not_or] at hnot
    simp only [chunk.flags, List.mem_cons, List.mem_append] at hx ⊢
    rcases hx with hx | hx | hx
    · exact Or.inl hx
    · exact Or.inr (Or.inl (ih x hx hnot.2))
    · exact Or.inr (Or.inr hx)
  | here brk g nx ch res hrun ih =>
    intro x hx hnot
    simp only [chunk.flags, List.mem_cons, List.mem_append] at hx
    rcases hx with hx | hx | hx
    · have hh := run_loop_head hrun
      rw [hx] at hnot
      exact absurd hh hnot
    · exact ih x (by simp [chunk.flags, hx]) hnot
    · exact ih x (by simp [chunk.flags, hx]) hnot
  | later brk g nx ch res _ ih =>
    intro x hx hnot
    simp only [chunk.flags, List.mem_cons, List.mem_append] at hx ⊢
    rcases hx with hx | hx | hx
    · exact Or.inl hx
    · exact Or.inr (Or.inl hx)
    · exact Or.inr (Or.inr (ih x hx hnot))

/-- A flag that is set stays set. -/
theorem run_flags_mono {m : Bool} {s e : Int} {ph : phase} {brk : Nat} {old : chunk}
    {res : path_result} (h : run m s e ph brk old res) :
    ∀ a, (a, true) ∈ old.flags → (a, true) ∈ res.tree.flags := by
  induction h with
  | skip brk tree => exact fun a ha => ha
  | first brk r res _ _ => intro a ha; simp [chunk.flags] at ha
  | insert brk f nx ch r res _ ih =>
    intro a ha
    simp only [chunk.flags, List.mem_cons, List.mem_append] at ha ⊢
    rcases ha with ha | ha | ha
    · exact Or.inl ha
    · exact Or.inr (Or.inl ha)
    · exact Or.inr (Or.inr (ih a (by simp [chunk.flags, ha])))
  | reuse brk f nx ch res _ ih =>
    intro a ha
    apply ih
    simp only [chunk.flags, List.mem_cons, List.mem_append, Prod.mk.injEq] at ha ⊢
    rcases ha with ha | ha | ha
    · exact Or.inl ⟨ha.1, by simp [or_modifiable, ← ha.2]⟩
    · exact Or.inr (Or.inl ha)
    · exact Or.inr (Or.inr ha)
  | store brk f nx ch => exact fun a ha => ha
  | abort brk f nx ch => exact fun a ha => ha
  | create brk f nx ch r res _ ih =>
    intro a ha
    simp only [chunk.flags, List.mem_cons, List.mem_append] at ha ⊢
    rcases ha with ha | ha | ha
    · exact Or.inl ha
    · exact Or.inr (Or.inl (ih a (by simp [chunk.flags, ha])))
    · exact Or.inr (Or.inr ha)
  | descend brk f nx ch res _ ih =>
    intro a ha
    simp only [chunk.flags, List.mem_cons, List.mem_append] at ha ⊢
    rcases ha with ha | ha | ha
    · exact Or.inl ha
    · exact Or.inr (Or.inl (ih a ha))
    · exact Or.inr (Or.inr ha)
  | here brk g nx ch res _ ih =>
    intro a ha
    apply ih
    simp only [chunk.flags, List.mem_cons, List.mem_append, Prod.mk.injEq] at ha ⊢
    rcases ha with ha | ha | ha
    · exact Or.inl ⟨ha.1, by simp [or_modifiable, ← ha.2]⟩
    · exact Or.inr (Or.inl ha)
    · exact Or.inr (Or.inr ha)
  | later brk g nx ch res _ ih =>
    intro a ha
    simp only [chunk.flags, List.mem_cons, List.mem_append] at ha ⊢
    rcases ha with ha | ha | ha
    · exact Or.inl ha
    · exact Or.inr (Or.inl ha)
    · exact Or.inr (Or.inr (ih a ha))

theorem or_self_of_imp (b m : Bool) (h : m = true → b = true) : (b || m) = b := by
  cases m
  · simp
  · simp [h rfl]

theorem or_modifiable_flag (f : fields) (m : Bool) :
    (or_modifiable f m).modifiable = (f.modifiable || m) := by
  cases hf : f.modifiable <;> simp [or_modifiable, hf]

/-- Flags of the chunks that the run passed through: in a heap, each of them is
the old flag or-ed with the flag of the line.  In the loop phase the current
chunk has received the flag of the line before the loop is entered. -/
theorem run_flags_visited {m : Bool} {s e : Int} {ph : phase} {brk : Nat} {old : chunk}
    {res : path_result} (h : run m s e ph brk old res) :
    heap_ok brk old →
    (ph = .loop → m = true → ∀ f nx ch, old = .node f nx ch → f.modifiable = true) →
    ∀ x ∈ old.flags, x.1 ∈ res.trace → (x.1, x.2 || m) ∈ res.tree.flags := by
  induction h with
  | skip brk tree => intro _ _ x _ ht; simp at ht
  | first brk r res _ _ => intro _ _ x hx; simp [chunk.flags] at hx
  | insert brk f nx ch r res hrun ih =>
    intro hok _ x hx ht
    obtain ⟨hlt, hfc, hfn, hdisj, hokc, hokn⟩ := heap_ok_node hok
    have hx1 := hok.2 _ (flags_addr _ x hx)
    have hmem := (run_addrs_mem hrun x.1).1 (run_trace_subset hrun _ ht)
    have hxn : x.1 ∈ nx.addrs := by
      simp only [chunk.addrs, new_chunk, List.nil_append, List.mem_cons] at hmem
      rcases hmem with (hmem | hmem) | hmem
      · omega
      · exact hmem
      · omega
    simp only [chunk.flags, List.mem_cons, List.mem_append] at hx ⊢
    rcases hx with hx | hx | hx
    · rw [hx] at hxn
      exact absurd hxn hfn
    · exact absurd hxn (fun h2 => hdisj _ (flags_addr _ x hx) h2)
    · refine Or.inr (Or.inr (ih (heap_ok_new hokn r m) ?_ x (by simp [chunk.flags, hx]) ht))
      intro _ hm f1 nx1 ch1 heq
      cases heq
      exact hm
  | reuse brk f nx ch res hrun ih =>
    intro hok _ x hx ht
    have hpre : phase.loop = phase.loop → m = true → ∀ f1 nx1 ch1,
        chunk.node (or_modifiable f m) nx ch = chunk.node f1 nx1 ch1 →
        f1.modifiable = true := by
      intro _ hm f1 nx1 ch1 heq
      cases heq
      rw [or_modifiable_flag, hm]
      simp
    simp only [chunk.flags, List.mem_cons, List.mem_append] at hx
    rcases hx with hx | hx | hx
    · have := ih hok hpre (f.addr, (or_modifiable f m).modifiable)
        (by simp [chunk.flags, or_modifiable]) (by rw [hx] at ht; exact ht)
      rw [hx]
      simpa [or_modifiable_flag] using this
    · exact ih hok hpre x (by simp [chunk.flags, hx]) ht
    · exact ih hok hpre x (by simp [chunk.flags, hx]) ht
  | store brk f nx ch =>
    intro hok hpre x hx ht
    obtain ⟨hlt, hfc, hfn, hdisj, hokc, hokn⟩ := heap_ok_node hok
    simp only [List.mem_singleton] at ht
    simp only [chunk.flags, List.mem_cons, List.mem_append] at hx ⊢
    rcases hx with hx | hx | hx
    · left
      rw [hx]
      simp only [Prod.mk.injEq, true_and]
      exact or_self_of_imp _ _ (fun hm => hpre rfl hm f nx ch rfl)
    · exact absurd (ht ▸ flags_addr _ x hx) hfc
    · exact absurd (ht ▸ flags_addr _ x hx) hfn
  | abort brk f nx ch =>
    intro hok hpre x hx ht
    obtain ⟨hlt, hfc, hfn, hdisj, hokc, hokn⟩ := heap_ok_node hok
    simp only [List.mem_singleton] at ht
    simp only [chunk.flags, List.mem_cons, List.mem_append] at hx ⊢
    rcases hx with hx | hx | hx
    · left
      rw [hx]
      simp only [Prod.mk.injEq, true_and]
      exact or_self_of_imp _ _ (fun hm => hpre rfl hm f nx ch rfl)
    · exact absurd (ht ▸ flags_addr _ x hx) hfc
    · exact absurd (ht ▸ flags_addr _ x hx) hfn
  | create brk f nx ch r res hrun ih =>
    intro hok hpre x hx ht
    obtain ⟨hlt, hfc, hfn, hdisj, hokc, hokn⟩ := heap_ok_node hok
    have hnew : phase.loop = phase.loop → m = true → ∀ f1 nx1 ch1,
        chunk.node (new_chunk brk r m) ch chunk.NULL = chunk.node f1 nx1 ch1 →
        f1.modifiable = true := by
      intro _ hm f1 nx1 ch1 heq
      cases heq
      exact hm
    simp only [List.mem_cons] at ht
    simp only [chunk.flags, List.mem_cons, List.mem_append] at hx ⊢
    rcases hx with hx | hx | hx
    · left
      rw [hx]
      simp only [Prod.mk.injEq, true_and]
      exact or_self_of_imp _ _ (fun hm => hpre rfl hm f nx ch rfl)
    · rcases ht with ht | ht
      · exact absurd (ht ▸ flags_addr _ x hx) hfc
      · exact Or.inr (Or.inl (ih (heap_ok_new hokc r m) hnew x (by simp [chunk.flags, hx]) ht))
    · rcases ht with ht | ht
      · exact absurd (ht ▸ flags_addr _ x hx) hfn
      · exfalso
        have hxn := flags_addr _ x hx
        have hx1 := hokn.2 _ hxn
        have hmem := (run_addrs_mem hrun x.1).1 (run_trace_subset hrun _ ht)
        simp only [chunk.addrs, new_chunk, List.nil_append, List.mem_cons] at hmem
        rcases hmem with (hmem | hmem) | hmem
        · omega
        · exact hdisj _ hmem hxn
        · omega
  | descend brk f nx ch res hrun ih =>
    intro hok hpre x hx ht
    obtain ⟨hlt, hfc, hfn, hdisj, hokc, hokn⟩ := heap_ok_node hok
    simp only [List.mem_cons] at ht
    simp only [chunk.flags, List.mem_cons, List.mem_append] at hx ⊢
    rcases hx with hx | hx | hx
    · left
      rw [hx]
      simp only [Prod.mk.injEq, true_and]
      exact or_self_of_imp _ _ (fun hm => hpre rfl hm f nx ch rfl)
    · rcases ht with ht | ht
      · exact absurd (ht ▸ flags_addr _ x hx) hfc
      · exact Or.inr (Or.inl (ih hokc (fun hph => by cases hph) x hx ht))
    · rcases ht with ht | ht
      · exact absurd (ht ▸ flags_addr _ x hx) hfn
      · exfalso
        have hxn := flags_addr _ x hx
        have hx1 := hokn.2 _ hxn
        have hmem := (run_addrs_mem hrun x.1).1 (run_trace_subset hrun _ ht)
        rcases hmem with hmem | hmem
        · exact hdisj _ hmem hxn
        · omega
  | here brk g nx ch res hrun ih =>
    intro hok _ x hx ht
    have hpre : phase.loop = phase.loop → m = true → ∀ f1 nx1 ch1,
        chunk.node (or_modifiable g m) nx ch = chunk.node f1 nx1 ch1 →
        f1.modifiable = true := by
      intro _ hm f1 nx1 ch1 heq
      cases heq
      rw [or_modifiable_flag, hm]
      simp
    simp only [chunk.flags, List.mem_cons, List.mem_append] at hx
    rcases hx with hx | hx | hx
    · have := ih hok hpre (g.addr, (or_modifiable g m).modifiable)
        (by simp [chunk.flags, or_modifiable]) (by rw [hx] at ht; exact ht)
      rw [hx]
      simpa [or_modifiable_flag] using this
    · exact ih hok hpre x (by simp [chunk.flags, hx]) ht
    · exact ih hok hpre x (by simp [chunk.flags, hx]) ht
  | later brk g nx ch res hrun ih =>
    intro hok _ x hx ht
    obtain ⟨hlt, hfc, hfn, hdisj, hokc, hokn⟩ := heap_ok_node hok
    have hx1 := hok.2 _ (flags_addr _ x hx)
    have hmem := (run_addrs_mem hrun x.1).1 (run_trace_subset hrun _ ht)
    have hxn : x.1 ∈ nx.addrs := by
      rcases hmem with hmem | hmem
      · exact hmem
      · omega
    simp only [chunk.flags, List.mem_cons, List.mem_append] at hx ⊢
    rcases hx with hx | hx | hx
    · rw [hx] at hxn
      exact absurd hxn hfn
    · exact absurd hxn (fun h2 => hdisj _ (flags_addr _ x hx) h2)
    · exact Or.inr (Or.inr (ih hokn (fun hph => by cases hph) x hx ht))

/-! ### Forest builder: well-formed lines -/

theorem split_descriptor_line (d1 : List Int) (s1 : Int) (d2 : List Int) (s2 : Int)
    (path term : List Int) (hw : well_formed_offsets d1 s1 d2 s2 term)
    (hp : ∀ c ∈ path, is_path_end c = false) :
    split_line_on_comma (descriptor_line d1 s1 d2 s2 path term)
      = some { start_byte := decimal_value d1, end_byte := decimal_value d2, path := path
               modifiable := line_flag term } :=
  split_line_on_comma_well_formed d1 d2 path term s1 s2 hw.digits1 hw.digits2 hw.length1
    hw.length2 hw.value1 hw.value2 hw.delim1 hw.delim2 hp hw.term_end

theorem is_path_end_of_segment_end (c : Int) (h : is_segment_end c = false) :
    is_path_end c = false := by
  simp only [is_segment_end, Bool.or_eq_false_iff, decide_eq_false_iff_not] at h
  simp [is_path_end, h.1.1.2, h.1.2, h.2]

theorem join_segments_cons (seg : List Int) (segs : List (List Int)) :
    join_segments (seg :: segs)
      = seg ++ (if segs.isEmpty then [] else 126 :: join_segments segs) := by
  cases segs with
  | nil => simp [join_segments]
  | cons a as => simp [join_segments]

theorem join_segments_path (segs : List (List Int)) (hs : segments_ok segs) :
    ∀ c ∈ join_segments segs, is_path_end c = false := by
  induction segs with
  | nil => simp [join_segments]
  | cons seg segs ih =>
    intro c hc
    have hseg := hs seg (List.mem_cons_self _ _)
    have ih2 := ih (fun x hx => hs x (List.mem_cons_of_mem _ hx))
    rw [join_segments_cons, List.mem_append] at hc
    rcases hc with hc | hc
    · exact is_path_end_of_segment_end c (hseg.2 c hc)
    · split_ifs at hc with he
      · simp at hc
      · rcases List.mem_cons.1 hc with hc | hc
        · rw [hc]; rfl
        · exact ih2 c hc

theorem next_lower_chunk_join (seg : List Int) (segs : List (List Int))
    (hseg : ∀ c ∈ seg, is_segment_end c = false) :
    next_lower_chunk (join_segments (seg :: segs))
        = { ret := if segs.isEmpty then 0 else -1
            length := seg.length
            hash := hash_code seg
            type_hash := hash_code (type_text seg) }
      ∧ (join_segments (seg :: segs)).drop (seg.length + 1) = join_segments segs := by
  rw [join_segments_cons]
  cases segs with
  | nil =>
    constructor
    · have := next_lower_chunk_segment seg hseg [] (by simp)
      simpa using this
    · simp [join_segments]
  | cons a as =>
    constructor
    · have := next_lower_chunk_segment seg hseg (126 :: join_segments (a :: as))
        (by intro c tl h; cases h; rfl)
      simpa using this
    · simp only [List.isEmpty_cons, Bool.false_eq_true, if_false]
      rw [List.drop_append_eq_append_drop]
      simp

theorem length_join_segments_cons (seg : List Int) (segs : List (List Int)) (hne : seg ≠ []) :
    (join_segments segs).length < (join_segments (seg :: segs)).length := by
  rw [join_segments_cons]
  have : 0 < seg.length := List.length_pos.2 hne
  split_ifs with he
  · cases segs with
    | nil => simp [join_segments]; omega
    | cons a as => simp at he
  · simp
    omega

theorem on_found_total (h : Nat) (k : fields → chunk → chunk → Option path_result)
    (P : List Nat → Bool → Prop)
    (hk : ∀ g nx ch, ∃ res, k g nx ch = some res ∧ P res.trace res.stored)
    (c : chunk) (hc : chunk_found h c = true) :
    ∃ res, on_found h k c = some res ∧ P res.trace res.stored := by
  induction c with
  | NULL => simp [chunk_found] at hc
  | node g nx ch ihn _ =>
    unfold on_found
    by_cases hid : g.id = h
    · rw [if_pos hid]
      exact hk g nx ch
    · rw [if_neg hid]
      have hc2 : chunk_found h nx = true := by
        simpa [chunk_found, hid] using hc
      obtain ⟨res, h1, h2⟩ := ihn hc2
      refine ⟨{ res with tree := .node g res.tree ch }, ?_, h2⟩
      rw [h1]
      rfl

theorem segment_length_le (next : List Int) : segment_length next ≤ next.length := by
  induction next with
  | nil => simp [segment_length]
  | cons c cs ih =>
    unfold segment_length
    split_ifs
    · simp
    · simp only [List.length_cons]
      omega

/-- The bound on the iterations given by `add_path` is never reached: the loop
returns on every path. -/
theorem add_path_loop_returns (m : Bool) (s e : Int) (fuel : Nat) :
    ∀ (next : List Int), next.length < fuel →
    ∀ (brk : Nat) (f : fields) (nx ch : chunk) (nl : Int),
      ∃ res, add_path_loop m s e fuel brk f nx ch nl next = some res := by
  induction fuel with
  | zero => intro next h; omega
  | succ k ih =>
    intro next hlen brk f nx ch nl
    rw [add_path_loop_succ]
    by_cases h0 : nl = 0
    · rw [if_pos h0]
      exact ⟨_, rfl⟩
    · rw [if_neg h0]
      by_cases hz : (next_lower_chunk next).length = 0
      · rw [if_pos hz]
        exact ⟨_, rfl⟩
      · rw [if_neg hz]
        have hsl : (next_lower_chunk next).length ≤ next.length := segment_length_le next
        have hdrop : (next.drop ((next_lower_chunk next).length + 1)).length < k := by
          rw [List.length_drop]
          omega
        have ih2 := ih _ hdrop
        by_cases hfound : chunk_found (to_ulong (next_lower_chunk next).hash) ch = true
        · rw [if_pos hfound]
          obtain ⟨res, h1, _⟩ := on_found_total (to_ulong (next_lower_chunk next).hash)
            (fun g gx gc => add_path_loop m s e k brk (or_modifiable g m) gx gc
              (next_lower_chunk next).ret (next.drop ((next_lower_chunk next).length + 1)))
            (fun _ _ => True)
            (fun g gx gc => by
              obtain ⟨r, hr⟩ := ih2 brk (or_modifiable g m) gx gc (next_lower_chunk next).ret
              exact ⟨r, hr, trivial⟩) ch hfound
          exact ⟨_, by rw [h1]; rfl⟩
        · rw [if_neg hfound]
          obtain ⟨res, h1⟩ := ih2 (brk + 1) (new_chunk brk (next_lower_chunk next) m) ch .NULL
            (next_lower_chunk next).ret
          exact ⟨_, by rw [h1]; rfl⟩

/-- Whenever the line can be split, `add_path` returns. -/
theorem add_path_returns (brk : Nat) (tree : chunk) (line : List Int) (l : split_line)
    (hl : split_line_on_comma line = some l) :
    ∃ res, add_path brk tree line = some res := by
  unfold add_path
  simp only [hl]
  by_cases hz : (next_lower_chunk l.path).length = 0
  · rw [if_pos hz]
    exact ⟨_, rfl⟩
  · rw [if_neg hz]
    have hret := add_path_loop_returns l.modifiable l.start_byte l.end_byte
      ((l.path.drop ((next_lower_chunk l.path).length + 1)).length + 1)
      (l.path.drop ((next_lower_chunk l.path).length + 1)) (Nat.lt_succ_self _)
    cases tree with
    | NULL => exact hret _ _ _ _ _
    | node f nx ch =>
      by_cases hid : f.id ≠ to_ulong (next_lower_chunk l.path).hash
      · simp only [if_pos hid]
        obtain ⟨res, h1⟩ := hret (brk + 1)
          (or_modifiable (new_chunk brk (next_lower_chunk l.path) l.modifiable) l.modifiable)
          nx .NULL (next_lower_chunk l.path).ret
        exact ⟨_, by rw [h1]; rfl⟩
      · simp only [if_neg hid]
        exact hret _ _ _ _ _

/-- On a path of non-empty segments the loop of `add_path` runs to its end,
whatever the forest: it returns, it has stored the byte range, and it has
passed through one chunk for the current chunk and one for each segment. -/
theorem add_path_loop_total (m : Bool) (s e : Int) (segs : List (List Int))
    (hs : segments_ok segs) :
    ∀ (fuel : Nat), (join_segments segs).length < fuel →
    ∀ (brk : Nat) (f : fields) (nx ch : chunk),
      ∃ res, add_path_loop m s e fuel brk f nx ch (if segs.isEmpty then 0 else -1)
          (join_segments segs) = some res ∧ res.stored = true
        ∧ res.trace.length = segs.length + 1 := by
  induction segs with
  | nil =>
    intro fuel hf brk f nx ch
    obtain ⟨k, rfl⟩ : ∃ k, fuel = k + 1 := ⟨fuel - 1, by omega⟩
    rw [add_path_loop_succ]
    simp
  | cons seg segs ih =>
    intro fuel hf brk f nx ch
    obtain ⟨k, rfl⟩ : ∃ k, fuel = k + 1 := ⟨fuel - 1, by omega⟩
    have hseg := hs seg (List.mem_cons_self _ _)
    have hs2 : segments_ok segs := fun x hx => hs x (List.mem_cons_of_mem _ hx)
    have hlen := length_join_segments_cons seg segs hseg.1
    obtain ⟨hr, hdrop⟩ := next_lower_chunk_join seg segs hseg.2
    have hpos : seg.length ≠ 0 := fun h0 => hseg.1 (List.length_eq_zero.1 h0)
    have ih2 := ih hs2 k (by omega)
    rw [add_path_loop_succ, hr]
    simp only [List.isEmpty_cons, Bool.false_eq_true, if_false, hdrop]
    rw [if_neg (by decide), if_neg hpos]
    by_cases hfound : chunk_found (to_ulong (hash_code seg)) ch = true
    · rw [if_pos hfound]
      obtain ⟨res, h1, h2, h3⟩ := on_found_total (to_ulong (hash_code seg))
        (fun g gx gc => add_path_loop m s e k brk (or_modifiable g m) gx gc
          (if segs.isEmpty then 0 else -1) (join_segments segs))
        (fun t st => st = true ∧ t.length = segs.length + 1)
        (fun g gx gc => ih2 brk _ gx gc) ch hfound
      refine ⟨{ res with tree := .node f nx res.tree, trace := f.addr :: res.trace }, ?_, h2,
        by simp [h3]⟩
      rw [h1]
      rfl
    · rw [if_neg hfound]
      obtain ⟨res, h1, h2, h3⟩ := ih2 (brk + 1)
        (new_chunk brk ⟨if segs.isEmpty then 0 else -1, seg.length, hash_code seg,
          hash_code (type_text seg)⟩ m) ch .NULL
      refine ⟨{ res with tree := .node f nx res.tree, trace := f.addr :: res.trace }, ?_, h2,
        by simp [h3]⟩
      rw [h1]
      rfl

/-- On a well-formed line `add_path` returns, whatever the forest: the byte range
has been stored and the trace has one chunk for each segment. -/
theorem add_path_total (brk : Nat) (tree : chunk) (d1 : List Int) (s1 : Int) (d2 : List Int)
    (s2 : Int) (segs : List (List Int)) (term : List Int)
    (hw : well_formed_offsets d1 s1 d2 s2 term) (hs : segments_ok segs) (hne : segs ≠ []) :
    ∃ res, add_path brk tree (descriptor_line d1 s1 d2 s2 (join_segments segs) term) = some res
      ∧ res.stored = true ∧ res.trace.length = segs.length := by
  obtain ⟨seg, rest, rfl⟩ : ∃ seg rest, segs = seg :: rest := by
    cases segs with
    | nil => exact absurd rfl hne
    | cons a as => exact ⟨a, as, rfl⟩
  have hseg := hs seg (List.mem_cons_self _ _)
  have hs2 : segments_ok rest := fun x hx => hs x (List.mem_cons_of_mem _ hx)
  obtain ⟨hr, hdrop⟩ := next_lower_chunk_join seg rest hseg.2
  have hpos : seg.length ≠ 0 := fun h0 => hseg.1 (List.length_eq_zero.1 h0)
  have htot := add_path_loop_total (line_flag term) (decimal_value d1) (decimal_value d2) rest hs2
    ((join_segments rest).length + 1) (Nat.lt_succ_self _)
  unfold add_path
  rw [split_descriptor_line d1 s1 d2 s2 _ term hw (join_segments_path _ hs)]
  simp only [hr, hdrop, if_neg hpos]
  cases tree with
  | NULL =>
    obtain ⟨res, h1, h2, h3⟩ := htot (brk + 1)
      (new_chunk brk ⟨if rest.isEmpty then 0 else -1, seg.length, hash_code seg,
        hash_code (type_text seg)⟩ (line_flag term)) .NULL .NULL
    exact ⟨res, h1, h2, by simpa using h3⟩
  | node f nx ch =>
    by_cases hid : f.id ≠ to_ulong (hash_code seg)
    · simp only [if_pos hid]
      obtain ⟨res, h1, h2, h3⟩ := htot (brk + 1)
        (or_modifiable (new_chunk brk ⟨if rest.isEmpty then 0 else -1, seg.length,
          hash_code seg, hash_code (type_text seg)⟩ (line_flag term)) (line_flag term)) nx .NULL
      refine ⟨{ res with tree := .node f res.tree ch }, ?_, h2, by simpa using h3⟩
      rw [h1]
      rfl
    · simp only [if_neg hid]
      obtain ⟨res, h1, h2, h3⟩ := htot brk (or_modifiable f (line_flag term)) nx ch
      exact ⟨res, h1, h2, by simpa using h3⟩

/-- Under an empty child list the loop of `add_path` builds the chain of the
remaining segments. -/
theorem add_path_loop_chain (m : Bool) (s e : Int) (segs : List (List Int))
    (hs : segments_ok segs) :
    ∀ (fuel : Nat), (join_segments segs).length < fuel →
    ∀ (brk : Nat) (f : fields) (nx : chunk),
      add_path_loop m s e fuel brk f nx .NULL (if segs.isEmpty then 0 else -1)
          (join_segments segs)
        = some { brk := brk + segs.length
                 tree := .node (if segs.isEmpty
                     then { f with start_byte := s, end_byte := e } else f) nx
                   (chain m s e brk segs)
                 trace := f.addr :: List.range' brk segs.length
                 stored := true } := by
  induction segs with
  | nil =>
    intro fuel hf brk f nx
    obtain ⟨k, rfl⟩ : ∃ k, fuel = k + 1 := ⟨fuel - 1, by omega⟩
    rw [add_path_loop_succ]
    simp [chain]
  | cons seg segs ih =>
    intro fuel hf brk f nx
    obtain ⟨k, rfl⟩ : ∃ k, fuel = k + 1 := ⟨fuel - 1, by omega⟩
    have hseg := hs seg (List.mem_cons_self _ _)
    have hs2 : segments_ok segs := fun x hx => hs x (List.mem_cons_of_mem _ hx)
    have hlen := length_join_segments_cons seg segs hseg.1
    obtain ⟨hr, hdrop⟩ := next_lower_chunk_join seg segs hseg.2
    have hpos : seg.length ≠ 0 := fun h0 => hseg.1 (List.length_eq_zero.1 h0)
    rw [add_path_loop_succ, hr]
    simp only [List.isEmpty_cons, Bool.false_eq_true, if_false, hdrop, chunk_found]
    rw [if_neg (by decide), if_neg hpos, ih hs2 k (by omega)]
    simp only [Option.map_some', Option.some.injEq, List.length_cons, List.range'_succ, chain,
      new_chunk]
    refine congrArg₂ (fun a b => ({ brk := a, tree := b, trace := _, stored := true } :
      path_result)) (by omega) ?_
    cases segs <;> rfl

theorem add_paths_flags_mono (lines : List (List Int)) :
    ∀ (brk : Nat) (tree : chunk) (brk1 : Nat) (tree1 : chunk),
      add_paths brk tree lines = some (brk1, tree1) →
      ∀ a, (a, true) ∈ tree.flags → (a, true) ∈ tree1.flags := by
  induction lines with
  | nil =>
    intro brk tree brk1 tree1 h a ha
    simp only [add_paths, Option.some.injEq, Prod.mk.injEq] at h
    rw [← h.2]
    exact ha
  | cons line lines ih =>
    intro brk tree brk1 tree1 h a ha
    unfold add_paths at h
    cases hres : add_path brk tree line with
    | none => simp [hres] at h
    | some res =>
      simp only [hres] at h
      obtain ⟨l, _, hrun⟩ := add_path_run brk tree line res hres
      exact ih _ _ _ _ h a (run_flags_mono hrun a ha)

/-! ### Claims on the forest builder -/

/-- Claim C6: on the empty forest, a well-formed line with offsets `d1`, `d2`, the
non-empty segments `segs` and the flag announced by `term` makes `add_path`
return one top-level chunk heading a single chain with one chunk per segment
(`chain`): the chunk of a segment has the hash code of the segment as id (cast
to `unsigned long`, as the field stores it), the hash code of its
suffix-stripped text as type and the flag of the line; the
last chunk has the two offsets as byte range and no child, every other chunk
has the unknown range `(-1, -1)` and the next chunk as its only child. -/
theorem add_path_empty_forest (brk : Nat) (d1 : List Int) (s1 : Int) (d2 : List Int)
    (s2 : Int) (segs : List (List Int)) (term : List Int)
    (hw : well_formed_offsets d1 s1 d2 s2 term) (hs : segments_ok segs) (hne : segs ≠ []) :
    add_path brk .NULL (descriptor_line d1 s1 d2 s2 (join_segments segs) term)
      = some { brk := brk + segs.length
               tree := chain (line_flag term) (decimal_value d1) (decimal_value d2) brk segs
               trace := List.range' brk segs.length
               stored := true } := by
  obtain ⟨seg, rest, rfl⟩ : ∃ seg rest, segs = seg :: rest := by
    cases segs with
    | nil => exact absurd rfl hne
    | cons a as => exact ⟨a, as, rfl⟩
  have hseg := hs seg (List.mem_cons_self _ _)
  have hs2 : segments_ok rest := fun x hx => hs x (List.mem_cons_of_mem _ hx)
  obtain ⟨hr, hdrop⟩ := next_lower_chunk_join seg rest hseg.2
  have hpos : seg.length ≠ 0 := fun h0 => hseg.1 (List.length_eq_zero.1 h0)
  unfold add_path
  rw [split_descriptor_line d1 s1 d2 s2 _ term hw (join_segments_path _ hs)]
  simp only [hr, hdrop, if_neg hpos]
  rw [add_path_loop_chain _ _ _ rest hs2 _ (Nat.lt_succ_self _)]
  simp only [Option.some.injEq, List.length_cons, List.range'_succ, chain, new_chunk]
  refine congrArg₂ (fun a b => ({ brk := a, tree := b, trace := _, stored := true } :
    path_result)) (by omega) ?_
  cases rest <;> rfl

/-- Instance of `add_path_empty_forest`, Scenario A: the line `0 9 header` gives one
top-level chunk with the hash code of `header` as id, range `(0, 9)`, flag unset
and no child. -/
theorem add_path_empty_forest_witness :
    well_formed_offsets (cstr "0") 32 (cstr "9") 32 [10]
      ∧ segments_ok [cstr "header"]
      ∧ add_path 100 .NULL (cstr "0 9 header\n")
        = some { brk := 101
                 tree := .node { addr := 100, id := to_ulong (hash_code (cstr "header"))
                                 type := hash_code (cstr "header"), start_byte := 0
                                 end_byte := 9, modifiable := false } .NULL .NULL
                 trace := [100]
                 stored := true } :=
  have hw : well_formed_offsets (cstr "0") 32 (cstr "9") 32 [10] :=
    ⟨by decide, by decide, by decide, by decide, by decide, by decide, by decide, by decide,
      by intro c rest h; cases h; rfl⟩
  have hs : segments_ok [cstr "header"] := by
    intro seg hseg
    rw [List.mem_singleton] at hseg
    subst hseg
    exact ⟨by decide, by decide⟩
  ⟨hw, hs, add_path_empty_forest 100 (cstr "0") 32 (cstr "9") 32 [cstr "header"] [10] hw hs
    (by simp)⟩

/-! ### Claims on the path resolver: the hash code -/

theorem hash_sum_cons (c : Int) (cs : List Int) :
    hash_sum (c :: cs) = c * 31 ^ cs.length + hash_sum cs := by
  unfold hash_sum
  rw [List.length_cons, Finset.sum_range_succ', add_comm]
  congr 1
  apply Finset.sum_congr rfl
  intro i hi
  rw [Finset.mem_range] at hi
  have e : cs.length + 1 - 1 - (i + 1) = cs.length - 1 - i := by omega
  rw [e]
  rfl

theorem poly_from_zero_eq_hash_sum (cs : List Int) : poly_from 0 cs = hash_sum cs := by
  induction cs with
  | nil => rfl
  | cons c cs ih =>
    have e := poly_from_eq cs (31 * 0 + c)
    simp only [poly_from] at e ⊢
    rw [e, ih, hash_sum_cons]
    ring

theorem hash_code_from_range (cs : List Int) (h : Int)
    (hr : -2147483648 ≤ h ∧ h ≤ 2147483647) :
    -2147483648 ≤ hash_code_from h cs ∧ hash_code_from h cs ≤ 2147483647 := by
  induction cs generalizing h with
  | nil => exact hr
  | cons c cs ih =>
    unfold hash_code_from
    split_ifs
    · exact hr
    · exact ih _ (to_int_range _)

theorem to_int_eq_of_emod (x y : Int) (hx : -2147483648 ≤ x ∧ x ≤ 2147483647)
    (h : x % 4294967296 = y % 4294967296) : x = to_int y := by
  unfold to_int
  omega

/-- Claim C11: for every text without NUL, `hash_code` is the polynomial of Java's
`String.hashCode`, the sum of `c_i * 31 ^ (n - 1 - i)` over the characters,
reduced modulo `2 ^ 32` to a signed 32-bit integer (`to_int`); the empty text
has hash code 0, and appending a character `c` that is not NUL turns the hash
code `h` into `31 * h + c` in 32-bit wrapping arithmetic.  The characters are
the values of the `char`s of the text. -/
theorem hash_code_spec (cs : List Int) (hz : ∀ c ∈ cs, c ≠ 0) :
    hash_code cs = to_int (hash_sum cs)
      ∧ hash_code cs % 4294967296 = hash_sum cs % 4294967296
      ∧ (-2147483648 ≤ hash_code cs ∧ hash_code cs ≤ 2147483647)
      ∧ hash_code [] = 0
      ∧ (∀ c : Int, c ≠ 0 → hash_code (cs ++ [c]) = to_int (31 * hash_code cs + c)) := by
  have hmod : hash_code cs % 4294967296 = hash_sum cs % 4294967296 := by
    rw [hash_code, hash_code_from_emod cs hz 0, poly_from_zero_eq_hash_sum]
  have hrange := hash_code_from_range cs 0 (by decide)
  refine ⟨to_int_eq_of_emod _ _ hrange hmod, hmod, hrange, rfl, ?_⟩
  intro c hc
  rw [hash_code, hash_code_from_append cs [c] hz 0]
  simp [hash_code_from, hc, hash_code]

/-- Instance of `hash_code_spec`: the text `header`. -/
theorem hash_code_spec_witness :
    (∀ c ∈ cstr "header", c ≠ 0)
      ∧ hash_code (cstr "header") = to_int (hash_sum (cstr "header"))
      ∧ hash_code (cstr "header") = -1221270899
      ∧ hash_code (cstr "header") = to_int (31 * hash_code (cstr "heade") + 114) :=
  ⟨by decide, (hash_code_spec (cstr "header") (by decide)).1, by decide,
    (hash_code_spec (cstr "heade") (by decide)).2.2.2.2 114 (by decide)⟩

/-! ### Claims on the path resolver: the segments -/

theorem segment_length_take (path : List Int) :
    ∀ c ∈ path.take (segment_length path), is_segment_end c = false := by
  induction path with
  | nil => simp [segment_length]
  | cons d path ih =>
    intro c hc
    unfold segment_length at hc
    by_cases hd : is_segment_end d = true
    · simp [hd] at hc
    · simp only [hd, Bool.false_eq_true, if_false, List.take_succ_cons, List.mem_cons] at hc
      rcases hc with hc | hc
      · rw [hc]
        simpa using hd
      · exact ih c hc

theorem segment_length_drop (path : List Int) :
    ∀ c tl, path.drop (segment_length path) = c :: tl → is_segment_end c = true := by
  induction path with
  | nil => simp [segment_length]
  | cons d path ih =>
    intro c tl h
    unfold segment_length at h
    by_cases hd : is_segment_end d = true
    · simp only [hd, if_true, List.drop_zero, List.cons.injEq] at h
      rw [← h.1]
      exact hd
    · simp only [hd, Bool.false_eq_true, if_false, List.drop_succ_cons] at h
      exact ih c tl h

/-- Claim C12: for every path, the segment that `next_lower_chunk` reports (the
first `length` characters) is the longest prefix without tilde, newline, NUL
and comma: it contains none of them, and what follows it is empty or starts
with one of them; the returned value is `-1` (more segments follow) when the
character after the segment is a tilde and `0` otherwise; `hash` is the hash
code of the segment; `type_hash` is the hash code of `pre` when the segment is
`pre`, an underscore and a run of decimal digits, and the hash code of the
whole segment when it has no such form. -/
theorem next_lower_chunk_spec (path : List Int) :
    path = path.take (next_lower_chunk path).length ++ path.drop (next_lower_chunk path).length
      ∧ (∀ c ∈ path.take (next_lower_chunk path).length, is_segment_end c = false)
      ∧ (∀ c tl, path.drop (next_lower_chunk path).length = c :: tl → is_segment_end c = true)
      ∧ (∀ n, n ≤ path.length → (∀ c ∈ path.take n, is_segment_end c = false) →
          n ≤ (next_lower_chunk path).length)
      ∧ ((next_lower_chunk path).ret
          = if (path.drop (next_lower_chunk path).length).head? = some 126 then -1 else 0)
      ∧ (next_lower_chunk path).hash = hash_code (path.take (next_lower_chunk path).length)
      ∧ (∀ pre ds, (∀ c ∈ ds, isdigit c = true) →
          path.take (next_lower_chunk path).length = pre ++ 95 :: ds →
          (next_lower_chunk path).type_hash = hash_code pre)
      ∧ ((¬ ∃ pre ds, (∀ c ∈ ds, isdigit c = true)
            ∧ path.take (next_lower_chunk path).length = pre ++ 95 :: ds) →
          (next_lower_chunk path).type_hash
            = hash_code (path.take (next_lower_chunk path).length)) := by
  have hlen : (next_lower_chunk path).length = segment_length path := rfl
  refine ⟨(List.take_append_drop _ _).symm, ?_, ?_, ?_, rfl, rfl, ?_, ?_⟩
  · rw [hlen]
    exact segment_length_take path
  · rw [hlen]
    exact segment_length_drop path
  · intro n hn hfree
    rw [hlen]
    by_contra hlt
    have hlt2 : segment_length path < n := by omega
    have hlt3 : segment_length path < path.length := by omega
    have hdrop : path.drop (segment_length path)
        = path.get ⟨segment_length path, hlt3⟩ :: path.drop (segment_length path + 1) :=
      List.drop_eq_getElem_cons hlt3
    have hend := segment_length_drop path _ _ hdrop
    have hmem : path.get ⟨segment_length path, hlt3⟩ ∈ path.take n := by
      rw [List.mem_take_iff_getElem]
      exact ⟨segment_length path, by simp; omega, rfl⟩
    rw [hfree _ hmem] at hend
    exact absurd hend (by decide)
  · intro pre ds hds hseg
    show hash_code (type_text (path.take (segment_length path))) = hash_code pre
    rw [hlen] at hseg
    rw [hseg, type_text_indexed pre ds hds]
  · intro hno
    show hash_code (type_text (path.take (segment_length path)))
      = hash_code (path.take (segment_length path))
    rw [hlen] at hno
    rw [type_text_plain _ hno]

/-- Instance of `next_lower_chunk_spec`: the path `chunk_12~x`, whose first segment
is `chunk_12`. -/
theorem next_lower_chunk_spec_witness :
    (cstr "chunk_12~x").take (next_lower_chunk (cstr "chunk_12~x")).length = cstr "chunk_12"
      ∧ (next_lower_chunk (cstr "chunk_12~x")).ret = -1
      ∧ (next_lower_chunk (cstr "chunk_12~x")).hash = hash_code (cstr "chunk_12")
      ∧ (next_lower_chunk (cstr "chunk_12~x")).type_hash = hash_code (cstr "chunk") :=
  ⟨by decide, by decide, (next_lower_chunk_spec (cstr "chunk_12~x")).2.2.2.2.2.1,
    (next_lower_chunk_spec (cstr "chunk_12~x")).2.2.2.2.2.2.1 (cstr "chunk") (cstr "12")
      (by decide) (by decide)⟩

/-! ### Claims on the structural editor: copy and node count -/

theorem size_map (g : fields → fields) (c : chunk) : (c.map g).size = c.size := by
  induction c with
  | NULL => rfl
  | node f next children ihn ihc => simp [chunk.map, chunk.size, ihn, ihc]

theorem length_addrs (c : chunk) : c.addrs.length = c.size := by
  induction c with
  | NULL => rfl
  | node f next children ihn ihc =>
    simp only [chunk.addrs, chunk.size, List.length_cons, List.length_append, ihn, ihc]
    omega

theorem copy_chunks_forget_addrs (c : chunk) :
    ∀ brk : Nat, forget_addrs (copy_chunks brk c).2 = forget_addrs c := by
  induction c with
  | NULL => intro brk; rfl
  | node f next children ihn ihc =>
    intro brk
    have h1 := ihn (brk + 1)
    have h2 := ihc (copy_chunks (brk + 1) next).1
    unfold forget_addrs at h1 h2 ⊢
    simp only [copy_chunks, chunk.map, h1, h2]

theorem copy_chunks_brk (c : chunk) : ∀ brk : Nat, (copy_chunks brk c).1 = brk + c.size := by
  induction c with
  | NULL => intro brk; rfl
  | node f next children ihn ihc =>
    intro brk
    simp only [copy_chunks, chunk.size, ihn, ihc]
    omega

theorem copy_chunks_addrs (c : chunk) :
    ∀ brk : Nat, ∀ a ∈ (copy_chunks brk c).2.addrs, brk ≤ a ∧ a < brk + c.size := by
  induction c with
  | NULL => intro brk a ha; simp [copy_chunks, chunk.addrs] at ha
  | node f next children ihn ihc =>
    intro brk a ha
    simp only [copy_chunks, chunk.addrs, List.mem_cons, List.mem_append] at ha
    simp only [chunk.size]
    rcases ha with ha | ha | ha
    · omega
    · have := ihc _ a ha
      rw [copy_chunks_brk] at this
      omega
    · have := ihn _ a ha
      omega

/-- Claim C19: `copy_chunks` returns a forest that is equal to its argument once
the addresses are forgotten: the same sibling order and nesting and, for every
node, the same id, type, start, end and modifiable flag; the copy of the empty
forest is the empty forest.  The copy has as many nodes as the original, all
at addresses allocated by the call. -/
theorem copy_chunks_spec (brk : Nat) (c : chunk) :
    forget_addrs (copy_chunks brk c).2 = forget_addrs c
      ∧ (copy_chunks brk .NULL).2 = .NULL
      ∧ (copy_chunks brk c).2.size = c.size
      ∧ (copy_chunks brk c).1 = brk + c.size
      ∧ (∀ a ∈ (copy_chunks brk c).2.addrs, brk ≤ a ∧ a < (copy_chunks brk c).1) := by
  have h := copy_chunks_forget_addrs c brk
  refine ⟨h, rfl, ?_, copy_chunks_brk c brk, ?_⟩
  · have e := congrArg chunk.size h
    unfold forget_addrs at e
    rw [size_map, size_map] at e
    exact e
  · intro a ha
    rw [copy_chunks_brk]
    exact copy_chunks_addrs c brk a ha

theorem size_remove_subtree (c : chunk) (t : Nat) (hnd : c.addrs.Nodup) :
    (remove_subtree c (some t)).size + (subtree_addrs c t).length = c.size := by
  induction c with
  | NULL => rfl
  | node f next children ihn ihc =>
    simp only [chunk.addrs, List.nodup_cons, List.mem_append, not_or, List.nodup_append] at hnd
    obtain ⟨⟨hfc, hfn⟩, hc, hn, hdisj⟩ := hnd
    by_cases h : f.addr = t
    · have h1 : some f.addr = some t := by rw [h]
      subst h
      rw [remove_subtree, if_pos h1, remove_subtree_of_not_mem _ _ hfn]
      simp only [subtree_addrs, if_true, List.length_cons, length_addrs, chunk.size]
      omega
    · have h1 : ¬ some f.addr = some t := fun e => h (Option.some.inj e)
      rw [remove_subtree, if_neg h1]
      simp only [subtree_addrs, if_neg h, List.length_append, chunk.size]
      have := ihn hn
      have := ihc hc
      omega

theorem size_search_and_destroy (c : chunk) (target : Option Nat) (p : Int) (n : Nat) :
    (search_and_destroy_chunk c target p n).size = (remove_subtree c target).size := by
  have e := congrArg chunk.size (forget_ranges_search_and_destroy c target p n)
  unfold forget_ranges at e
  rw [size_map, size_map] at e
  exact e

theorem mem_subtree_addrs (c : chunk) (t : Nat) (h : t ∈ c.addrs) : t ∈ subtree_addrs c t := by
  induction c with
  | NULL => simp [chunk.addrs] at h
  | node f next children ihn ihc =>
    unfold subtree_addrs
    by_cases hf : f.addr = t
    · rw [if_pos hf]
      simp [hf]
    · rw [if_neg hf]
      simp only [chunk.addrs, List.mem_cons, List.mem_append] at h
      rcases h with h | h | h
      · exact absurd h.symm hf
      · exact List.mem_append_left _ (ihc h)
      · exact List.mem_append_right _ (ihn h)

/-- Claim C20, as stated, fails when the target has children: in `nested_forest`
(5 nodes) the chunk at address 2 has one child, and removing it leaves 3 nodes,
two fewer. -/
theorem search_and_destroy_chunk_two_fewer :
    nested_forest.size = 5 ∧ 2 ∈ nested_forest.addrs
      ∧ (search_and_destroy_chunk nested_forest (some 2) 0 10).size = 3
      ∧ (copy_chunks 100 (search_and_destroy_chunk nested_forest (some 2) 0 10)).2.size = 3 := by
  have h : search_and_destroy_chunk nested_forest (some 2) 0 10
      = .node ⟨1, 7, 0, 0, 19, false⟩ (leaf_chunk 4 20 29 .NULL) (leaf_chunk 3 0 (-1) .NULL) := by
    simp [nested_forest, leaf_chunk, search_and_destroy_chunk, reduce_byte_positions,
      reduce_fields, to_int]
  rw [h]
  decide

/-- Claim C20, amended: in a heap (pairwise distinct addresses), the forest that
`search_and_destroy_chunk` returns has as many nodes fewer than the forest
before the call as the subtree of the target has nodes, the target included: at
least one fewer when the target is in the forest, exactly one fewer when the
target has no descendants; a deep copy of the result has as many nodes as the
result. -/
theorem search_and_destroy_chunk_size (c : chunk) (target : Nat) (p : Int) (n : Nat)
    (brk : Nat) (hnd : c.addrs.Nodup) :
    (search_and_destroy_chunk c (some target) p n).size + (subtree_addrs c target).length
        = c.size
      ∧ (target ∈ c.addrs → 1 ≤ (subtree_addrs c target).length)
      ∧ (subtree_addrs c target = [target] →
          (search_and_destroy_chunk c (some target) p n).size + 1 = c.size)
      ∧ (copy_chunks brk (search_and_destroy_chunk c (some target) p n)).2.size
        = (search_and_destroy_chunk c (some target) p n).size := by
  have h1 : (search_and_destroy_chunk c (some target) p n).size
      + (subtree_addrs c target).length = c.size := by
    rw [size_search_and_destroy]
    exact size_remove_subtree c target hnd
  refine ⟨h1, ?_, ?_, ?_⟩
  · intro hmem
    exact List.length_pos_of_mem (mem_subtree_addrs c target hmem)
  · intro hleaf
    rw [hleaf] at h1
    exact h1
  · have e := congrArg chunk.size
      (copy_chunks_forget_addrs (search_and_destroy_chunk c (some target) p n) brk)
    unfold forget_addrs at e
    rw [size_map, size_map] at e
    exact e

/-- Instance of `search_and_destroy_chunk_size`: in `nested_forest` the subtree of
the chunk at address 2 has two nodes, and the subtree of the chunk at address 3
has one. -/
theorem search_and_destroy_chunk_size_witness :
    nested_forest.addrs.Nodup
      ∧ (search_and_destroy_chunk nested_forest (some 2) 0 10).size + 2 = 5
      ∧ (search_and_destroy_chunk nested_forest (some 3) 0 10).size + 1 = 5 :=
  ⟨by decide,
    (search_and_destroy_chunk_size nested_forest 2 0 10 100 (by decide)).1,
    (search_and_destroy_chunk_size nested_forest 3 0 10 100 (by decide)).2.2.1 (by decide)⟩

/-! ### Forest builder: where the byte ranges come from -/

/-- Every byte range of the new forest is a byte range of the old forest at the
same address, or unknown, or, when the final store was reached, the range of
the line. -/
theorem run_ranges_origin {m : Bool} {s e : Int} {ph : phase} {brk : Nat} {old : chunk}
    {res : path_result} (h : run m s e ph brk old res) :
    ∀ x ∈ res.tree.ranges,
      x ∈ old.ranges ∨ x.2 = (-1, -1) ∨ (res.stored = true ∧ x.2 = (s, e)) := by
  induction h with
  | skip brk tree => exact fun x hx => Or.inl hx
  | first brk r res _ ih =>
    intro x hx
    rcases ih x hx with h1 | h1 | h1
    · simp only [chunk.ranges, new_chunk, List.append_nil, List.mem_singleton] at h1
      exact Or.inr (Or.inl (by rw [h1]))
    · exact Or.inr (Or.inl h1)
    · exact Or.inr (Or.inr h1)
  | insert brk f nx ch r res _ ih =>
    intro x hx
    simp only [chunk.ranges, List.mem_cons, List.mem_append] at hx ⊢
    rcases hx with hx | hx | hx
    · exact Or.inl (Or.inl hx)
    · exact Or.inl (Or.inr (Or.inl hx))
    · rcases ih x hx with h1 | h1 | h1
      · simp only [chunk.ranges, new_chunk, List.nil_append, List.mem_cons] at h1
        rcases h1 with h1 | h1
        · exact Or.inr (Or.inl (by rw [h1]))
        · exact Or.inl (Or.inr (Or.inr h1))
      · exact Or.inr (Or.inl h1)
      · exact Or.inr (Or.inr h1)
  | reuse brk f nx ch res _ ih =>
    intro x hx
    rcases ih x hx with h1 | h1 | h1
    · exact Or.inl (by simpa [chunk.ranges, or_modifiable] using h1)
    · exact Or.inr (Or.inl h1)
    · exact Or.inr (Or.inr h1)
  | store brk f nx ch =>
    intro x hx
    simp only [chunk.ranges, List.mem_cons, List.mem_append] at hx ⊢
    rcases hx with hx | hx | hx
    · exact Or.inr (Or.inr ⟨trivial, by rw [hx]⟩)
    · exact Or.inl (Or.inr (Or.inl hx))
    · exact Or.inl (Or.inr (Or.inr hx))
  | abort brk f nx ch => exact fun x hx => Or.inl hx
  | create brk f nx ch r res _ ih =>
    intro x hx
    simp only [chunk.ranges, List.mem_cons, List.mem_append] at hx ⊢
    rcases hx with hx | hx | hx
    · exact Or.inl (Or.inl hx)
    · rcases ih x hx with h1 | h1 | h1
      · simp only [chunk.ranges, new_chunk, List.nil_append, List.mem_cons] at h1
        rcases h1 with h1 | h1
        · exact Or.inr (Or.inl (by rw [h1]))
        · exact Or.inl (Or.inr (Or.inl h1))
      · exact Or.inr (Or.inl h1)
      · exact Or.inr (Or.inr h1)
    · exact Or.inl (Or.inr (Or.inr hx))
  | descend brk f nx ch res _ ih =>
    intro x hx
    simp only [chunk.ranges, List.mem_cons, List.mem_append] at hx ⊢
    rcases hx with hx | hx | hx
    · exact Or.inl (Or.inl hx)
    · rcases ih x hx with h1 | h1 | h1
      · exact Or.inl (Or.inr (Or.inl h1))
      · exact Or.inr (Or.inl h1)
      · exact Or.inr (Or.inr h1)
    · exact Or.inl (Or.inr (Or.inr hx))
  | here brk g nx ch res _ ih =>
    intro x hx
    rcases ih x hx with h1 | h1 | h1
    · exact Or.inl (by simpa [chunk.ranges, or_modifiable] using h1)
    · exact Or.inr (Or.inl h1)
    · exact Or.inr (Or.inr h1)
  | later brk g nx ch res _ ih =>
    intro x hx
    simp only [chunk.ranges, List.mem_cons, List.mem_append] at hx ⊢
    rcases hx with hx | hx | hx
    · exact Or.inl (Or.inl hx)
    · exact Or.inl (Or.inr (Or.inl hx))
    · rcases ih x hx with h1 | h1 | h1
      · exact Or.inl (Or.inr (Or.inr h1))
      · exact Or.inr (Or.inl h1)
      · exact Or.inr (Or.inr h1)

theorem add_paths_ranges_ordered (lines : List (List Int))
    (hlines : ∀ line ∈ lines, ∀ l, split_line_on_comma line = some l →
      l.start_byte ≤ l.end_byte) :
    ∀ (brk : Nat) (tree : chunk) (brk1 : Nat) (tree1 : chunk),
      add_paths brk tree lines = some (brk1, tree1) →
      (∀ x ∈ tree.ranges, x.2 = (-1, -1) ∨ x.2.1 ≤ x.2.2) →
      ∀ x ∈ tree1.ranges, x.2 = (-1, -1) ∨ x.2.1 ≤ x.2.2 := by
  induction lines with
  | nil =>
    intro brk tree brk1 tree1 h hinv
    simp only [add_paths, Option.some.injEq, Prod.mk.injEq] at h
    rw [← h.2]
    exact hinv
  | cons line lines ih =>
    intro brk tree brk1 tree1 h hinv
    unfold add_paths at h
    cases hres : add_path brk tree line with
    | none => simp [hres] at h
    | some res =>
      simp only [hres] at h
      obtain ⟨l, hl, hrun⟩ := add_path_run brk tree line res hres
      have hord := hlines line (List.mem_cons_self _ _) l hl
      refine ih (fun ln hln => hlines ln (List.mem_cons_of_mem _ hln)) _ _ _ _ h ?_
      intro x hx
      rcases run_ranges_origin hrun x hx with h1 | h1 | h1
      · exact hinv x h1
      · exact Or.inl h1
      · right
        rw [h1.2]
        exact hord

/-! ### Forest builder: the order of the sibling lists -/

theorem run_sibling_addrs {m : Bool} {s e : Int} {ph : phase} {brk : Nat} {old : chunk}
    {res : path_result} (h : run m s e ph brk old res) (hph : ph ≠ .top) :
    res.tree.sibling_addrs = old.sibling_addrs := by
  induction h with
  | skip brk tree => exact absurd rfl hph
  | first brk r res _ _ => exact absurd rfl hph
  | insert brk f nx ch r res _ _ => exact absurd rfl hph
  | reuse brk f nx ch res _ _ => exact absurd rfl hph
  | store brk f nx ch => rfl
  | abort brk f nx ch => rfl
  | create brk f nx ch r res _ _ => rfl
  | descend brk f nx ch res _ _ => rfl
  | here brk g nx ch res _ ih => exact ih (by simp)
  | later brk g nx ch res _ ih =>
    simp only [chunk.sibling_addrs, ih (by simp)]

theorem run_sibling_ids {m : Bool} {s e : Int} {ph : phase} {brk : Nat} {old : chunk}
    {res : path_result} (h : run m s e ph brk old res) (hph : ph ≠ .top) :
    res.tree.sibling_ids = old.sibling_ids := by
  induction h with
  | skip brk tree => exact absurd rfl hph
  | first brk r res _ _ => exact absurd rfl hph
  | insert brk f nx ch r res _ _ => exact absurd rfl hph
  | reuse brk f nx ch res _ _ => exact absurd rfl hph
  | store brk f nx ch => rfl
  | abort brk f nx ch => rfl
  | create brk f nx ch r res _ _ => rfl
  | descend brk f nx ch res _ _ => rfl
  | here brk g nx ch res _ ih => exact ih (by simp)
  | later brk g nx ch res _ ih =>
    simp only [chunk.sibling_ids, ih (by simp)]

/-- The loop leaves the current chunk where it is: the result is the current
chunk with the same `next` pointer, the same address, id, type and flag, and
its range or the range of the line. -/
theorem run_loop_shape {m : Bool} {s e : Int} {brk : Nat} {f : fields} {nx ch : chunk}
    {res : path_result} (h : run m s e .loop brk (.node f nx ch) res) :
    ∃ f1 ch1, res.tree = .node f1 nx ch1 ∧ f1.addr = f.addr ∧ f1.id = f.id
      ∧ f1.type = f.type ∧ f1.modifiable = f.modifiable
      ∧ res.trace.head? = some f.addr := by
  cases h with
  | store => exact ⟨_, _, rfl, rfl, rfl, rfl, rfl, rfl⟩
  | abort => exact ⟨_, _, rfl, rfl, rfl, rfl, rfl, rfl⟩
  | create r res1 h1 => exact ⟨_, _, rfl, rfl, rfl, rfl, rfl, rfl⟩
  | descend res1 h1 => exact ⟨_, _, rfl, rfl, rfl, rfl, rfl, rfl⟩

theorem sibling_addrs_subset (c : chunk) : ∀ a ∈ c.sibling_addrs, a ∈ c.addrs := by
  induction c with
  | NULL => simp [chunk.sibling_addrs]
  | node f nx ch ihn _ =>
    intro a ha
    simp only [chunk.sibling_addrs, chunk.addrs, List.mem_cons, List.mem_append] at ha ⊢
    rcases ha with ha | ha
    · exact Or.inl ha
    · exact Or.inr (Or.inr (ihn a ha))

theorem bound_node {brk : Nat} {f : fields} {nx ch : chunk}
    (h : ∀ a ∈ (chunk.node f nx ch).addrs, a < brk) :
    f.addr < brk ∧ (∀ a ∈ ch.addrs, a < brk) ∧ (∀ a ∈ nx.addrs, a < brk) :=
  ⟨h _ (by simp [chunk.addrs]), fun a ha => h a (by simp [chunk.addrs, ha]),
    fun a ha => h a (by simp [chunk.addrs, ha])⟩

theorem bound_new {brk : Nat} {c : chunk} (h : ∀ a ∈ c.addrs, a < brk) (r : lower_chunk)
    (m : Bool) : ∀ a ∈ (chunk.node (new_chunk brk r m) c .NULL).addrs, a < brk + 1 := by
  intro a ha
  simp only [chunk.addrs, new_chunk, List.nil_append, List.mem_cons] at ha
  rcases ha with ha | ha
  · omega
  · have := h a ha
    omega

theorem pairwise_new {brk : Nat} {c : chunk} (h : ∀ a ∈ c.addrs, a < brk)
    (hp : c.sibling_addrs.Pairwise (fun a b => a > b)) :
    (brk :: c.sibling_addrs).Pairwise (fun a b => a > b) := by
  rw [List.pairwise_cons]
  exact ⟨fun a ha => h a (sibling_addrs_subset c a ha), hp⟩

theorem run_child_lists_desc {m : Bool} {s e : Int} {ph : phase} {brk : Nat} {old : chunk}
    {res : path_result} (h : run m s e ph brk old res) :
    (∀ a ∈ old.addrs, a < brk) → child_lists_desc old → child_lists_desc res.tree := by
  induction h with
  | skip brk tree => exact fun _ hd => hd
  | first brk r res _ ih =>
    intro _ _
    exact ih (bound_new (c := .NULL) (by simp [chunk.addrs]) r m)
      ⟨List.Pairwise.nil, trivial, trivial⟩
  | insert brk f nx ch r res _ ih =>
    intro hb hd
    obtain ⟨_, hbc, hbn⟩ := bound_node hb
    obtain ⟨h1, h2, h3⟩ := hd
    exact ⟨h1, h2, ih (bound_new hbn r m) ⟨List.Pairwise.nil, trivial, h3⟩⟩
  | reuse brk f nx ch res _ ih => exact fun hb hd => ih hb hd
  | store brk f nx ch => exact fun _ hd => hd
  | abort brk f nx ch => exact fun _ hd => hd
  | create brk f nx ch r res hrun ih =>
    intro hb hd
    obtain ⟨_, hbc, hbn⟩ := bound_node hb
    obtain ⟨h1, h2, h3⟩ := hd
    refine ⟨?_, ih (bound_new hbc r m) ⟨List.Pairwise.nil, trivial, h2⟩, h3⟩
    rw [run_sibling_addrs hrun (by simp)]
    exact pairwise_new hbc h1
  | descend brk f nx ch res hrun ih =>
    intro hb hd
    obtain ⟨_, hbc, hbn⟩ := bound_node hb
    obtain ⟨h1, h2, h3⟩ := hd
    refine ⟨?_, ih hbc h2, h3⟩
    rw [run_sibling_addrs hrun (by simp)]
    exact h1
  | here brk g nx ch res _ ih => exact fun hb hd => ih hb hd
  | later brk g nx ch res _ ih =>
    intro hb hd
    obtain ⟨_, hbc, hbn⟩ := bound_node hb
    obtain ⟨h1, h2, h3⟩ := hd
    exact ⟨h1, h2, ih hbn h3⟩

theorem run_top_list_desc_aux {m : Bool} {s e : Int} {ph : phase} {brk : Nat} {old : chunk}
    {res : path_result} (h : run m s e ph brk old res) :
    ph = .top → (∀ a ∈ old.addrs, a < brk) → top_list_desc old → top_list_desc res.tree := by
  induction h with
  | skip brk tree => exact fun _ _ hd => hd
  | first brk r res hrun _ =>
    intro _ _ _
    obtain ⟨f1, ch1, htree, _⟩ := run_loop_shape hrun
    rw [htree]
    exact ⟨List.Pairwise.nil, by simp [chunk.sibling_addrs]⟩
  | insert brk f nx ch r res hrun _ =>
    intro _ hb hd
    obtain ⟨_, hbc, hbn⟩ := bound_node hb
    obtain ⟨h1, h2⟩ := hd
    have hsib := run_sibling_addrs hrun (by simp)
    refine ⟨?_, ?_⟩
    · show res.tree.sibling_addrs.Pairwise _
      rw [hsib]
      exact pairwise_new hbn h1
    · intro a ha
      change a ∈ res.tree.sibling_addrs at ha
      rw [hsib] at ha
      simp only [chunk.sibling_addrs, new_chunk, List.mem_cons] at ha
      rcases ha with ha | ha
      · have := hb f.addr (by simp [chunk.addrs])
        omega
      · exact h2 a ha
  | reuse brk f nx ch res hrun _ =>
    intro _ _ hd
    obtain ⟨f1, ch1, htree, haddr, _⟩ := run_loop_shape hrun
    rw [htree]
    obtain ⟨h1, h2⟩ := hd
    exact ⟨h1, fun a ha => by rw [haddr]; exact h2 a ha⟩
  | store brk f nx ch => intro hph; cases hph
  | abort brk f nx ch => intro hph; cases hph
  | create brk f nx ch r res _ _ => intro hph; cases hph
  | descend brk f nx ch res _ _ => intro hph; cases hph
  | here brk g nx ch res _ _ => intro hph; cases hph
  | later brk g nx ch res _ _ => intro hph; cases hph

theorem run_top_list_desc {m : Bool} {s e : Int} {brk : Nat} {old : chunk}
    {res : path_result} (h : run m s e .top brk old res)
    (hb : ∀ a ∈ old.addrs, a < brk) (hd : top_list_desc old) : top_list_desc res.tree :=
  run_top_list_desc_aux h rfl hb hd

/-- Over a sequence of lines the allocator only moves up, and the nodes of the
new forest are the nodes of the old forest and the nodes allocated meanwhile. -/
theorem add_paths_addrs (lines : List (List Int)) :
    ∀ (brk : Nat) (tree : chunk) (brk1 : Nat) (tree1 : chunk),
      add_paths brk tree lines = some (brk1, tree1) →
      brk ≤ brk1 ∧ ∀ a, a ∈ tree1.addrs ↔ a ∈ tree.addrs ∨ (brk ≤ a ∧ a < brk1) := by
  induction lines with
  | nil =>
    intro brk tree brk1 tree1 h
    simp only [add_paths, Option.some.injEq, Prod.mk.injEq] at h
    obtain ⟨rfl, rfl⟩ := h
    refine ⟨le_refl _, fun a => ⟨Or.inl, ?_⟩⟩
    rintro (h1 | h1)
    · exact h1
    · omega
  | cons line lines ih =>
    intro brk tree brk1 tree1 h
    unfold add_paths at h
    cases hres : add_path brk tree line with
    | none => simp [hres] at h
    | some res =>
      simp only [hres] at h
      obtain ⟨l, _, hrun⟩ := add_path_run brk tree line res hres
      obtain ⟨hle, hmem⟩ := ih _ _ _ _ h
      have hle0 := run_brk_le hrun
      refine ⟨le_trans hle0 hle, fun a => ?_⟩
      rw [hmem a, run_addrs_mem hrun a]
      constructor
      · rintro ((h1 | h1) | h1)
        · exact Or.inl h1
        · exact Or.inr ⟨h1.1, by omega⟩
        · exact Or.inr ⟨by omega, h1.2⟩
      · rintro (h1 | h1)
        · exact Or.inl (Or.inl h1)
        · by_cases hlt : a < res.brk
          · exact Or.inl (Or.inr ⟨h1.1, hlt⟩)
          · exact Or.inr ⟨by omega, h1.2⟩

theorem add_paths_desc (lines : List (List Int)) :
    ∀ (brk : Nat) (tree : chunk) (brk1 : Nat) (tree1 : chunk),
      add_paths brk tree lines = some (brk1, tree1) →
      (∀ a ∈ tree.addrs, a < brk) → child_lists_desc tree → top_list_desc tree →
      (∀ a ∈ tree1.addrs, a < brk1) ∧ child_lists_desc tree1 ∧ top_list_desc tree1 := by
  induction lines with
  | nil =>
    intro brk tree brk1 tree1 h hb hc ht
    simp only [add_paths, Option.some.injEq, Prod.mk.injEq] at h
    obtain ⟨rfl, rfl⟩ := h
    exact ⟨hb, hc, ht⟩
  | cons line lines ih =>
    intro brk tree brk1 tree1 h hb hc ht
    unfold add_paths at h
    cases hres : add_path brk tree line with
    | none => simp [hres] at h
    | some res =>
      simp only [hres] at h
      obtain ⟨l, _, hrun⟩ := add_path_run brk tree line res hres
      refine ih _ _ _ _ h ?_ (run_child_lists_desc hrun hb hc) (run_top_list_desc hrun hb ht)
      intro a ha
      rcases (run_addrs_mem hrun a).1 ha with h1 | h1
      · have := hb a h1
        have := run_brk_le hrun
        omega
      · exact h1.2

theorem add_paths_append (l1 l2 : List (List Int)) :
    ∀ (brk : Nat) (tree : chunk),
      add_paths brk tree (l1 ++ l2)
        = match add_paths brk tree l1 with
          | none => none
          | some r => add_paths r.1 r.2 l2 := by
  induction l1 with
  | nil => intro brk tree; rfl
  | cons line l1 ih =>
    intro brk tree
    simp only [List.cons_append, add_paths]
    cases add_path brk tree line with
    | none => rfl
    | some res => exact ih _ _

/-- Claim C18, as stated, fails.  Under a parent a new chunk is put at the front
of the child list: after `0 1 p~a` the children of `p` are `a`, and after
`0 1 p~b` they are `b`, `a`, the chunk of the second line before the chunk of
the first.  At top level a new chunk is put right after the head: the lines
`a`, `b`, `c` give the list `a`, `c`, `b`. -/
theorem sibling_order_counterexample :
    (get_chunks 100 [cstr "0 1 p~a\n"]).map
        (fun r => (r.2.children.sibling_ids, r.2.children.sibling_addrs))
        = some ([97], [101])
      ∧ (get_chunks 100 [cstr "0 1 p~a\n", cstr "0 1 p~b\n"]).map
        (fun r => (r.2.children.sibling_ids, r.2.children.sibling_addrs))
        = some ([98, 97], [102, 101])
      ∧ (get_chunks 100 [cstr "0 1 a\n", cstr "0 1 b\n"]).map
        (fun r => (r.2.sibling_ids, r.2.sibling_addrs))
        = some ([97, 98], [100, 101])
      ∧ (get_chunks 100 [cstr "0 1 a\n", cstr "0 1 b\n", cstr "0 1 c\n"]).map
        (fun r => (r.2.sibling_ids, r.2.sibling_addrs))
        = some ([97, 99, 98], [100, 102, 101]) := by
  decide

/-- Claim C18, amended: in the forest built from a descriptor, a chunk introduced
by a later line has a larger address than every chunk that existed before that
line (the chunks of the forest with an address below the allocator state
reached after the first lines `l1` are the chunks built by `l1`); every child
list is in reverse order of introduction, the addresses going strictly down
along the list; and in the top-level list the chunk introduced first is the
head and the chunks after it are in reverse order of introduction. -/
theorem get_chunks_sibling_order (brk : Nat) (lines : List (List Int)) (brk1 : Nat)
    (tree : chunk) (h : get_chunks brk lines = some (brk1, tree)) :
    child_lists_desc tree ∧ top_list_desc tree
      ∧ (∀ l1 l2, lines = l1 ++ l2 → ∃ brk0 t0, get_chunks brk l1 = some (brk0, t0)
          ∧ ∀ a ∈ tree.addrs, (a ∈ t0.addrs ↔ a < brk0)) := by
  unfold get_chunks at h ⊢
  have hd := add_paths_desc lines brk .NULL brk1 tree h (by simp [chunk.addrs]) trivial trivial
  refine ⟨hd.2.1, hd.2.2, ?_⟩
  intro l1 l2 hsplit
  subst hsplit
  rw [add_paths_append] at h
  cases h1 : add_paths brk .NULL l1 with
  | none => simp [h1] at h
  | some r =>
    obtain ⟨brk0, t0⟩ := r
    simp only [h1] at h
    refine ⟨brk0, t0, rfl, ?_⟩
    have hb0 := (add_paths_desc l1 brk .NULL brk0 t0 h1 (by simp [chunk.addrs]) trivial
      trivial).1
    have hmem := (add_paths_addrs l2 brk0 t0 brk1 tree h).2
    intro a ha
    constructor
    · exact fun h0 => hb0 a h0
    · intro hlt
      rcases (hmem a).1 ha with h2 | h2
      · exact h2
      · omega

/-- Instance of `get_chunks_sibling_order`: the lines `a`, `b`, `c` give the
top-level list `a`, `c`, `b` at the addresses 100, 102, 101. -/
theorem get_chunks_sibling_order_witness :
    (get_chunks 100 [cstr "0 1 a\n", cstr "0 1 b\n", cstr "0 1 c\n"]).map
        (fun r => (r.2.sibling_ids, r.2.sibling_addrs))
        = some ([97, 99, 98], [100, 102, 101])
      ∧ top_list_desc
          (.node ⟨100, 97, 97, 0, 1, false⟩
            (.node ⟨102, 99, 99, 0, 1, false⟩ (.node ⟨101, 98, 98, 0, 1, false⟩ .NULL .NULL)
              .NULL) .NULL) :=
  ⟨by decide,
    (get_chunks_sibling_order 100 [cstr "0 1 a\n", cstr "0 1 b\n", cstr "0 1 c\n"] 103
      (.node ⟨100, 97, 97, 0, 1, false⟩
        (.node ⟨102, 99, 99, 0, 1, false⟩ (.node ⟨101, 98, 98, 0, 1, false⟩ .NULL .NULL)
          .NULL) .NULL) (by decide)).2.1⟩

/-! ### Claims on the forest builder: the top-level rule and the nested rule -/

/-- Claim C13: on a forest whose top-level list starts with the chunk `f`, for a
well-formed line whose first segment is `seg`: when the id of `f` is the hash
code of `seg`, `add_path` continues on `f`, which keeps its address, id and
type and gets the flag of the line or-ed in, and the rest `nx` of the top-level
list is the same list; when the id of `f` is not the hash code of `seg`,
whatever ids `nx` holds, a new chunk is allocated and put between `f` and `nx`,
and the remaining segments make a chain under it. -/
theorem add_path_top_level (brk : Nat) (f : fields) (nx ch : chunk) (d1 : List Int) (s1 : Int)
    (d2 : List Int) (s2 : Int) (seg : List Int) (segs : List (List Int)) (term : List Int)
    (hw : well_formed_offsets d1 s1 d2 s2 term) (hs : segments_ok (seg :: segs)) :
    (f.id = to_ulong (hash_code seg) →
        ∃ res f1 ch1,
          add_path brk (.node f nx ch)
              (descriptor_line d1 s1 d2 s2 (join_segments (seg :: segs)) term) = some res
            ∧ res.tree = .node f1 nx ch1 ∧ f1.addr = f.addr ∧ f1.id = f.id ∧ f1.type = f.type
            ∧ f1.modifiable = (f.modifiable || line_flag term)
            ∧ res.trace.head? = some f.addr)
      ∧ (f.id ≠ to_ulong (hash_code seg) →
        add_path brk (.node f nx ch)
            (descriptor_line d1 s1 d2 s2 (join_segments (seg :: segs)) term)
          = some { brk := brk + 1 + segs.length
                   tree := .node f
                     (.node { addr := brk
                              id := to_ulong (hash_code seg)
                              type := hash_code (type_text seg)
                              start_byte := if segs.isEmpty then decimal_value d1 else -1
                              end_byte := if segs.isEmpty then decimal_value d2 else -1
                              modifiable := line_flag term }
                       nx (chain (line_flag term) (decimal_value d1) (decimal_value d2)
                         (brk + 1) segs)) ch
                   trace := brk :: List.range' (brk + 1) segs.length
                   stored := true }) := by
  have hseg := hs seg (List.mem_cons_self _ _)
  have hs2 : segments_ok segs := fun x hx => hs x (List.mem_cons_of_mem _ hx)
  obtain ⟨hr, hdrop⟩ := next_lower_chunk_join seg segs hseg.2
  have hpos : seg.length ≠ 0 := fun h0 => hseg.1 (List.length_eq_zero.1 h0)
  constructor
  · intro hid
    obtain ⟨res, h1, _, _⟩ := add_path_loop_total (line_flag term) (decimal_value d1)
      (decimal_value d2) segs hs2 ((join_segments segs).length + 1) (Nat.lt_succ_self _)
      brk (or_modifiable f (line_flag term)) nx ch
    obtain ⟨f1, ch1, htree, haddr, hid1, htype, hflag, htrace⟩ :=
      run_loop_shape (add_path_loop_run _ _ _ _ _ _ _ _ _ _ _ h1)
    refine ⟨res, f1, ch1, ?_, htree, haddr, hid1, htype, ?_, htrace⟩
    · unfold add_path
      rw [split_descriptor_line d1 s1 d2 s2 _ term hw (join_segments_path _ hs)]
      simp only [hr, hdrop, if_neg hpos]
      rw [if_neg (not_not.2 hid)]
      exact h1
    · rw [hflag, or_modifiable_flag]
  · intro hid
    unfold add_path
    rw [split_descriptor_line d1 s1 d2 s2 _ term hw (join_segments_path _ hs)]
    simp only [hr, hdrop, if_neg hpos]
    rw [if_pos hid, or_modifiable_new_chunk,
      add_path_loop_chain _ _ _ segs hs2 _ (Nat.lt_succ_self _)]
    simp only [Option.map_some', Option.some.injEq, new_chunk]
    cases segs <;> rfl

/-- Instance of `add_path_top_level`: on the top-level list `a`, `b` the line
`0 1 b` does not reuse the chunk `b` of the rest, it puts a new chunk `b`
between `a` and `b`; the line `5 6 a` reuses the head `a`. -/
theorem add_path_top_level_witness :
    well_formed_offsets (cstr "0") 32 (cstr "1") 32 [10]
      ∧ segments_ok [cstr "b"]
      ∧ add_path 102 top_a_b (cstr "0 1 b\n")
        = some { brk := 103
                 tree := .node ⟨100, 97, 97, 0, 1, false⟩
                   (.node ⟨102, 98, 98, 0, 1, false⟩
                     (.node ⟨101, 98, 98, 0, 1, false⟩ .NULL .NULL) .NULL) .NULL
                 trace := [102]
                 stored := true }
      ∧ (add_path 102 top_a_b (cstr "5 6 a\n")).map (fun r => (r.tree.sibling_addrs, r.trace))
        = some ([100, 101], [100]) :=
  have hw : well_formed_offsets (cstr "0") 32 (cstr "1") 32 [10] :=
    ⟨by decide, by decide, by decide, by decide, by decide, by decide, by decide, by decide,
      by intro c rest h; cases h; rfl⟩
  have hs : segments_ok [cstr "b"] := by
    intro seg hseg
    rw [List.mem_singleton] at hseg
    subst hseg
    exact ⟨by decide, by decide⟩
  ⟨hw, hs,
    (add_path_top_level 102 ⟨100, 97, 97, 0, 1, false⟩
      (.node ⟨101, 98, 98, 0, 1, false⟩ .NULL .NULL) .NULL (cstr "0") 32 (cstr "1") 32
      (cstr "b") [] [10] hw hs).2 (by decide),
    by decide⟩

theorem chunk_found_iff (h : Nat) (c : chunk) : chunk_found h c = true ↔ h ∈ c.sibling_ids := by
  induction c with
  | NULL => simp [chunk_found, chunk.sibling_ids]
  | node g nx ch ihn _ =>
    simp only [chunk_found, chunk.sibling_ids, Bool.or_eq_true, decide_eq_true_eq, ihn,
      List.mem_cons]
    constructor
    · rintro (h1 | h1)
      · exact Or.inl h1.symm
      · exact Or.inr h1
    · rintro (h1 | h1)
      · exact Or.inl h1.symm
      · exact Or.inr h1

theorem sibling_ids_attach (pre : List (fields × chunk)) (c : chunk) :
    (attach pre c).sibling_ids = pre.map (fun p => p.1.id) ++ c.sibling_ids := by
  induction pre with
  | nil => rfl
  | cons p pre ih => simp [attach, chunk.sibling_ids, ih]

theorem on_found_attach (h : Nat) (k : fields → chunk → chunk → Option path_result)
    (pre : List (fields × chunk)) (g : fields) (gnx gch : chunk)
    (hpre : ∀ p ∈ pre, p.1.id ≠ h) (hg : g.id = h) :
    on_found h k (attach pre (.node g gnx gch))
      = (k g gnx gch).map (fun res => { res with tree := attach pre res.tree }) := by
  induction pre with
  | nil =>
    simp only [attach, on_found, if_pos hg]
    cases k g gnx gch <;> rfl
  | cons p pre ih =>
    have hp : p.1.id ≠ h := hpre p (List.mem_cons_self _ _)
    have ih2 := ih (fun q hq => hpre q (List.mem_cons_of_mem _ hq))
    simp only [attach, on_found, if_neg hp, ih2]
    cases k g gnx gch <;> rfl

/-- Claim C14: one turn of the loop of `add_path` on a current chunk `f` with
child list `ch`, for a further non-empty segment `seg` with hash code `h`.
When the child list holds a chunk with id `h`, the loop continues on the first
such chunk `g` (the chunks `pre` before it have other ids), which gets the flag
of the line or-ed in, and the child list keeps the same nodes in the same
order.  Otherwise a chunk with id `h`, the unknown range `(-1, -1)` and no
children is allocated, its `next` pointer is the old child list, it becomes the
first child, and the loop continues on it. -/
theorem add_path_loop_nested (m : Bool) (s e : Int) (fuel brk : Nat) (f : fields)
    (nx ch : chunk) (nl : Int) (seg rest : List Int) (hnl : nl ≠ 0) (hne : seg ≠ [])
    (hseg : ∀ c ∈ seg, is_segment_end c = false)
    (hrest : ∀ c tl, rest = c :: tl → is_segment_end c = true) :
    (∀ pre g gnx gch, ch = attach pre (.node g gnx gch) →
        (∀ p ∈ pre, p.1.id ≠ to_ulong (hash_code seg)) → g.id = to_ulong (hash_code seg) →
        add_path_loop m s e (fuel + 1) brk f nx ch nl (seg ++ rest)
          = (add_path_loop m s e fuel brk (or_modifiable g m) gnx gch
              (if rest.head? = some 126 then -1 else 0) (rest.drop 1)).map
            (fun res => { res with tree := .node f nx (attach pre res.tree)
                                   trace := f.addr :: res.trace }))
      ∧ (to_ulong (hash_code seg) ∉ ch.sibling_ids →
        add_path_loop m s e (fuel + 1) brk f nx ch nl (seg ++ rest)
          = (add_path_loop m s e fuel (brk + 1)
              { addr := brk, id := to_ulong (hash_code seg), type := hash_code (type_text seg)
                start_byte := -1, end_byte := -1, modifiable := m }
              ch .NULL (if rest.head? = some 126 then -1 else 0) (rest.drop 1)).map
            (fun res => { res with tree := .node f nx res.tree
                                   trace := f.addr :: res.trace }))
      ∧ (∀ res, add_path_loop m s e (fuel + 1) brk f nx ch nl (seg ++ rest) = some res →
          ∃ ch1, res.tree = .node f nx ch1
            ∧ (to_ulong (hash_code seg) ∈ ch.sibling_ids →
                ch1.sibling_addrs = ch.sibling_addrs ∧ ch1.sibling_ids = ch.sibling_ids)
            ∧ (to_ulong (hash_code seg) ∉ ch.sibling_ids →
                ch1.sibling_addrs = brk :: ch.sibling_addrs
                  ∧ ch1.sibling_ids = to_ulong (hash_code seg) :: ch.sibling_ids)) := by
  have hr := next_lower_chunk_segment seg hseg rest hrest
  have hpos : seg.length ≠ 0 := fun h0 => hne (List.length_eq_zero.1 h0)
  have hdrop : (seg ++ rest).drop (seg.length + 1) = rest.drop 1 := by
    rw [List.drop_append_eq_append_drop]
    simp
  have hstep := add_path_loop_succ m s e fuel brk f nx ch nl (seg ++ rest)
  rw [if_neg hnl, hr] at hstep
  simp only [if_neg hpos, hdrop] at hstep
  refine ⟨?_, ?_, ?_⟩
  · intro pre g gnx gch hch hpre hg
    have hfound : chunk_found (to_ulong (hash_code seg)) ch = true := by
      rw [chunk_found_iff, hch, sibling_ids_attach]
      simp [chunk.sibling_ids, hg]
    rw [hstep, if_pos hfound, hch, on_found_attach _ _ pre g gnx gch hpre hg]
    cases add_path_loop m s e fuel brk (or_modifiable g m) gnx gch
      (if rest.head? = some 126 then -1 else 0) (rest.drop 1) <;> rfl
  · intro hnot
    have hfound : ¬ chunk_found (to_ulong (hash_code seg)) ch = true := by
      rw [chunk_found_iff]
      exact hnot
    rw [hstep, if_neg hfound]
    rfl
  · intro res hres
    rw [hstep] at hres
    by_cases hfound : chunk_found (to_ulong (hash_code seg)) ch = true
    · rw [if_pos hfound] at hres
      simp only [Option.map_eq_some'] at hres
      obtain ⟨res1, hsub, rfl⟩ := hres
      have hrun := on_found_run m s e brk _ _
        (fun g gx gc r hr2 => add_path_loop_run _ _ _ _ _ _ _ _ _ _ _ hr2) _ _ hsub
      refine ⟨res1.tree, rfl, fun _ => ⟨run_sibling_addrs hrun (by simp),
        run_sibling_ids hrun (by simp)⟩, fun hnot => ?_⟩
      exact absurd ((chunk_found_iff _ _).1 hfound) hnot
    · rw [if_neg hfound] at hres
      simp only [Option.map_eq_some'] at hres
      obtain ⟨res1, hsub, rfl⟩ := hres
      have hrun := add_path_loop_run _ _ _ _ _ _ _ _ _ _ _ hsub
      refine ⟨res1.tree, rfl, fun hin => ?_, fun _ => ⟨?_, ?_⟩⟩
      · exact absurd ((chunk_found_iff _ _).2 hin) hfound
      · rw [run_sibling_addrs hrun (by simp)]
        rfl
      · rw [run_sibling_ids hrun (by simp)]
        rfl

/-- Instance of `add_path_loop_nested` on the chunk `a` of Scenario C, whose child
list is `b`: the segment `c` is not found, a new chunk is allocated at 102 and
becomes the first child, before `b`; the segment `b` is found and the child
list stays `b`. -/
theorem add_path_loop_nested_witness :
    to_ulong (hash_code (cstr "c")) ∉ scenario_C_first.children.sibling_ids
      ∧ add_path_loop false 7 8 2 102 ⟨100, 97, 97, -1, -1, false⟩ .NULL
          scenario_C_first.children (-1) (cstr "c")
        = some { brk := 103
                 tree := .node ⟨100, 97, 97, -1, -1, false⟩ .NULL
                   (.node ⟨102, 99, 99, 7, 8, false⟩ scenario_C_first.children .NULL)
                 trace := [100, 102]
                 stored := true }
      ∧ (add_path_loop false 7 8 2 102 ⟨100, 97, 97, -1, -1, false⟩ .NULL
          scenario_C_first.children (-1) (cstr "b")).map
          (fun r => (r.tree.children.sibling_addrs, r.trace))
        = some ([101], [100, 101]) :=
  ⟨by decide,
    ((add_path_loop_nested false 7 8 1 102 ⟨100, 97, 97, -1, -1, false⟩ .NULL
      scenario_C_first.children (-1) (cstr "c") [] (by decide) (by decide) (by decide)
      (by simp)).2.1 (by decide)).trans (by decide),
    by decide⟩

/-! ### Forest builder: the ids of the sibling lists -/

theorem on_found_child_ids (h : Nat) (k : fields → chunk → chunk → Option path_result)
    (hk : ∀ g gx gc r, k g gx gc = some r → child_ids_nodup (.node g gx gc) →
      child_ids_nodup r.tree)
    (c : chunk) (res : path_result) (hres : on_found h k c = some res)
    (hinv : child_ids_nodup c) : child_ids_nodup res.tree := by
  induction c generalizing res with
  | NULL => simp [on_found] at hres
  | node g nx ch ihn _ =>
    unfold on_found at hres
    split_ifs at hres with hid
    · exact hk g nx ch res hres hinv
    · cases hsub : on_found h k nx with
      | none => simp [hsub] at hres
      | some res1 =>
        simp only [hsub, Option.map_some', Option.some.injEq] at hres
        subst hres
        exact ⟨hinv.1, hinv.2.1, ihn res1 hsub hinv.2.2⟩

theorem add_path_loop_child_ids (m : Bool) (s e : Int) (fuel : Nat) :
    ∀ (brk : Nat) (f : fields) (nx ch : chunk) (nl : Int) (next : List Int)
      (res : path_result),
      add_path_loop m s e fuel brk f nx ch nl next = some res →
      child_ids_nodup (.node f nx ch) → child_ids_nodup res.tree := by
  induction fuel with
  | zero =>
    intro brk f nx ch nl next res h
    simp [add_path_loop] at h
  | succ fuel ih =>
    intro brk f nx ch nl next res h hinv
    rw [add_path_loop_succ] at h
    split_ifs at h with h0 hlen hfound
    · cases h
      exact hinv
    · cases h
      exact hinv
    · simp only [Option.map_eq_some'] at h
      obtain ⟨res1, hsub, rfl⟩ := h
      have hrun := on_found_run m s e brk _ _
        (fun g gx gc r hr2 => add_path_loop_run _ _ _ _ _ _ _ _ _ _ _ hr2) _ _ hsub
      refine ⟨?_, ?_, hinv.2.2⟩
      · show res1.tree.sibling_ids.Nodup
        rw [run_sibling_ids hrun (by simp)]
        exact hinv.1
      · exact on_found_child_ids (to_ulong (next_lower_chunk next).hash)
          (fun g gx gc => add_path_loop m s e fuel brk (or_modifiable g m) gx gc
            (next_lower_chunk next).ret (next.drop ((next_lower_chunk next).length + 1)))
          (fun g gx gc r hr2 hg => ih brk (or_modifiable g m) gx gc _ _ r hr2 hg)
          ch res1 hsub hinv.2.1
    · simp only [Option.map_eq_some'] at h
      obtain ⟨res1, hsub, rfl⟩ := h
      have hrun := add_path_loop_run _ _ _ _ _ _ _ _ _ _ _ hsub
      have hnot : to_ulong (next_lower_chunk next).hash ∉ ch.sibling_ids :=
        fun hin => hfound ((chunk_found_iff _ _).2 hin)
      refine ⟨?_, ?_, hinv.2.2⟩
      · show res1.tree.sibling_ids.Nodup
        rw [run_sibling_ids hrun (by simp)]
        exact List.nodup_cons.2 ⟨hnot, hinv.1⟩
      · exact ih _ _ _ _ _ _ _ hsub ⟨List.nodup_nil, trivial, hinv.2.1⟩

theorem add_path_child_ids (brk : Nat) (tree : chunk) (line : List Int) (res : path_result)
    (h : add_path brk tree line = some res)
    (hinv : child_ids_nodup tree) (hhead : head_id_unique tree) :
    child_ids_nodup res.tree ∧ head_id_unique res.tree := by
  unfold add_path at h
  cases hl : split_line_on_comma line with
  | none => simp [hl] at h
  | some l =>
    simp only [hl] at h
    split_ifs at h with hlen
    · cases h
      exact ⟨hinv, hhead⟩
    · cases tree with
      | NULL =>
        have hrun := add_path_loop_run _ _ _ _ _ _ _ _ _ _ _ h
        obtain ⟨f1, ch1, htree, _⟩ := run_loop_shape hrun
        refine ⟨add_path_loop_child_ids _ _ _ _ _ _ _ _ _ _ _ h
          ⟨List.nodup_nil, trivial, trivial⟩, ?_⟩
        rw [htree]
        simp [head_id_unique, chunk.sibling_ids]
      | node f nx ch =>
        simp only at h
        split_ifs at h with hid
        · simp only [Option.map_eq_some'] at h
          obtain ⟨res1, hsub, rfl⟩ := h
          have hrun := add_path_loop_run _ _ _ _ _ _ _ _ _ _ _ hsub
          refine ⟨⟨hinv.1, hinv.2.1, ?_⟩, ?_⟩
          · exact add_path_loop_child_ids _ _ _ _ _ _ _ _ _ _ _ hsub
              ⟨List.nodup_nil, trivial, hinv.2.2⟩
          · show f.id ∉ res1.tree.sibling_ids
            rw [run_sibling_ids hrun (by simp)]
            simp only [chunk.sibling_ids, or_modifiable, new_chunk, List.mem_cons, not_or]
            exact ⟨hid, hhead⟩
        · have hrun := add_path_loop_run _ _ _ _ _ _ _ _ _ _ _ h
          obtain ⟨f1, ch1, htree, _, hid1, _⟩ := run_loop_shape hrun
          refine ⟨add_path_loop_child_ids _ _ _ _ _ _ _ _ _ _ _ h hinv, ?_⟩
          rw [htree]
          show f1.id ∉ nx.sibling_ids
          rw [hid1]
          exact hhead

theorem add_paths_child_ids (lines : List (List Int)) :
    ∀ (brk : Nat) (tree : chunk) (brk1 : Nat) (tree1 : chunk),
      add_paths brk tree lines = some (brk1, tree1) →
      child_ids_nodup tree → head_id_unique tree →
      child_ids_nodup tree1 ∧ head_id_unique tree1 := by
  induction lines with
  | nil =>
    intro brk tree brk1 tree1 h hinv hhead
    simp only [add_paths, Option.some.injEq, Prod.mk.injEq] at h
    rw [← h.2]
    exact ⟨hinv, hhead⟩
  | cons line lines ih =>
    intro brk tree brk1 tree1 h hinv hhead
    unfold add_paths at h
    cases hres : add_path brk tree line with
    | none => simp [hres] at h
    | some res =>
      simp only [hres] at h
      obtain ⟨h1, h2⟩ := add_path_child_ids brk tree line res hres hinv hhead
      exact ih _ _ _ _ h h1 h2

/-- Claim C15, as stated, fails at top level, where only the head is compared:
the lines `a`, `b`, `b` give the top-level list `a`, `b`, `b`, with two nodes
of id 98. -/
theorem top_level_duplicate_ids :
    (get_chunks 100 [cstr "0 1 a\n", cstr "0 1 b\n", cstr "0 1 b\n"]).map
        (fun r => (r.2.sibling_ids, r.2.sibling_addrs))
        = some ([97, 98, 98], [100, 102, 101])
      ∧ ¬ ([97, 98, 98] : List Nat).Nodup := by
  decide

/-- Claim C15, amended: for every sequence of descriptor lines processed from the
empty forest, after the lines have been processed no two nodes of the child
list of any node have the same id, and in the top-level list the id of the
first chunk occurs only once; the other chunks of the top-level list can have
equal ids.  It holds after each line, every beginning of the sequence being a
sequence. -/
theorem get_chunks_sibling_ids (brk : Nat) (lines : List (List Int)) (brk1 : Nat)
    (tree : chunk) (h : get_chunks brk lines = some (brk1, tree)) :
    child_ids_nodup tree ∧ head_id_unique tree
      ∧ (∀ l1 l2, lines = l1 ++ l2 → ∃ brk0 t0, get_chunks brk l1 = some (brk0, t0)
          ∧ child_ids_nodup t0 ∧ head_id_unique t0) := by
  unfold get_chunks at h ⊢
  have hd := add_paths_child_ids lines brk .NULL brk1 tree h trivial trivial
  refine ⟨hd.1, hd.2, ?_⟩
  intro l1 l2 hsplit
  subst hsplit
  rw [add_paths_append] at h
  cases h1 : add_paths brk .NULL l1 with
  | none => simp [h1] at h
  | some r =>
    obtain ⟨brk0, t0⟩ := r
    exact ⟨brk0, t0, rfl, add_paths_child_ids l1 brk .NULL brk0 t0 h1 trivial trivial⟩

/-- Instance of `get_chunks_sibling_ids`: the lines `p~a`, `p~b`, `p~a` give the
chunk `p` the two children `b` and `a`. -/
theorem get_chunks_sibling_ids_witness :
    (get_chunks 100 [cstr "0 1 p~a\n", cstr "2 3 p~b\n", cstr "4 5 p~a\n"]).map
        (fun r => (r.2.children.sibling_ids, r.2.children.ranges))
        = some ([98, 97], [(102, 2, 3), (101, 4, 5)])
      ∧ child_ids_nodup
          (.node ⟨100, 112, 112, -1, -1, false⟩ .NULL
            (.node ⟨102, 98, 98, 2, 3, false⟩ (.node ⟨101, 97, 97, 4, 5, false⟩ .NULL .NULL)
              .NULL)) :=
  ⟨by decide,
    (get_chunks_sibling_ids 100 [cstr "0 1 p~a\n", cstr "2 3 p~b\n", cstr "4 5 p~a\n"] 103
      (.node ⟨100, 112, 112, -1, -1, false⟩ .NULL
        (.node ⟨102, 98, 98, 2, 3, false⟩ (.node ⟨101, 97, 97, 4, 5, false⟩ .NULL .NULL)
          .NULL)) (by decide)).1⟩

/-! ### Forest builder: paths with a zero-length segment -/

theorem next_lower_chunk_zero (tail : List Int) (htail : tail = [] ∨ ∃ t, tail = 126 :: t) :
    (next_lower_chunk tail).length = 0 := by
  rcases htail with rfl | ⟨t, rfl⟩
  · rfl
  · show segment_length (126 :: t) = 0
    simp [segment_length, is_segment_end]

theorem next_lower_chunk_truncated (seg : List Int) (segs : List (List Int)) (tail : List Int)
    (hseg : ∀ c ∈ seg, is_segment_end c = false) :
    next_lower_chunk (truncated_path (seg :: segs) tail)
        = { ret := -1, length := seg.length, hash := hash_code seg
            type_hash := hash_code (type_text seg) }
      ∧ (truncated_path (seg :: segs) tail).drop (seg.length + 1) = truncated_path segs tail
      ∧ (truncated_path segs tail).length < (truncated_path (seg :: segs) tail).length := by
  refine ⟨?_, ?_, ?_⟩
  · have := next_lower_chunk_segment seg hseg (126 :: truncated_path segs tail)
      (by intro c tl h; cases h; rfl)
    simpa [truncated_path] using this
  · simp only [truncated_path]
    rw [List.drop_append_eq_append_drop]
    simp
  · simp only [truncated_path, List.length_append, List.length_cons]
    omega

theorem truncated_path_chars (segs : List (List Int)) (tail : List Int)
    (hs : segments_ok segs) (htail : ∀ c ∈ tail, is_path_end c = false) :
    ∀ c ∈ truncated_path segs tail, is_path_end c = false := by
  induction segs with
  | nil => exact htail
  | cons seg segs ih =>
    intro c hc
    have hseg := hs seg (List.mem_cons_self _ _)
    have ih2 := ih (fun x hx => hs x (List.mem_cons_of_mem _ hx))
    simp only [truncated_path, List.mem_append, List.mem_cons] at hc
    rcases hc with hc | hc | hc
    · exact is_path_end_of_segment_end c (hseg.2 c hc)
    · rw [hc]; rfl
    · exact ih2 c hc

theorem same_but_stored_wrap {rg rb : path_result} (h : same_but_stored rg rb)
    (wrap : chunk → chunk) (hwrap : ∀ a b, forget_ranges a = forget_ranges b →
      forget_ranges (wrap a) = forget_ranges (wrap b)) :
    same_but_stored { rg with tree := wrap rg.tree } { rb with tree := wrap rb.tree } :=
  ⟨h.1, h.2.1, h.2.2.1, h.2.2.2.1, hwrap _ _ h.2.2.2.2⟩

theorem same_but_stored_push {rg rb : path_result} (h : same_but_stored rg rb)
    (f : fields) (nx : chunk) :
    same_but_stored
      { rg with tree := .node f nx rg.tree, trace := f.addr :: rg.trace }
      { rb with tree := .node f nx rb.tree, trace := f.addr :: rb.trace } := by
  obtain ⟨h1, h2, h3, h4, h5⟩ := h
  refine ⟨h1, by rw [h2], h3, h4, ?_⟩
  unfold forget_ranges at h5 ⊢
  simp only [chunk.map, h5]

theorem on_found_related (h : Nat) (kg kb : fields → chunk → chunk → Option path_result)
    (hk : ∀ g gx gc, ∃ rg rb, kg g gx gc = some rg ∧ kb g gx gc = some rb
      ∧ same_but_stored rg rb)
    (c : chunk) (hc : chunk_found h c = true) :
    ∃ rg rb, on_found h kg c = some rg ∧ on_found h kb c = some rb
      ∧ same_but_stored rg rb := by
  induction c with
  | NULL => simp [chunk_found] at hc
  | node g nx ch ihn _ =>
    unfold on_found
    by_cases hid : g.id = h
    · rw [if_pos hid, if_pos hid]
      exact hk g nx ch
    · rw [if_neg hid, if_neg hid]
      have hc2 : chunk_found h nx = true := by
        simpa [chunk_found, hid] using hc
      obtain ⟨rg, rb, h1, h2, h3⟩ := ihn hc2
      refine ⟨{ rg with tree := .node g rg.tree ch }, { rb with tree := .node g rb.tree ch },
        by rw [h1]; rfl, by rw [h2]; rfl, ?_⟩
      apply same_but_stored_wrap h3 (fun t => chunk.node g t ch)
      intro a b hab
      unfold forget_ranges at hab ⊢
      simp only [chunk.map, hab]

/-- The loop of `add_path` on the segments `segs` followed by a zero-length
segment does what it does on the segments `segs` alone, the final store of the
byte range apart. -/
theorem add_path_loop_related (m : Bool) (s e : Int) (segs : List (List Int))
    (tail : List Int) (hs : segments_ok segs) (htail : tail = [] ∨ ∃ t, tail = 126 :: t) :
    ∀ (fg fb : Nat), (join_segments segs).length < fg →
      (truncated_path segs tail).length < fb →
    ∀ (brk : Nat) (f : fields) (nx ch : chunk),
      ∃ rg rb,
        add_path_loop m s e fg brk f nx ch (if segs.isEmpty then 0 else -1)
            (join_segments segs) = some rg
          ∧ add_path_loop m s e fb brk f nx ch (-1) (truncated_path segs tail) = some rb
          ∧ same_but_stored rg rb := by
  induction segs with
  | nil =>
    intro fg fb hfg hfb brk f nx ch
    obtain ⟨kg, rfl⟩ : ∃ k, fg = k + 1 := ⟨fg - 1, by omega⟩
    obtain ⟨kb, rfl⟩ : ∃ k, fb = k + 1 := ⟨fb - 1, by omega⟩
    rw [add_path_loop_succ, add_path_loop_succ]
    simp only [List.isEmpty_nil, if_true, truncated_path, next_lower_chunk_zero tail htail]
    rw [if_neg (by decide)]
    exact ⟨_, _, rfl, rfl, rfl, rfl, rfl, rfl, rfl⟩
  | cons seg segs ih =>
    intro fg fb hfg hfb brk f nx ch
    obtain ⟨kg, rfl⟩ : ∃ k, fg = k + 1 := ⟨fg - 1, by omega⟩
    obtain ⟨kb, rfl⟩ : ∃ k, fb = k + 1 := ⟨fb - 1, by omega⟩
    have hseg := hs seg (List.mem_cons_self _ _)
    have hs2 : segments_ok segs := fun x hx => hs x (List.mem_cons_of_mem _ hx)
    have hlen := length_join_segments_cons seg segs hseg.1
    obtain ⟨hr, hdrop⟩ := next_lower_chunk_join seg segs hseg.2
    obtain ⟨hrb, hdropb, hlenb⟩ := next_lower_chunk_truncated seg segs tail hseg.2
    have hpos : seg.length ≠ 0 := fun h0 => hseg.1 (List.length_eq_zero.1 h0)
    have ih2 := ih hs2 kg kb (by omega) (by omega)
    rw [add_path_loop_succ, add_path_loop_succ, hr, hrb]
    simp only [List.isEmpty_cons, Bool.false_eq_true, if_false, hdrop, hdropb]
    rw [if_neg (by decide), if_neg hpos, if_neg hpos]
    by_cases hfound : chunk_found (to_ulong (hash_code seg)) ch = true
    · rw [if_pos hfound, if_pos hfound]
      obtain ⟨rg, rb, h1, h2, h3⟩ := on_found_related (to_ulong (hash_code seg))
        (fun g gx gc => add_path_loop m s e kg brk (or_modifiable g m) gx gc
          (if segs.isEmpty then 0 else -1) (join_segments segs))
        (fun g gx gc => add_path_loop m s e kb brk (or_modifiable g m) gx gc (-1)
          (truncated_path segs tail))
        (fun g gx gc => ih2 brk _ gx gc) ch hfound
      exact ⟨_, _, by rw [h1]; rfl, by rw [h2]; rfl, same_but_stored_push h3 f nx⟩
    · rw [if_neg hfound, if_neg hfound]
      obtain ⟨rg, rb, h1, h2, h3⟩ := ih2 (brk + 1)
        (new_chunk brk ⟨if segs.isEmpty then 0 else -1, seg.length, hash_code seg,
          hash_code (type_text seg)⟩ m) ch .NULL
      refine ⟨_, _, by rw [h1]; rfl, ?_, same_but_stored_push h3 f nx⟩
      have e : new_chunk brk ⟨-1, seg.length, hash_code seg, hash_code (type_text seg)⟩ m
          = new_chunk brk ⟨if segs.isEmpty then 0 else -1, seg.length, hash_code seg,
            hash_code (type_text seg)⟩ m := rfl
      rw [e, h2]
      rfl

theorem add_path_related (brk : Nat) (tree : chunk) (d1 : List Int) (s1 : Int)
    (d2 : List Int) (s2 : Int) (seg : List Int) (segs : List (List Int)) (tail term : List Int)
    (hw : well_formed_offsets d1 s1 d2 s2 term) (hs : segments_ok (seg :: segs))
    (htail : tail = [] ∨ ∃ t, tail = 126 :: t) (hpath : ∀ c ∈ tail, is_path_end c = false) :
    ∃ rg rb,
      add_path brk tree (descriptor_line d1 s1 d2 s2 (join_segments (seg :: segs)) term)
          = some rg
        ∧ add_path brk tree
            (descriptor_line d1 s1 d2 s2 (truncated_path (seg :: segs) tail) term) = some rb
        ∧ same_but_stored rg rb := by
  have hseg := hs seg (List.mem_cons_self _ _)
  have hs2 : segments_ok segs := fun x hx => hs x (List.mem_cons_of_mem _ hx)
  obtain ⟨hr, hdrop⟩ := next_lower_chunk_join seg segs hseg.2
  obtain ⟨hrb, hdropb, _⟩ := next_lower_chunk_truncated seg segs tail hseg.2
  have hpos : seg.length ≠ 0 := fun h0 => hseg.1 (List.length_eq_zero.1 h0)
  have hrel := add_path_loop_related (line_flag term) (decimal_value d1) (decimal_value d2)
    segs tail hs2 htail ((join_segments segs).length + 1)
    ((truncated_path segs tail).length + 1) (Nat.lt_succ_self _) (Nat.lt_succ_self _)
  unfold add_path
  rw [split_descriptor_line d1 s1 d2 s2 _ term hw (join_segments_path _ hs),
    split_descriptor_line d1 s1 d2 s2 _ term hw (truncated_path_chars _ _ hs hpath)]
  simp only [hr, hdrop, hrb, hdropb, if_neg hpos]
  cases tree with
  | NULL =>
    obtain ⟨rg, rb, h1, h2, h3⟩ := hrel (brk + 1)
      (new_chunk brk ⟨if segs.isEmpty then 0 else -1, seg.length, hash_code seg,
        hash_code (type_text seg)⟩ (line_flag term)) .NULL .NULL
    exact ⟨rg, rb, h1, h2, h3⟩
  | node f nx ch =>
    by_cases hid : f.id ≠ to_ulong (hash_code seg)
    · simp only [if_pos hid]
      obtain ⟨rg, rb, h1, h2, h3⟩ := hrel (brk + 1)
        (or_modifiable (new_chunk brk ⟨if segs.isEmpty then 0 else -1, seg.length,
          hash_code seg, hash_code (type_text seg)⟩ (line_flag term)) (line_flag term)) nx .NULL
      refine ⟨{ rg with tree := .node f rg.tree ch }, { rb with tree := .node f rb.tree ch },
        by rw [h1]; rfl, ?_, ?_⟩
      · have e : or_modifiable (new_chunk brk ⟨-1, seg.length, hash_code seg,
            hash_code (type_text seg)⟩ (line_flag term)) (line_flag term)
            = or_modifiable (new_chunk brk ⟨if segs.isEmpty then 0 else -1, seg.length,
              hash_code seg, hash_code (type_text seg)⟩ (line_flag term)) (line_flag term) :=
          rfl
        rw [e, h2]
        rfl
      · apply same_but_stored_wrap h3 (fun t => chunk.node f t ch)
        intro a b hab
        unfold forget_ranges at hab ⊢
        simp only [chunk.map, hab]
    · simp only [if_neg hid]
      obtain ⟨rg, rb, h1, h2, h3⟩ := hrel brk (or_modifiable f (line_flag term)) nx ch
      exact ⟨rg, rb, h1, h2, h3⟩

/-- Claim C17: for a line whose path has the non-empty segments `segs` followed
by a zero-length segment (`tail` is empty or starts with a tilde), `add_path`
returns without storing a byte range; it has passed through one chunk for each
segment of `segs` and allocated nothing for the zero-length segment or what
follows it: allocator, trace and, byte ranges apart, forest are those of the
well-formed line with the path `segs` (flags or-ed in the same way); every byte
range of the old forest is kept and every other byte range is unknown; when
`segs` is empty the forest is returned unchanged. -/
theorem add_path_zero_length_segment (brk : Nat) (tree : chunk) (d1 : List Int) (s1 : Int)
    (d2 : List Int) (s2 : Int) (segs : List (List Int)) (tail term : List Int)
    (hw : well_formed_offsets d1 s1 d2 s2 term) (hs : segments_ok segs)
    (htail : tail = [] ∨ ∃ t, tail = 126 :: t) (hpath : ∀ c ∈ tail, is_path_end c = false) :
    ∃ rb,
      add_path brk tree (descriptor_line d1 s1 d2 s2 (truncated_path segs tail) term) = some rb
        ∧ rb.stored = false ∧ rb.trace.length = segs.length
        ∧ (∀ x ∈ tree.ranges, x ∈ rb.tree.ranges)
        ∧ (∀ x ∈ rb.tree.ranges, x ∈ tree.ranges ∨ x.2 = (-1, -1))
        ∧ (segs = [] → rb = { brk := brk, tree := tree, trace := [], stored := false })
        ∧ (segs ≠ [] → ∃ rg,
            add_path brk tree (descriptor_line d1 s1 d2 s2 (join_segments segs) term) = some rg
              ∧ rg.stored = true ∧ rb.brk = rg.brk ∧ rb.trace = rg.trace
              ∧ forget_ranges rb.tree = forget_ranges rg.tree) := by
  have hframe : ∀ rb, add_path brk tree
      (descriptor_line d1 s1 d2 s2 (truncated_path segs tail) term) = some rb →
      rb.stored = false →
      (∀ x ∈ tree.ranges, x ∈ rb.tree.ranges)
        ∧ (∀ x ∈ rb.tree.ranges, x ∈ tree.ranges ∨ x.2 = (-1, -1)) := by
    intro rb hrb hst
    obtain ⟨l, _, hrun⟩ := add_path_run brk tree _ rb hrb
    refine ⟨fun x hx => run_ranges_frame hrun x hx (by simp [hst]), fun x hx => ?_⟩
    rcases run_ranges_origin hrun x hx with h1 | h1 | h1
    · exact Or.inl h1
    · exact Or.inr h1
    · rw [hst] at h1
      exact absurd h1.1 (by decide)
  cases segs with
  | nil =>
    have hadd : add_path brk tree (descriptor_line d1 s1 d2 s2 (truncated_path [] tail) term)
        = some { brk := brk, tree := tree, trace := [], stored := false } := by
      unfold add_path
      rw [split_descriptor_line d1 s1 d2 s2 _ term hw (truncated_path_chars _ _ hs hpath)]
      simp only [truncated_path, next_lower_chunk_zero tail htail, if_true]
    refine ⟨_, hadd, rfl, rfl, (hframe _ hadd rfl).1, (hframe _ hadd rfl).2, fun _ => rfl,
      fun hne => absurd rfl hne⟩
  | cons seg segs =>
    obtain ⟨rg, rb, h1, h2, h3⟩ :=
      add_path_related brk tree d1 s1 d2 s2 seg segs tail term hw hs htail hpath
    obtain ⟨r0, h4, _, h6⟩ :=
      add_path_total brk tree d1 s1 d2 s2 (seg :: segs) term hw hs (by simp)
    rw [h1] at h4
    cases h4
    obtain ⟨e1, e2, e3, e4, e5⟩ := h3
    refine ⟨rb, h2, e3, ?_, (hframe rb h2 e3).1, (hframe rb h2 e3).2, ?_, ?_⟩
    · rw [e2]
      exact h6
    · intro hnil
      exact absurd hnil (List.cons_ne_nil _ _)
    · intro _
      exact ⟨rg, h1, e4, e1, e2, e5⟩

/-- Instance of `add_path_zero_length_segment` on the forest of Scenario C: the line
`7 8 a~c~~d,Enabled` reuses `a`, creates `c` under it, and stops at the
zero-length segment; no byte range is stored and `d` gets no chunk. -/
theorem add_path_zero_length_segment_witness :
    well_formed_offsets (cstr "7") 32 (cstr "8") 32 (cstr ",Enabled\n")
      ∧ segments_ok [cstr "a", cstr "c"]
      ∧ add_path 102 scenario_C_first (cstr "7 8 a~c~~d,Enabled\n")
        = some { brk := 103
                 tree := .node ⟨100, 97, 97, -1, -1, true⟩ .NULL
                   (.node ⟨102, 99, 99, -1, -1, true⟩ scenario_C_first.children .NULL)
                 trace := [100, 102]
                 stored := false }
      ∧ ∃ rb, add_path 102 scenario_C_first (cstr "7 8 a~c~~d,Enabled\n") = some rb
        ∧ rb.stored = false ∧ rb.trace.length = 2
        ∧ (∀ x ∈ scenario_C_first.ranges, x ∈ rb.tree.ranges)
        ∧ (∀ x ∈ rb.tree.ranges, x ∈ scenario_C_first.ranges ∨ x.2 = (-1, -1))
        ∧ ([cstr "a", cstr "c"] = [] →
            rb = { brk := 102, tree := scenario_C_first, trace := [], stored := false })
        ∧ ([cstr "a", cstr "c"] ≠ [] → ∃ rg,
            add_path 102 scenario_C_first (cstr "7 8 a~c,Enabled\n") = some rg
              ∧ rg.stored = true ∧ rb.brk = rg.brk ∧ rb.trace = rg.trace
              ∧ forget_ranges rb.tree = forget_ranges rg.tree) :=
  have hw : well_formed_offsets (cstr "7") 32 (cstr "8") 32 (cstr ",Enabled\n") :=
    ⟨by decide, by decide, by decide, by decide, by decide, by decide, by decide, by decide,
      by intro c rest h; cases h; rfl⟩
  have hs : segments_ok [cstr "a", cstr "c"] := by
    intro seg hseg
    simp only [List.mem_cons, List.mem_singleton, List.not_mem_nil, or_false] at hseg
    rcases hseg with rfl | rfl
    · exact ⟨by decide, by decide⟩
    · exact ⟨by decide, by decide⟩
  ⟨hw, hs, by decide,
    add_path_zero_length_segment 102 scenario_C_first (cstr "7") 32 (cstr "8") 32
      [cstr "a", cstr "c"] (cstr "~d") (cstr ",Enabled\n") hw hs (Or.inr ⟨cstr "d", rfl⟩)
      (by decide)⟩

/-! ### Structural editor: shrink after grow -/

theorem reduce_increase_fields (f : fields) (p : Int) (n : Nat)
    (hs : 0 ≤ f.start_byte → f.start_byte + n ≤ 2147483647)
    (he : 0 ≤ f.end_byte → f.end_byte + n ≤ 2147483647) :
    reduce_fields (increase_fields f p n) p n = f := by
  obtain ⟨a, i, t, s, e, m⟩ := f
  simp only at hs he
  have h1 : (if (if s ≥ 0 ∧ s > p then to_int (s + n) else s) ≥ 0
        ∧ (if s ≥ 0 ∧ s > p then to_int (s + n) else s) > p
      then to_int ((if s ≥ 0 ∧ s > p then to_int (s + n) else s) - n)
      else (if s ≥ 0 ∧ s > p then to_int (s + n) else s)) = s := by
    unfold to_int
    split_ifs <;> omega
  have h2 : (if (if e ≥ 0 ∧ e ≥ p then to_int (e + n) else e) ≥ 0
        ∧ (if e ≥ 0 ∧ e ≥ p then to_int (e + n) else e) ≥ p
      then to_int ((if e ≥ 0 ∧ e ≥ p then to_int (e + n) else e) - n)
      else (if e ≥ 0 ∧ e ≥ p then to_int (e + n) else e)) = e := by
    unfold to_int
    split_ifs <;> omega
  simp only [reduce_fields, increase_fields, h1, h2]

theorem reduce_increase_none (c : chunk) (p : Int) (n : Nat) (hfit : offsets_fit c n) :
    reduce_byte_positions (increase_byte_positions_except_target_children c none p n) p n
      = c := by
  induction c with
  | NULL => rfl
  | node f next children ihn ihc =>
    have hf := hfit (f.addr, f.start_byte, f.end_byte) (by simp [chunk.ranges])
    have hn : offsets_fit next n := fun x hx =>
      hfit x (by simp only [chunk.ranges, List.mem_cons, List.mem_append]; exact Or.inr (Or.inr hx))
    have hc : offsets_fit children n := fun x hx =>
      hfit x (by simp only [chunk.ranges, List.mem_cons, List.mem_append]; exact Or.inr (Or.inl hx))
    have hne : (some f.addr ≠ (none : Option Nat)) := by simp
    simp only [increase_byte_positions_except_target_children, if_pos hne,
      reduce_byte_positions, ihn hn, ihc hc, reduce_increase_fields f p n hf.1 hf.2]

/-- Claim C21: shrink undoes grow.  For every forest, every edit point `p` and
every amount `n` such that no known (non-negative) offset of the forest plus
`n` exceeds `2 ^ 31 - 1`, `reduce_byte_positions` at `p` by `n`, applied to the
result of `increase_byte_positions_except_target_children` without a target at
`p` by `n`, gives back the original forest.  The converse order does not
restore a known start offset in `(p, p + n]`: shrinking moves it to `p` or
below, where growing leaves it. -/
theorem reduce_byte_positions_undoes_increase (c : chunk) (p : Int) (n : Nat)
    (hfit : offsets_fit c n) :
    reduce_byte_positions (increase_byte_positions_except_target_children c none p n) p n = c
      ∧ (∀ f : fields, 0 ≤ f.start_byte → p < f.start_byte → f.start_byte ≤ p + n →
          f.start_byte ≤ 2147483647 → 0 < n → n ≤ 2147483648 →
          (increase_fields (reduce_fields f p n) p n).start_byte = f.start_byte - n
            ∧ (increase_fields (reduce_fields f p n) p n).start_byte ≠ f.start_byte) := by
  refine ⟨reduce_increase_none c p n hfit, ?_⟩
  intro f h0 h1 h2 h3 h4 h5
  obtain ⟨a, i, t, s, e, m⟩ := f
  simp only at h0 h1 h2 h3
  have hred : to_int (s - n) = s - n := to_int_of_range _ (by omega) (by omega)
  have hcond : s ≥ 0 ∧ s > p := ⟨h0, h1⟩
  have hnot : ¬ (s - (n : Int) ≥ 0 ∧ s - (n : Int) > p) := by omega
  have hval : (increase_fields (reduce_fields ⟨a, i, t, s, e, m⟩ p n) p n).start_byte
      = s - n := by
    simp only [increase_fields, reduce_fields, if_pos hcond, hred, if_neg hnot]
  rw [hval]
  show s - (n : Int) = s - n ∧ s - (n : Int) ≠ s
  exact ⟨rfl, by omega⟩

/-- Instance of `reduce_byte_positions_undoes_increase` on `nested_forest` with
edit point 3 and amount 10: growing moves every offset except the two 0 starts,
and shrinking gives the forest back.  In the converse order on Scenario D
(edit point 10, amount 10) the end 19 and the start 20 are not restored. -/
theorem reduce_byte_positions_undoes_increase_witness :
    offsets_fit nested_forest 10
      ∧ increase_byte_positions_except_target_children nested_forest none 3 10
        = .node ⟨1, 7, 0, 0, 39, false⟩ (leaf_chunk 4 40 49 .NULL)
            (.node ⟨2, 8, 0, 0, 19, true⟩ (leaf_chunk 3 20 29 .NULL) (leaf_chunk 5 0 14 .NULL))
      ∧ reduce_byte_positions
          (increase_byte_positions_except_target_children nested_forest none 3 10) 3 10
        = nested_forest
      ∧ increase_byte_positions_except_target_children
          (reduce_byte_positions scenario_D 10 10) none 10 10
        = leaf_chunk 1 0 9 (leaf_chunk 2 10 9 (leaf_chunk 3 10 29 .NULL)) :=
  have hfit : offsets_fit nested_forest 10 := by
    unfold offsets_fit
    decide
  ⟨hfit, by decide, (reduce_byte_positions_undoes_increase nested_forest 3 10 hfit).1,
    by decide⟩

/-! ### Forest builder: the child lists of a loaded forest -/

theorem add_paths_returns (lines : List (List Int))
    (hlines : ∀ line ∈ lines, (split_line_on_comma line).isSome = true) :
    ∀ (brk : Nat) (tree : chunk), ∃ brk1 tree1, add_paths brk tree lines = some (brk1, tree1) := by
  induction lines with
  | nil => intro brk tree; exact ⟨brk, tree, rfl⟩
  | cons line lines ih =>
    intro brk tree
    obtain ⟨l, hl⟩ := Option.isSome_iff_exists.1 (hlines line (List.mem_cons_self _ _))
    obtain ⟨res, hres⟩ := add_path_returns brk tree line l hl
    obtain ⟨brk1, tree1, h1⟩ :=
      ih (fun x hx => hlines x (List.mem_cons_of_mem _ hx)) res.brk res.tree
    refine ⟨brk1, tree1, ?_⟩
    unfold add_paths
    simp only [hres]
    exact h1

theorem child_lists_nodup (c : chunk) (h : child_ids_nodup c) :
    ∀ ch ∈ c.child_lists, ch.sibling_ids.Nodup := by
  induction c with
  | NULL => intro ch hch; simp [chunk.child_lists] at hch
  | node f next children ihn ihc =>
    intro ch hch
    simp only [chunk.child_lists, List.mem_cons, List.mem_append] at hch
    rcases hch with rfl | hch | hch
    · exact h.1
    · exact ihc h.2.1 ch hch
    · exact ihn h.2.2 ch hch

/-- Claim C22: for every sequence of descriptor lines (each of which can be
split into offsets and path), `get_chunks`, which processes them by `add_path`
starting from the empty forest, returns a forest in which the child list of
every node has pairwise distinct ids, whatever the top-level list holds. -/
theorem get_chunks_child_lists_distinct (brk : Nat) (lines : List (List Int))
    (hlines : ∀ line ∈ lines, (split_line_on_comma line).isSome = true) :
    ∃ brk1 tree, get_chunks brk lines = some (brk1, tree)
      ∧ ∀ ch ∈ tree.child_lists, ch.sibling_ids.Pairwise (fun a b => a ≠ b) := by
  obtain ⟨brk1, tree, h⟩ := add_paths_returns lines hlines brk .NULL
  refine ⟨brk1, tree, h, ?_⟩
  exact child_lists_nodup tree (add_paths_child_ids lines brk .NULL brk1 tree h trivial trivial).1

/-- Instance of `get_chunks_child_lists_distinct`: the lines `a~x`, `b~x`, `b~y`,
`a~y`, `a~x` give the top-level list `a`, `b`, `b`, with two chunks of id 98,
and the child lists `y x` (of `a`), `y` and `x` (of the two `b`), each without
a repeated id. -/
theorem get_chunks_child_lists_distinct_witness :
    (∀ line ∈ [cstr "0 1 a~x\n", cstr "2 3 b~x\n", cstr "4 5 b~y\n", cstr "6 7 a~y\n",
        cstr "8 9 a~x\n"], (split_line_on_comma line).isSome = true)
      ∧ (get_chunks 100 [cstr "0 1 a~x\n", cstr "2 3 b~x\n", cstr "4 5 b~y\n",
          cstr "6 7 a~y\n", cstr "8 9 a~x\n"]).map
          (fun r => (r.1, r.2.sibling_ids, r.2.child_lists.map chunk.sibling_ids))
        = some (107, [97, 98, 98], [[121, 120], [], [], [121], [], [120], []])
      ∧ ∃ brk1 tree, get_chunks 100 [cstr "0 1 a~x\n", cstr "2 3 b~x\n", cstr "4 5 b~y\n",
          cstr "6 7 a~y\n", cstr "8 9 a~x\n"] = some (brk1, tree)
        ∧ ∀ ch ∈ tree.child_lists, ch.sibling_ids.Pairwise (fun a b => a ≠ b) :=
  ⟨by decide, by decide,
    get_chunks_child_lists_distinct 100 [cstr "0 1 a~x\n", cstr "2 3 b~x\n",
      cstr "4 5 b~y\n", cstr "6 7 a~y\n", cstr "8 9 a~x\n"] (by decide)⟩

/-! ### Forest builder: the order of the two offsets of a node -/

theorem split_descriptor_line_atoi (d1 : List Int) (s1 : Int) (d2 : List Int) (s2 : Int)
    (path term : List Int)
    (hd1 : ∀ c ∈ d1, isdigit c = true) (hd2 : ∀ c ∈ d2, isdigit c = true)
    (hl1 : d1.length < READ_LINE_BUFFER_SIZE) (hl2 : d2.length < READ_LINE_BUFFER_SIZE)
    (hs1 : isdigit s1 = false) (hs2 : isdigit s2 = false)
    (hp : ∀ c ∈ path, is_path_end c = false)
    (ht : ∀ c rest, term = c :: rest → is_path_end c = true) :
    split_line_on_comma (descriptor_line d1 s1 d2 s2 path term)
      = some { start_byte := atoi d1, end_byte := atoi d2, path := path
               modifiable := line_flag term } := by
  unfold split_line_on_comma descriptor_line
  rw [scan_digits_append d1 hd1 s1 hs1]
  simp only [atoi_copy, hl1, if_true]
  rw [scan_digits_append d2 hd2 s2 hs2]
  simp only [atoi_copy, hl2, if_true]
  rw [takeWhile_path path hp term ht]
  simp only [List.drop_left]
  cases term <;> rfl

/-- Claim C16, as stated, fails: the code stores the two offsets of a line as it
reads them.  The descriptor made of the line `9 0 a` gives one chunk with start
9 and end 0, both known, and end below start.  The offsets are read by `atoi`:
the line `7 4294967301 a`, written with the second offset above the first,
gives start 7 and end 5. -/
theorem get_chunks_end_before_start :
    get_chunks 100 [cstr "9 0 a\n"]
        = some (101, .node { addr := 100, id := 97, type := 97, start_byte := 9, end_byte := 0
                             modifiable := false } .NULL .NULL)
      ∧ get_chunks 100 [cstr "7 4294967301 a\n"]
        = some (101, .node { addr := 100, id := 97, type := 97, start_byte := 7, end_byte := 5
                             modifiable := false } .NULL .NULL) := by
  decide

/-- Claim C16, amended: for every descriptor content in which every line can be
split and has, for its two offsets as `split_line_on_comma` reads them, the
second not below the first, `get_chunks` returns a forest, and every node of it
whose start and end are both known (non-negative) satisfies end >= start.  The
offsets read are those that `atoi` gives for the two digit runs of the line;
for a line whose two offsets are written with values in the range of `int`,
these are the values written, so that such a line qualifies when the second
value written is not below the first. -/
theorem get_chunks_ranges_ordered (brk : Nat) (lines : List (List Int))
    (hlines : ∀ line ∈ lines, ∃ l, split_line_on_comma line = some l
      ∧ l.start_byte ≤ l.end_byte) :
    (∃ brk1 tree, get_chunks brk lines = some (brk1, tree)
        ∧ ∀ x ∈ tree.ranges, 0 ≤ x.2.1 → 0 ≤ x.2.2 → x.2.2 ≥ x.2.1)
      ∧ (∀ (d1 : List Int) (s1 : Int) (d2 : List Int) (s2 : Int) (path term : List Int),
          (∀ c ∈ d1, isdigit c = true) → (∀ c ∈ d2, isdigit c = true) →
          d1.length < READ_LINE_BUFFER_SIZE → d2.length < READ_LINE_BUFFER_SIZE →
          isdigit s1 = false → isdigit s2 = false →
          (∀ c ∈ path, is_path_end c = false) →
          (∀ c rest, term = c :: rest → is_path_end c = true) →
          split_line_on_comma (descriptor_line d1 s1 d2 s2 path term)
              = some { start_byte := atoi d1, end_byte := atoi d2, path := path
                       modifiable := line_flag term }
            ∧ (decimal_value d1 ≤ 2147483647 → atoi d1 = decimal_value d1)
            ∧ (decimal_value d2 ≤ 2147483647 → atoi d2 = decimal_value d2)) := by
  constructor
  · have hsome : ∀ line ∈ lines, (split_line_on_comma line).isSome = true := by
      intro line hline
      obtain ⟨l, hl, _⟩ := hlines line hline
      rw [hl]
      rfl
    have hord : ∀ line ∈ lines, ∀ l, split_line_on_comma line = some l →
        l.start_byte ≤ l.end_byte := by
      intro line hline l hl
      obtain ⟨l1, hl1, h1⟩ := hlines line hline
      rw [hl] at hl1
      cases hl1
      exact h1
    obtain ⟨brk1, tree, h⟩ := add_paths_returns lines hsome brk .NULL
    refine ⟨brk1, tree, h, ?_⟩
    intro x hx h1 h2
    have := add_paths_ranges_ordered lines hord brk .NULL brk1 tree h
      (by intro y hy; simp [chunk.ranges] at hy) x hx
    rcases this with h3 | h3
    · rw [h3] at h1
      exact absurd h1 (by decide)
    · exact h3
  · intro d1 s1 d2 s2 path term hd1 hd2 hl1 hl2 hs1 hs2 hp ht
    exact ⟨split_descriptor_line_atoi d1 s1 d2 s2 path term hd1 hd2 hl1 hl2 hs1 hs2 hp ht,
      atoi_of_fits d1 hd1, atoi_of_fits d2 hd2⟩

/-- Instance of `get_chunks_ranges_ordered`, on the two lines of Scenario B followed
by the line `3 4294967301 x`, whose second offset is read as 5. -/
theorem get_chunks_ranges_ordered_witness :
    (∀ line ∈ [cstr "10 19 header~checksum\n", cstr "0 30 header\n",
        cstr "3 4294967301 x\n"],
        ∃ l, split_line_on_comma line = some l ∧ l.start_byte ≤ l.end_byte)
      ∧ (get_chunks 100 [cstr "10 19 header~checksum\n", cstr "0 30 header\n",
          cstr "3 4294967301 x\n"]).map (fun r => r.2.ranges)
        = some [(100, 0, 30), (101, 10, 19), (102, 3, 5)]
      ∧ ∃ brk1 tree, get_chunks 100 [cstr "10 19 header~checksum\n", cstr "0 30 header\n",
          cstr "3 4294967301 x\n"] = some (brk1, tree)
        ∧ ∀ x ∈ tree.ranges, 0 ≤ x.2.1 → 0 ≤ x.2.2 → x.2.2 ≥ x.2.1 :=
  have hlines : ∀ line ∈ [cstr "10 19 header~checksum\n", cstr "0 30 header\n",
      cstr "3 4294967301 x\n"],
      ∃ l, split_line_on_comma line = some l ∧ l.start_byte ≤ l.end_byte := by
    intro line hline
    simp only [List.mem_cons, List.mem_singleton, List.not_mem_nil, or_false] at hline
    rcases hline with rfl | rfl | rfl
    · exact ⟨⟨10, 19, cstr "header~checksum", false⟩, by decide, by decide⟩
    · exact ⟨⟨0, 30, cstr "header", false⟩, by decide, by decide⟩
    · exact ⟨⟨3, 5, cstr "x", false⟩, by decide, by decide⟩
  ⟨hlines, by decide,
    (get_chunks_ranges_ordered 100 [cstr "10 19 header~checksum\n", cstr "0 30 header\n",
      cstr "3 4294967301 x\n"] hlines).1⟩

/-! ### Forest builder: the chunks that a path names -/

theorem named_chunks_NULL (ids : List Nat) : named_chunks .NULL ids = [] := by
  cases ids <;> rfl

theorem first_with_id_none (h : Nat) (c : chunk) (hc : ¬ chunk_found h c = true) :
    first_with_id h c = none := by
  induction c with
  | NULL => rfl
  | node g nx ch ihn _ =>
    simp only [chunk_found, Bool.or_eq_true, decide_eq_true_eq, not_or] at hc
    simp only [first_with_id, if_neg hc.1]
    exact ihn hc.2

theorem first_with_id_attach (h : Nat) (pre : List (fields × chunk)) (g : fields)
    (gnx gch : chunk) (hpre : ∀ p ∈ pre, p.1.id ≠ h) (hg : g.id = h) :
    first_with_id h (attach pre (.node g gnx gch)) = some (g, gch) := by
  induction pre with
  | nil => simp only [attach, first_with_id, if_pos hg]
  | cons p pre ih =>
    have hp : p.1.id ≠ h := hpre p (List.mem_cons_self _ _)
    simp only [attach, first_with_id, if_neg hp]
    exact ih (fun q hq => hpre q (List.mem_cons_of_mem _ hq))

theorem chunk_found_split (h : Nat) (c : chunk) (hc : chunk_found h c = true) :
    ∃ pre g gnx gch, c = attach pre (.node g gnx gch) ∧ (∀ p ∈ pre, p.1.id ≠ h) ∧ g.id = h := by
  induction c with
  | NULL => simp [chunk_found] at hc
  | node g nx ch ihn _ =>
    by_cases hid : g.id = h
    · exact ⟨[], g, nx, ch, rfl, by simp, hid⟩
    · have hc2 : chunk_found h nx = true := by
        simpa [chunk_found, hid] using hc
      obtain ⟨pre, g1, gnx, gch, he, hpre, hg⟩ := ihn hc2
      refine ⟨(g, ch) :: pre, g1, gnx, gch, ?_, ?_, hg⟩
      · simp only [attach, he]
      · intro p hp
        rcases List.mem_cons.1 hp with rfl | hp
        · exact hid
        · exact hpre p hp

theorem path_of_nil (nl : Int) (path : List Int) (h : path_of [] nl path) :
    nl = 0 ∨ (next_lower_chunk path).length = 0 := by
  rcases h with ⟨h1, _⟩ | ⟨_, tail, htail, hp⟩
  · exact Or.inl (by simpa using h1)
  · right
    rw [hp]
    exact next_lower_chunk_zero tail htail

theorem path_of_cons (seg : List Int) (segs : List (List Int)) (nl : Int) (path : List Int)
    (hseg : ∀ c ∈ seg, is_segment_end c = false) (h : path_of (seg :: segs) nl path) :
    nl ≠ 0 ∧ ∃ ret, next_lower_chunk path
        = { ret := ret, length := seg.length, hash := hash_code seg
            type_hash := hash_code (type_text seg) }
      ∧ path_of segs ret (path.drop (seg.length + 1)) := by
  rcases h with ⟨h1, hp⟩ | ⟨h1, tail, htail, hp⟩
  · obtain ⟨hr, hdrop⟩ := next_lower_chunk_join seg segs hseg
    refine ⟨by rw [h1]; simp, if segs.isEmpty then 0 else -1, by rw [hp, hr], ?_⟩
    rw [hp, hdrop]
    exact Or.inl ⟨rfl, rfl⟩
  · obtain ⟨hr, hdrop, _⟩ := next_lower_chunk_truncated seg segs tail hseg
    refine ⟨by rw [h1]; decide, -1, by rw [hp, hr], ?_⟩
    rw [hp, hdrop]
    exact Or.inr ⟨rfl, tail, htail, rfl⟩

/-- The chunks that the loop of `add_path` passes through after the current chunk
are the chunks that the remaining segments name under it in the new forest;
they are the chunks that these segments name under it in the old forest,
followed by newly allocated ones. -/
theorem add_path_loop_trace (m : Bool) (s e : Int) (segs : List (List Int))
    (hs : segments_ok segs) :
    ∀ (fuel : Nat) (nl : Int) (path : List Int), path_of segs nl path →
    ∀ (brk : Nat) (f : fields) (nx ch : chunk) (res : path_result),
      add_path_loop m s e fuel brk f nx ch nl path = some res →
      ∃ f1 ch1, res.tree = .node f1 nx ch1 ∧ f1.addr = f.addr ∧ f1.id = f.id
        ∧ res.trace = f.addr :: (named_chunks ch1 (segs.map segment_id)).map (fun g => g.addr)
        ∧ res.trace = f.addr ::
            ((named_chunks ch (segs.map segment_id)).map (fun g => g.addr)
              ++ List.range' brk (segs.length
                  - (named_chunks ch (segs.map segment_id)).length)) := by
  induction segs with
  | nil =>
    intro fuel nl path hp brk f nx ch res h
    cases fuel with
    | zero => simp [add_path_loop] at h
    | succ k =>
      rw [add_path_loop_succ] at h
      by_cases h0 : nl = 0
      · rw [if_pos h0] at h
        cases h
        exact ⟨_, ch, rfl, rfl, rfl, by simp [named_chunks], by simp [named_chunks]⟩
      · have hz : (next_lower_chunk path).length = 0 := by
          rcases path_of_nil nl path hp with h1 | h1
          · exact absurd h1 h0
          · exact h1
        rw [if_neg h0, if_pos hz] at h
        cases h
        exact ⟨_, ch, rfl, rfl, rfl, by simp [named_chunks], by simp [named_chunks]⟩
  | cons seg segs ih =>
    intro fuel nl path hp brk f nx ch res h
    have hseg := hs seg (List.mem_cons_self _ _)
    have hs2 : segments_ok segs := fun x hx => hs x (List.mem_cons_of_mem _ hx)
    obtain ⟨hnl, ret, hr, hp2⟩ := path_of_cons seg segs nl path hseg.2 hp
    have hpos : seg.length ≠ 0 := fun h0 => hseg.1 (List.length_eq_zero.1 h0)
    cases fuel with
    | zero => simp [add_path_loop] at h
    | succ k =>
      rw [add_path_loop_succ, if_neg hnl, hr] at h
      simp only [if_neg hpos] at h
      by_cases hfound : chunk_found (to_ulong (hash_code seg)) ch = true
      · rw [if_pos hfound] at h
        obtain ⟨pre, g, gnx, gch, hch, hpre, hg⟩ := chunk_found_split _ ch hfound
        rw [hch, on_found_attach _ _ pre g gnx gch hpre hg] at h
        simp only [Option.map_map, Option.map_eq_some'] at h
        obtain ⟨res1, hsub, rfl⟩ := h
        obtain ⟨g1, gch1, ht, ha, hi, htr1, htr2⟩ :=
          ih hs2 k ret _ hp2 brk _ gnx gch res1 hsub
        have hg1 : g1.id = segment_id seg := by
          rw [hi]
          exact hg
        refine ⟨f, attach pre res1.tree, rfl, rfl, rfl, ?_, ?_⟩
        · show f.addr :: res1.trace = _
          rw [ht, List.map_cons, named_chunks,
            first_with_id_attach (segment_id seg) pre g1 gnx gch1 hpre hg1, htr1, ← ha]
          rfl
        · show f.addr :: res1.trace = _
          rw [hch, List.map_cons, named_chunks,
            first_with_id_attach (segment_id seg) pre g gnx gch hpre hg, htr2]
          simp only [List.map_cons, List.length_cons, List.cons_append, Nat.succ_sub_succ]
          rfl
      · rw [if_neg hfound] at h
        simp only [Option.map_eq_some'] at h
        obtain ⟨res1, hsub, rfl⟩ := h
        obtain ⟨g1, gch1, ht, ha, hi, htr1, htr2⟩ :=
          ih hs2 k ret _ hp2 (brk + 1) _ ch .NULL res1 hsub
        have hg1 : g1.id = segment_id seg := by
          rw [hi]
          rfl
        refine ⟨f, res1.tree, rfl, rfl, rfl, ?_, ?_⟩
        · show f.addr :: res1.trace = _
          rw [ht, List.map_cons, named_chunks]
          simp only [first_with_id, if_pos hg1]
          rw [htr1, ← ha]
          rfl
        · show f.addr :: res1.trace = _
          rw [List.map_cons, named_chunks, first_with_id_none (segment_id seg) ch hfound, htr2,
            named_chunks_NULL]
          simp only [List.map_nil, List.length_nil, List.nil_append, Nat.sub_zero,
            List.length_cons, List.range'_succ, new_chunk]

/-- The chunks that `add_path` passes through are the chunks that the segments
of the path (those before a zero-length segment, if there is one) name in the
new forest; they are the chunks of the old forest that can be reused for the
path, followed by newly allocated ones. -/
theorem add_path_trace (brk : Nat) (tree : chunk) (line : List Int) (l : split_line)
    (hl : split_line_on_comma line = some l) (segs : List (List Int)) (hs : segments_ok segs)
    (hp : l.path = join_segments segs
      ∨ ∃ tail, (tail = [] ∨ ∃ t, tail = 126 :: t) ∧ l.path = truncated_path segs tail)
    (res : path_result) (hres : add_path brk tree line = some res) :
    res.trace = (named_chunks res.tree (segs.map segment_id)).map (fun g => g.addr)
      ∧ res.trace = visited_chunks brk tree (segs.map segment_id) := by
  unfold add_path at hres
  simp only [hl] at hres
  cases segs with
  | nil =>
    have hz : (next_lower_chunk l.path).length = 0 := by
      rcases hp with hp | ⟨tail, htail, hp⟩
      · rw [hp]
        rfl
      · rw [hp]
        exact next_lower_chunk_zero tail htail
    rw [if_pos hz] at hres
    cases hres
    cases tree <;> simp [named_chunks, visited_chunks, reused_chunks]
  | cons seg rest =>
    have hseg := hs seg (List.mem_cons_self _ _)
    have hs2 : segments_ok rest := fun x hx => hs x (List.mem_cons_of_mem _ hx)
    have hpos : seg.length ≠ 0 := fun h0 => hseg.1 (List.length_eq_zero.1 h0)
    have hpo : ∃ nl, path_of (seg :: rest) nl l.path := by
      rcases hp with hp | ⟨tail, htail, hp⟩
      · exact ⟨_, Or.inl ⟨rfl, hp⟩⟩
      · exact ⟨-1, Or.inr ⟨rfl, tail, htail, hp⟩⟩
    obtain ⟨nl, hpo⟩ := hpo
    obtain ⟨_, ret, hr, hp2⟩ := path_of_cons seg rest nl l.path hseg.2 hpo
    rw [hr] at hres
    simp only [if_neg hpos] at hres
    cases tree with
    | NULL =>
      simp only at hres
      obtain ⟨f1, ch1, ht, ha, hi, htr1, htr2⟩ :=
        add_path_loop_trace _ _ _ rest hs2 _ ret _ hp2 _ _ _ _ res hres
      have hg1 : f1.id = segment_id seg := by
        rw [hi]
        rfl
      constructor
      · rw [ht, List.map_cons, named_chunks]
        simp only [first_with_id, if_pos hg1]
        rw [htr1, ← ha]
        rfl
      · rw [htr2, named_chunks_NULL]
        simp [visited_chunks, reused_chunks, List.range'_succ, new_chunk]
    | node f nx ch =>
      simp only at hres
      by_cases hid : f.id ≠ to_ulong (hash_code seg)
      · rw [if_pos hid] at hres
        simp only [Option.map_eq_some'] at hres
        obtain ⟨res1, hsub, rfl⟩ := hres
        obtain ⟨f1, ch1, ht, ha, hi, htr1, htr2⟩ :=
          add_path_loop_trace _ _ _ rest hs2 _ ret _ hp2 _ _ _ _ res1 hsub
        have hg1 : f1.id = segment_id seg := by
          rw [hi]
          rfl
        have hid2 : ¬ f.id = segment_id seg := hid
        constructor
        · show res1.trace = _
          rw [ht, List.map_cons, named_chunks]
          simp only [first_with_id, if_neg hid2, if_pos hg1]
          rw [htr1, ← ha]
          rfl
        · show res1.trace = _
          rw [htr2, named_chunks_NULL]
          simp [visited_chunks, reused_chunks, hid2, List.range'_succ, new_chunk, or_modifiable]
      · rw [if_neg hid] at hres
        have hid2 : f.id = segment_id seg := not_not.1 hid
        obtain ⟨f1, ch1, ht, ha, hi, htr1, htr2⟩ :=
          add_path_loop_trace _ _ _ rest hs2 _ ret _ hp2 _ _ _ _ res hres
        have hg1 : f1.id = segment_id seg := by
          rw [hi]
          exact hid2
        constructor
        · rw [ht, List.map_cons, named_chunks]
          simp only [first_with_id, if_pos hg1]
          rw [htr1, ← ha]
          rfl
        · rw [htr2]
          simp only [visited_chunks, reused_chunks, List.map_cons, if_pos hid2, List.length_cons,
            List.cons_append, List.length_map, Nat.succ_sub_succ]
          rfl

theorem tilde_of_segment_end (c : Int) (h1 : is_segment_end c = true)
    (h2 : is_path_end c = false) : c = 126 := by
  simp only [is_path_end, Bool.or_eq_false_iff, decide_eq_false_iff_not] at h2
  simp only [is_segment_end, Bool.or_eq_true, decide_eq_true_eq] at h1
  rcases h1 with ((h1 | h1) | h1) | h1
  · exact h1
  · exact absurd h1 h2.1.1
  · exact absurd h1 h2.1.2
  · exact absurd h1 h2.2

/-- Every path is made of non-empty segments joined by tildes, or of non-empty
segments followed by a zero-length segment. -/
theorem path_shape (n : Nat) :
    ∀ (p : List Int), p.length ≤ n → (∀ c ∈ p, is_path_end c = false) →
    ∃ segs, segments_ok segs
      ∧ (p = join_segments segs
        ∨ ∃ tail, (tail = [] ∨ ∃ t, tail = 126 :: t) ∧ p = truncated_path segs tail) := by
  induction n with
  | zero =>
    intro p hlen _
    have hp0 : p = [] := List.length_eq_zero.1 (by omega)
    exact ⟨[], by intro x hx; simp at hx, Or.inl (by rw [hp0]; rfl)⟩
  | succ n ih =>
    intro p hlen hp
    have htake := segment_length_take p
    have hsplit : p = p.take (segment_length p) ++ p.drop (segment_length p) :=
      (List.take_append_drop _ _).symm
    cases hd : p.drop (segment_length p) with
    | nil =>
      rw [hd, List.append_nil] at hsplit
      by_cases he : p = []
      · exact ⟨[], by intro x hx; simp at hx, Or.inl (by rw [he]; rfl)⟩
      · refine ⟨[p], ?_, Or.inl rfl⟩
        intro x hx
        rw [List.mem_singleton] at hx
        subst hx
        refine ⟨he, ?_⟩
        intro c hc
        rw [hsplit] at hc
        exact htake c hc
    | cons c tl =>
      have hc : c = 126 := by
        apply tilde_of_segment_end c (segment_length_drop p c tl hd)
        apply hp
        rw [hsplit, hd]
        simp
      subst hc
      rw [hd] at hsplit
      by_cases hz : segment_length p = 0
      · rw [hz, List.take_zero, List.nil_append] at hsplit
        exact ⟨[], by intro x hx; simp at hx, Or.inr ⟨p, Or.inr ⟨tl, hsplit⟩, rfl⟩⟩
      · have hne : p.take (segment_length p) ≠ [] := by
          intro h0
          have h1 := congrArg List.length h0
          rw [List.length_take, List.length_nil, min_eq_left (segment_length_le p)] at h1
          exact hz h1
        have hlen2 : tl.length ≤ n := by
          have := congrArg List.length hsplit
          simp only [List.length_append, List.length_cons] at this
          omega
        have hp2 : ∀ c ∈ tl, is_path_end c = false := by
          intro c hc
          apply hp
          rw [hsplit]
          simp [hc]
        have hok : ∀ segs, segments_ok segs →
            segments_ok (p.take (segment_length p) :: segs) := by
          intro segs hs x hx
          rcases List.mem_cons.1 hx with rfl | hx
          · exact ⟨hne, htake⟩
          · exact hs x hx
        obtain ⟨segs, hs, hshape⟩ := ih tl hlen2 hp2
        rcases hshape with hj | ⟨tail, htail, ht⟩
        · cases segs with
          | nil =>
            refine ⟨[p.take (segment_length p)], hok [] hs, Or.inr ⟨[], Or.inl rfl, ?_⟩⟩
            rw [hj] at hsplit
            exact hsplit
          | cons a as =>
            refine ⟨p.take (segment_length p) :: a :: as, hok _ hs, Or.inl ?_⟩
            rw [hj] at hsplit
            exact hsplit
        · refine ⟨p.take (segment_length p) :: segs, hok _ hs, Or.inr ⟨tail, htail, ?_⟩⟩
          rw [ht] at hsplit
          exact hsplit

theorem takeWhile_no_path_end (l : List Int) :
    ∀ c ∈ l.takeWhile (fun c => !is_path_end c), is_path_end c = false := by
  intro c hc
  have := List.mem_takeWhile_imp hc
  simpa using this

theorem split_line_path (line : List Int) (l : split_line)
    (hl : split_line_on_comma line = some l) : ∀ c ∈ l.path, is_path_end c = false := by
  unfold split_line_on_comma at hl
  split at hl
  · split at hl
    · cases hl
      exact takeWhile_no_path_end _
    · cases hl
  · cases hl

theorem ranges_map_fst (c : chunk) : c.ranges.map (fun x => x.1) = c.addrs := by
  induction c with
  | NULL => rfl
  | node f nx ch ihn ihc => simp [chunk.ranges, chunk.addrs, ihn, ihc]

/-- In a heap a chunk has one byte range. -/
theorem ranges_unique (c : chunk) (hnd : c.addrs.Nodup) (a : Nat) (r1 r2 : Int × Int)
    (h1 : (a, r1) ∈ c.ranges) (h2 : (a, r2) ∈ c.ranges) : r1 = r2 := by
  rw [← ranges_map_fst] at hnd
  have := List.inj_on_of_nodup_map hnd h1 h2 rfl
  exact (Prod.mk.inj this).2

theorem first_with_id_spec (h : Nat) (c : chunk) (g : fields) (gch : chunk)
    (hf : first_with_id h c = some (g, gch)) :
    g.id = h ∧ (g.addr, g.start_byte, g.end_byte) ∈ c.ranges
      ∧ ∀ x ∈ gch.ranges, x ∈ c.ranges := by
  induction c with
  | NULL => simp [first_with_id] at hf
  | node f nx ch ihn _ =>
    unfold first_with_id at hf
    split_ifs at hf with hid
    · simp only [Option.some.injEq, Prod.mk.injEq] at hf
      obtain ⟨rfl, rfl⟩ := hf
      refine ⟨hid, by simp [chunk.ranges], ?_⟩
      intro x hx
      simp [chunk.ranges, hx]
    · obtain ⟨h1, h2, h3⟩ := ihn hf
      refine ⟨h1, by simp [chunk.ranges, h2], ?_⟩
      intro x hx
      simp [chunk.ranges, h3 x hx]

theorem named_chunks_ranges (ids : List Nat) :
    ∀ (c : chunk), ∀ g ∈ named_chunks c ids, (g.addr, g.start_byte, g.end_byte) ∈ c.ranges := by
  induction ids with
  | nil => intro c g hg; simp [named_chunks] at hg
  | cons h hs ih =>
    intro c g hg
    rw [named_chunks] at hg
    cases hf : first_with_id h c with
    | none => simp [hf] at hg
    | some r =>
      obtain ⟨g1, gch⟩ := r
      obtain ⟨_, h2, h3⟩ := first_with_id_spec h c g1 gch hf
      simp only [hf, List.mem_cons] at hg
      rcases hg with rfl | hg
      · exact h2
      · exact h3 _ (ih gch g hg)

theorem named_chunks_ids (ids : List Nat) :
    ∀ (c : chunk), (named_chunks c ids).length = ids.length →
      (named_chunks c ids).map (fun g => g.id) = ids := by
  induction ids with
  | nil => intro c _; simp [named_chunks]
  | cons h hs ih =>
    intro c hlen
    rw [named_chunks] at hlen ⊢
    cases hf : first_with_id h c with
    | none => simp [hf] at hlen
    | some r =>
      obtain ⟨g1, gch⟩ := r
      obtain ⟨h1, _, _⟩ := first_with_id_spec h c g1 gch hf
      simp only [hf, List.length_cons, Nat.succ.injEq] at hlen
      simp only [hf, List.map_cons, h1, ih gch hlen]

/-! ### Claims on the forest builder: the chunk that receives the byte range -/

/-- Claim C7: in a heap, for every forest and every well-formed line with the
non-empty segments `segs`, `add_path` returns and has stored the byte range.
In the new forest every segment of the path names a chunk (the first top-level
chunk with the id of the first segment, then the first child with the id of the
next segment, and so on); the chunk `leaf` named by the last segment, whose id
is the hash code of that segment, has the two offsets of the line as start and
end, whatever its range was; every chunk that existed before the call and is
not that chunk, the ancestors passed through included, has the byte range it
had.  The chunks passed through (the trace) are the chunks that the path names
in the new forest; they are the chunks of the old forest that can be reused for
the path, followed by newly allocated ones.  The addresses of the new forest
are still pairwise distinct. -/
theorem add_path_range_frame (brk : Nat) (tree : chunk) (d1 : List Int) (s1 : Int)
    (d2 : List Int) (s2 : Int) (segs : List (List Int)) (term : List Int)
    (hw : well_formed_offsets d1 s1 d2 s2 term) (hs : segments_ok segs) (hne : segs ≠ [])
    (hok : heap_ok brk tree) :
    ∃ res leaf,
      add_path brk tree (descriptor_line d1 s1 d2 s2 (join_segments segs) term) = some res
        ∧ res.stored = true
        ∧ (named_chunks res.tree (segs.map segment_id)).length = segs.length
        ∧ (named_chunks res.tree (segs.map segment_id)).getLast? = some leaf
        ∧ (segs.map segment_id).getLast? = some leaf.id
        ∧ leaf.start_byte = decimal_value d1 ∧ leaf.end_byte = decimal_value d2
        ∧ (leaf.addr, decimal_value d1, decimal_value d2) ∈ res.tree.ranges
        ∧ (∀ x ∈ tree.ranges, x.1 ≠ leaf.addr → x ∈ res.tree.ranges)
        ∧ res.trace = (named_chunks res.tree (segs.map segment_id)).map (fun g => g.addr)
        ∧ res.trace = visited_chunks brk tree (segs.map segment_id)
        ∧ res.trace.getLast? = some leaf.addr
        ∧ heap_ok res.brk res.tree := by
  obtain ⟨res, hres, hst, hlen⟩ := add_path_total brk tree d1 s1 d2 s2 segs term hw hs hne
  obtain ⟨l, hl, hrun⟩ := add_path_run brk tree _ res hres
  have hsplit := split_descriptor_line d1 s1 d2 s2 _ term hw (join_segments_path _ hs)
  rw [hsplit] at hl
  cases hl
  obtain ⟨htr1, htr2⟩ := add_path_trace brk tree _ _ hsplit segs hs (Or.inl rfl) res hres
  have hheap := run_heap_ok hrun hok
  have hnlen : (named_chunks res.tree (segs.map segment_id)).length = segs.length := by
    have := congrArg List.length htr1
    rw [List.length_map] at this
    omega
  have hnn : named_chunks res.tree (segs.map segment_id) ≠ [] := by
    intro h0
    rw [h0] at hnlen
    exact hne (List.length_eq_zero.1 hnlen.symm)
  have hlast := List.getLast?_eq_getLast _ hnn
  have hmem : (named_chunks res.tree (segs.map segment_id)).getLast hnn
      ∈ named_chunks res.tree (segs.map segment_id) := List.getLast_mem hnn
  have hids := named_chunks_ids (segs.map segment_id) res.tree (by rw [hnlen, List.length_map])
  obtain ⟨a, h1, h2⟩ := run_stored_leaf hrun hst
  have ha : a = ((named_chunks res.tree (segs.map segment_id)).getLast hnn).addr := by
    rw [htr1, List.getLast?_map, hlast] at h1
    exact (Option.some.inj h1).symm
  subst ha
  have hr := ranges_unique res.tree hheap.1 _ _ _
    (named_chunks_ranges _ res.tree _ hmem) h2
  refine ⟨res, _, hres, hst, hnlen, hlast, ?_, (Prod.mk.inj hr).1, (Prod.mk.inj hr).2, h2, ?_,
    htr1, htr2, h1, hheap⟩
  · have h3 := congrArg List.getLast? hids
    rw [List.getLast?_map, hlast] at h3
    exact h3.symm
  · intro x hx hne2
    apply run_ranges_frame hrun x hx
    intro _
    rw [h1]
    intro heq
    exact hne2 (Option.some.inj heq).symm

/-- Instance of `add_path_range_frame`.  Scenario B: after `10 19 header~checksum`
and `0 30 header` the forest is one top-level chunk `header` with range
`(0, 30)` and one child `checksum` with range `(10, 19)`.  On the chunk `p` with
the children `b` (range `(2, 3)`) and `a`, the line `4 5 p~a` stores `(4, 5)`
on `a`, the second child, and leaves `b` as it is. -/
theorem add_path_range_frame_witness :
    heap_ok 102 scenario_B_first ∧ heap_ok 103 p_b_a
      ∧ (add_path 100 .NULL (cstr "10 19 header~checksum\n")).map (fun r => r.tree)
        = some scenario_B_first
      ∧ (add_path 102 scenario_B_first (cstr "0 30 header\n")).map (fun r => r.tree.ranges)
        = some [(100, 0, 30), (101, 10, 19)]
      ∧ add_path 103 p_b_a (cstr "4 5 p~a\n")
        = some { brk := 103
                 tree := .node ⟨100, 112, 112, -1, -1, false⟩ .NULL
                   (.node ⟨102, 98, 98, 2, 3, false⟩
                     (.node ⟨101, 97, 97, 4, 5, false⟩ .NULL .NULL) .NULL)
                 trace := [100, 101]
                 stored := true }
      ∧ (∃ res leaf, add_path 102 scenario_B_first (cstr "0 30 header\n") = some res
          ∧ (named_chunks res.tree [segment_id (cstr "header")]).getLast? = some leaf
          ∧ leaf.start_byte = 0 ∧ leaf.end_byte = 30
          ∧ (∀ x ∈ scenario_B_first.ranges, x.1 ≠ leaf.addr → x ∈ res.tree.ranges))
      ∧ (∃ res leaf, add_path 103 p_b_a (cstr "4 5 p~a\n") = some res
          ∧ (named_chunks res.tree [segment_id (cstr "p"), segment_id (cstr "a")]).getLast?
            = some leaf
          ∧ leaf.start_byte = 4 ∧ leaf.end_byte = 5
          ∧ (∀ x ∈ p_b_a.ranges, x.1 ≠ leaf.addr → x ∈ res.tree.ranges)) :=
  have hokB : heap_ok 102 scenario_B_first := ⟨by decide, by decide⟩
  have hokP : heap_ok 103 p_b_a := ⟨by decide, by decide⟩
  have hwB : well_formed_offsets (cstr "0") 32 (cstr "30") 32 [10] :=
    ⟨by decide, by decide, by decide, by decide, by decide, by decide, by decide, by decide,
      by intro c rest h; cases h; rfl⟩
  have hwP : well_formed_offsets (cstr "4") 32 (cstr "5") 32 [10] :=
    ⟨by decide, by decide, by decide, by decide, by decide, by decide, by decide, by decide,
      by intro c rest h; cases h; rfl⟩
  have hsB : segments_ok [cstr "header"] := by
    intro seg hseg
    rw [List.mem_singleton] at hseg
    subst hseg
    exact ⟨by decide, by decide⟩
  have hsP : segments_ok [cstr "p", cstr "a"] := by
    intro seg hseg
    simp only [List.mem_cons, List.mem_singleton, List.not_mem_nil, or_false] at hseg
    rcases hseg with rfl | rfl
    · exact ⟨by decide, by decide⟩
    · exact ⟨by decide, by decide⟩
  ⟨hokB, hokP, by decide, by decide, by decide,
    (add_path_range_frame 102 scenario_B_first (cstr "0") 32 (cstr "30") 32 [cstr "header"]
      [10] hwB hsB (by simp) hokB).imp
      (fun _ h => h.imp (fun _ k => ⟨k.1, k.2.2.2.1, k.2.2.2.2.2.1, k.2.2.2.2.2.2.1,
        k.2.2.2.2.2.2.2.2.1⟩)),
    (add_path_range_frame 103 p_b_a (cstr "4") 32 (cstr "5") 32 [cstr "p", cstr "a"]
      [10] hwP hsP (by simp) hokP).imp
      (fun _ h => h.imp (fun _ k => ⟨k.1, k.2.2.2.1, k.2.2.2.2.2.1, k.2.2.2.2.2.2.1,
        k.2.2.2.2.2.2.2.2.1⟩))⟩

/-! ### Claims on the forest builder: the modifiable flags -/

/-- Claim C8: for every forest lying in a heap and every line that can be split,
`add_path` returns.  The path of the line is made of non-empty segments `segs`,
alone or followed by a zero-length segment; the chunks passed through (the
trace) are the chunks that `segs` names in the new forest, and those of them
that existed before the call are the chunks of the old forest that can be
reused for the path (`reused_chunks`: the head of the top-level list when its
id is that of the first segment, then the first child with the id of the next
segment, and so on).  Every chunk that existed before the call and was passed
through, ancestors included, has its old flag or-ed with the flag of the line;
every chunk that was not passed through has its old flag; the new forest lies
in the heap again.  Hence, over any sequence of lines, a flag that is set stays
set. -/
theorem add_path_modifiable (brk : Nat) (tree : chunk) (line : List Int) (l : split_line)
    (hl : split_line_on_comma line = some l) (hok : heap_ok brk tree) :
    ∃ res, add_path brk tree line = some res
      ∧ (∀ x ∈ tree.flags, x.1 ∈ res.trace → (x.1, x.2 || l.modifiable) ∈ res.tree.flags)
      ∧ (∀ x ∈ tree.flags, x.1 ∉ res.trace → x ∈ res.tree.flags)
      ∧ heap_ok res.brk res.tree
      ∧ (∀ (lines : List (List Int)) (brk1 : Nat) (tree1 : chunk),
          add_paths brk tree lines = some (brk1, tree1) →
          ∀ a, (a, true) ∈ tree.flags → (a, true) ∈ tree1.flags)
      ∧ (∃ segs, segments_ok segs
          ∧ (l.path = join_segments segs
            ∨ ∃ tail, (tail = [] ∨ ∃ t, tail = 126 :: t) ∧ l.path = truncated_path segs tail))
      ∧ (∀ segs, segments_ok segs →
          (l.path = join_segments segs
            ∨ ∃ tail, (tail = [] ∨ ∃ t, tail = 126 :: t) ∧ l.path = truncated_path segs tail) →
          res.trace = (named_chunks res.tree (segs.map segment_id)).map (fun g => g.addr)
            ∧ res.trace = visited_chunks brk tree (segs.map segment_id)
            ∧ (∀ x ∈ tree.flags, x.1 ∈ reused_chunks tree (segs.map segment_id) →
                (x.1, x.2 || l.modifiable) ∈ res.tree.flags)
            ∧ (∀ x ∈ tree.flags, x.1 ∉ reused_chunks tree (segs.map segment_id) →
                x ∈ res.tree.flags)) := by
  obtain ⟨res, h⟩ := add_path_returns brk tree line l hl
  obtain ⟨l1, hl1, hrun⟩ := add_path_run brk tree line res h
  rw [hl] at hl1
  cases hl1
  have hvis := run_flags_visited hrun hok (fun hph => by cases hph)
  have hunv := run_flags_unvisited hrun
  refine ⟨res, h, hvis, hunv, run_heap_ok hrun hok, ?_,
    path_shape l.path.length l.path (le_refl _) (split_line_path line l hl), ?_⟩
  · intro lines brk1 tree1 hseq a ha
    exact add_paths_flags_mono lines brk tree brk1 tree1 hseq a ha
  · intro segs hs hp
    obtain ⟨htr1, htr2⟩ := add_path_trace brk tree line l hl segs hs hp res h
    have hiff : ∀ x ∈ tree.flags,
        (x.1 ∈ res.trace ↔ x.1 ∈ reused_chunks tree (segs.map segment_id)) := by
      intro x hx
      have hlt : x.1 < brk := hok.2 _ (flags_addr tree x hx)
      rw [htr2, visited_chunks, List.mem_append, List.mem_range']
      constructor
      · rintro (h1 | ⟨i, _, h1⟩)
        · exact h1
        · omega
      · exact Or.inl
    refine ⟨htr1, htr2, ?_, ?_⟩
    · intro x hx hin
      exact hvis x hx ((hiff x hx).2 hin)
    · intro x hx hin
      exact hunv x hx (fun h1 => hin ((hiff x hx).1 h1))

/-- Instance of `add_path_modifiable`.  Scenario C: after `0 4 a~b` the line
`0 4 a~b,Enabled` sets the flag of both chunks `a` and `b`.  On the chunk `p`
with the children `b` and `a`, the line `4 5 p~a,Enabled` sets the flag of `p`
and of `a`, the second child, and leaves the flag of `b` unset. -/
theorem add_path_modifiable_witness :
    heap_ok 102 scenario_C_first ∧ heap_ok 103 p_b_a
      ∧ split_line_on_comma (cstr "0 4 a~b,Enabled\n")
        = some { start_byte := 0, end_byte := 4, path := cstr "a~b", modifiable := true }
      ∧ split_line_on_comma (cstr "4 5 p~a,Enabled\n")
        = some { start_byte := 4, end_byte := 5, path := cstr "p~a", modifiable := true }
      ∧ (add_path 100 .NULL (cstr "0 4 a~b\n")).map (fun r => r.tree) = some scenario_C_first
      ∧ scenario_C_first.flags = [(100, false), (101, false)]
      ∧ (add_path 102 scenario_C_first (cstr "0 4 a~b,Enabled\n")).map
          (fun r => (r.trace, r.tree.flags))
        = some ([100, 101], [(100, true), (101, true)])
      ∧ p_b_a.flags = [(100, false), (102, false), (101, false)]
      ∧ reused_chunks p_b_a [segment_id (cstr "p"), segment_id (cstr "a")] = [100, 101]
      ∧ (add_path 103 p_b_a (cstr "4 5 p~a,Enabled\n")).map
          (fun r => (r.trace, r.tree.flags))
        = some ([100, 101], [(100, true), (102, false), (101, true)])
      ∧ (∃ res, add_path 102 scenario_C_first (cstr "0 4 a~b,Enabled\n") = some res
          ∧ (∀ x ∈ scenario_C_first.flags, x.1 ∈ res.trace →
              (x.1, x.2 || true) ∈ res.tree.flags)
          ∧ (∀ x ∈ scenario_C_first.flags, x.1 ∉ res.trace → x ∈ res.tree.flags))
      ∧ (∃ res, add_path 103 p_b_a (cstr "4 5 p~a,Enabled\n") = some res
          ∧ (∀ x ∈ p_b_a.flags, x.1 ∈ res.trace → (x.1, x.2 || true) ∈ res.tree.flags)
          ∧ (∀ x ∈ p_b_a.flags, x.1 ∉ res.trace → x ∈ res.tree.flags)) :=
  have hokC : heap_ok 102 scenario_C_first := ⟨by decide, by decide⟩
  have hokP : heap_ok 103 p_b_a := ⟨by decide, by decide⟩
  ⟨hokC, hokP, by decide, by decide, by decide, by decide, by decide, by decide, by decide,
    by decide,
    (add_path_modifiable 102 scenario_C_first (cstr "0 4 a~b,Enabled\n")
      { start_byte := 0, end_byte := 4, path := cstr "a~b", modifiable := true }
      (by decide) hokC).imp (fun _ k => ⟨k.1, k.2.1, k.2.2.1⟩),
    (add_path_modifiable 103 p_b_a (cstr "4 5 p~a,Enabled\n")
      { start_byte := 4, end_byte := 5, path := cstr "p~a", modifiable := true }
      (by decide) hokP).imp (fun _ k => ⟨k.1, k.2.1, k.2.2.1⟩)⟩

end SmartChunks
